import Mathlib

/-! # Escape-time kernel of `mandelbrotwasm.c`

A shallow embedding of `src/mandelbrotwasm.c`.

* `double` is modelled by `Double`: IEEE-754 binary64 with round-to-nearest-even on every
  operation.  A finite value is stored as the integer number of units of `2^-1074` it holds
  (every finite binary64 value is such a multiple).  The sign of zero and NaN payloads are not
  represented; nothing in the program observes them.
* `int` is a 32-bit two's complement integer; arithmetic that can leave the range is reduced
  with `wrap32`.
* A conversion from `double` to `int` whose value does not fit, and a store outside the
  allocated block, are undefined in C; functions that can reach one return `Option`.
* The global `last_dimensions` is passed explicitly: `call` runs one exported function on a
  value of the global and returns the value it leaves.
* `malloc`, `sin` and the out-of-range byte cast belong to the host (`Host`); statements hold
  for every host, and `plainHost` and `seriesHost` serve the concrete runs.
* `naive_escape_count` is the escape-time count in the words of the specification; the kernel
  `mandelbrot_iterations` is compared with it.
-/

namespace Mandelbrot

/-! ## Binary64 arithmetic -/

/-- Floor of the base-2 logarithm, by repeated halving; the first argument bounds the depth. -/
def ilog2Aux : Nat → Nat → Nat
  | 0, _ => 0
  | f + 1, n => if n < 2 then 0 else ilog2Aux f (n / 2) + 1

/-- Floor of the base-2 logarithm of `n` (and `0` for `n = 0`). -/
def ilog2 (n : Nat) : Nat := ilog2Aux n n

/-- The number of units of `2^-1074` in `1.0`. -/
def unitsPerOne : Nat := 1 <<< 1074

/-- The first magnitude, in units, that no longer rounds to a finite value: `2^1024`. -/
def overflowUnits : Nat := unitsPerOne <<< 1024

/-- Round the non-negative rational `n / d` to the nearest number with at most 53 significant
bits, ties to even.  Below `2^53` the spacing is one unit, which covers the subnormal range. -/
def roundUnits (n d : Nat) : Nat :=
  let s := ilog2 (n / d) - 52
  let D := d <<< s
  let q := n / D
  let r := n % D
  if 2 * r < D then q <<< s
  else if D < 2 * r then (q + 1) <<< s
  else (q + q % 2) <<< s

/-- A binary64 value: NaN, an infinity, or the finite value `n * 2^-1074`. -/
inductive Double where
  | nan : Double
  | inf (neg : Bool) : Double
  | fin (n : Int) : Double
deriving DecidableEq

namespace Double

/-- Rounding of the signed magnitude `n / d` (in units); a result of `2^1024` or more
overflows to an infinity. -/
def round (neg : Bool) (n d : Nat) : Double :=
  let r := roundUnits n d
  if overflowUnits ≤ r then inf neg else fin (if neg then -(r : Int) else (r : Int))

/-- Rounding of the rational `num / den`, given in units. -/
def roundFrac (num : Int) (den : Nat) : Double :=
  round (decide (num < 0)) num.natAbs den

/-- Conversion of an `int` to `double`; exact for every 32-bit value. -/
def ofInt (i : Int) : Double := roundFrac (i * unitsPerOne) 1

/-- The correctly rounded value of the decimal literal `num / den`. -/
def lit (num : Int) (den : Nat) : Double := roundFrac (num * unitsPerOne) den

/-- Unary minus. -/
def neg : Double → Double
  | nan => nan
  | inf b => inf (!b)
  | fin n => fin (-n)

/-- Addition. -/
def add : Double → Double → Double
  | nan, _ => nan
  | _, nan => nan
  | inf a, inf b => if a = b then inf a else nan
  | inf a, fin _ => inf a
  | fin _, inf b => inf b
  | fin a, fin b => roundFrac (a + b) 1

/-- Subtraction, which IEEE-754 defines as addition of the negated operand. -/
def sub (x y : Double) : Double := add x (neg y)

/-- Multiplication. -/
def mul : Double → Double → Double
  | nan, _ => nan
  | _, nan => nan
  | inf a, inf b => inf (a != b)
  | inf a, fin n => if n = 0 then nan else inf (a != decide (n < 0))
  | fin n, inf b => if n = 0 then nan else inf (decide (n < 0) != b)
  | fin a, fin b => roundFrac (a * b) unitsPerOne

/-- Division; a zero divisor counts as `+0`. -/
def div : Double → Double → Double
  | nan, _ => nan
  | _, nan => nan
  | inf _, inf _ => nan
  | inf a, fin n => inf (a != decide (n < 0))
  | fin _, inf _ => fin 0
  | fin a, fin b =>
    if b = 0 then (if a = 0 then nan else inf (decide (a < 0)))
    else roundFrac (a * unitsPerOne * b.sign) b.natAbs

/-- The comparison `x < y`; false as soon as an operand is NaN. -/
def lt : Double → Double → Bool
  | nan, _ => false
  | _, nan => false
  | inf a, inf b => a && !b
  | inf a, fin _ => a
  | fin _, inf b => !b
  | fin a, fin b => decide (a < b)

/-- The comparison `x <= y`; false as soon as an operand is NaN. -/
def le : Double → Double → Bool
  | nan, _ => false
  | _, nan => false
  | inf a, inf b => a || !b
  | inf a, fin _ => a
  | fin _, inf b => !b
  | fin a, fin b => decide (a ≤ b)

instance : Neg Double := ⟨neg⟩
instance : Add Double := ⟨add⟩
instance : Sub Double := ⟨sub⟩
instance : Mul Double := ⟨mul⟩
instance : Div Double := ⟨div⟩
instance : LT Double := ⟨fun x y => lt x y = true⟩
instance : LE Double := ⟨fun x y => le x y = true⟩
instance (x y : Double) : Decidable (x < y) := inferInstanceAs (Decidable (lt x y = true))
instance (x y : Double) : Decidable (x ≤ y) := inferInstanceAs (Decidable (le x y = true))

/-- The cast `(int)x`: truncation toward zero, undefined when the truncated value does not
fit a 32-bit `int` (in particular for NaN and the infinities). -/
def toInt : Double → Option Int
  | fin n =>
    let t := Int.tdiv n unitsPerOne
    if -2147483648 ≤ t ∧ t ≤ 2147483647 then some t else none
  | _ => none

/-- The real number a finite value stands for (and `0` for NaN and the infinities). -/
def toRat : Double → ℚ
  | fin n => (n : ℚ) / (unitsPerOne : ℚ)
  | _ => 0

/-- Finite values: neither NaN nor an infinity. -/
def isFinite : Double → Bool
  | fin _ => true
  | _ => false

end Double

/-! ## 32-bit integers -/

/-- Reduction of an integer to the 32-bit two's complement range. -/
def wrap32 (n : Int) : Int := (n + 2147483648) % 4294967296 - 2147483648

/-! ## The iteration kernel -/

/-- The loop of `mandelbrot_iterations`, entered with the counter at `k` and the loop
variables `u v u2 v2`.  The first argument bounds the number of passes. -/
def mandelbrot_loop (x y : Double) (maxiter : Int) :
    Nat → Int → Double → Double → Double → Double → Int
  | 0, k, _, _, _, _ => k
  | fuel + 1, k, u, v, u2, v2 =>
    if k < maxiter ∧ u2 + v2 < Double.lit 4 1 then
      let v1 := Double.ofInt 2 * u * v + y
      let u1 := u2 - v2 + x
      mandelbrot_loop x y maxiter fuel (k + 1) u1 v1 (u1 * u1) (v1 * v1)
    else k

/-- The function `mandelbrot_iterations`.  The loop makes fewer than `maxiter` passes, so
`maxiter` passes are always enough (`mandelbrot_loop_fuel`). -/
def mandelbrot_iterations (x y : Double) (maxiter : Int) : Int :=
  let u := Double.lit 0 1
  let v := Double.lit 0 1
  mandelbrot_loop x y maxiter maxiter.toNat 1 u v (u * u) (v * v)

/-- The recurrence the kernel follows, stated on its own: `z ← z² + c` on the complex number
`z = u + iv` with `c = x + iy`, every operation in binary64 and in the order the source
writes it (`z² = (u·u − v·v) + (2·u·v)i`). -/
def orbit_step (x y : Double) (z : Double × Double) : Double × Double :=
  (z.1 * z.1 - z.2 * z.2 + x, Double.ofInt 2 * z.1 * z.2 + y)

/-- The orbit `z₀ = 0`, `zₖ = zₖ₋₁² + c`. -/
def orbit (x y : Double) : Nat → Double × Double
  | 0 => (Double.lit 0 1, Double.lit 0 1)
  | k + 1 => orbit_step x y (orbit x y k)

/-- The squared modulus `|z|² = u² + v²`. -/
def normSq (z : Double × Double) : Double := z.1 * z.1 + z.2 * z.2

/-! ## Image dimensions -/

/-- The record `Dimensions`; the global `last_dimensions` is a value of this type, threaded
through the functions that read or write it. -/
structure Dimensions where
  width : Int
  height : Int
deriving DecidableEq

/-- The initial value `{0, 0}` of `last_dimensions`. -/
def last_dimensions_init : Dimensions := ⟨0, 0⟩

/-- The quotient `(xres * (ymax - ymin)) / (xmax - xmin)` that `calculate_height` casts. -/
def height_quotient (xmin xmax ymin ymax : Double) (xres : Int) : Double :=
  (Double.ofInt xres * (ymax - ymin)) / (xmax - xmin)

/-- The function `calculate_height`. -/
def calculate_height (xmin xmax ymin ymax : Double) (xres : Int) : Option Int :=
  Double.toInt (height_quotient xmin xmax ymin ymax xres)

/-- The function `get_width`, reading `last_dimensions`. -/
def get_width (last_dimensions : Dimensions) : Int := last_dimensions.width

/-- The function `get_height`, reading `last_dimensions`. -/
def get_height (last_dimensions : Dimensions) : Int := last_dimensions.height

/-! ## The pixel buffer -/

/-- What the program takes from its host: whether `malloc` of a given size succeeds, the
indeterminate content of a fresh block, the `sin` of the math library, and the byte that the
cast `(unsigned char)d` yields when the truncated `d` is outside `0..255`. -/
structure Host where
  malloc_ok : Nat → Bool
  fresh : Nat → Nat
  sin : Double → Double
  uchar_overflow : Double → Nat

/-- The call `malloc(size)`: `none` is the null pointer. -/
def malloc (H : Host) (size : Nat) : Option (List Nat) :=
  if H.malloc_ok size then some ((List.range size).map H.fresh) else none

/-- The byte count `xres * yres * 4` as `malloc` receives it: computed in `int`, then
converted to the 32-bit `size_t` of the WebAssembly target. -/
def alloc_size (xres yres : Int) : Nat :=
  (wrap32 (wrap32 (xres * yres) * 4) % 4294967296).toNat

/-- One byte store `pixels[idx] = b`; undefined outside the block. -/
def store (pixels : List Nat) (idx : Int) (b : Nat) : Option (List Nat) :=
  if 0 ≤ idx ∧ idx < pixels.length then some (pixels.set idx.toNat b) else none

/-- The four channel bytes of one pixel. -/
structure RGBA where
  r : Nat
  g : Nat
  b : Nat
  a : Nat
deriving DecidableEq

/-- The four stores `pixels[idx] .. pixels[idx + 3]` of one loop body.  `idx` is four times
an `int`, so `idx + 3` stays in the `int` range. -/
def store_rgba (pixels : List Nat) (idx : Int) (c : RGBA) : Option (List Nat) := do
  let p0 ← store pixels idx c.r
  let p1 ← store p0 (idx + 1) c.g
  let p2 ← store p1 (idx + 2) c.b
  store p2 (idx + 3) c.a

/-- The index `(j * xres + i) * 4` of the loop body, computed in `int`. -/
def pixel_index (xres j i : Int) : Int :=
  wrap32 (wrap32 (wrap32 (j * xres) + i) * 4)

/-- The plane coordinate `x = xmin + i * dx` of column `i`. -/
def pixel_x (xmin dx : Double) (i : Int) : Double := xmin + Double.ofInt i * dx

/-- The plane coordinate `y = ymax - j * dy` of row `j`. -/
def pixel_y (ymax dy : Double) (j : Int) : Double := ymax - Double.ofInt j * dy

/-- The two nested loops shared by `generate_mandelbrot` and `generate_mandelbrot_color`:
rows `j = 0 .. yres - 1`, columns `i = 0 .. xres - 1`; `shade` is the colouring of the
iteration count that distinguishes the two functions. -/
def raster (shade : Int → RGBA) (xmin ymax dx dy : Double) (maxiter xres yres : Int)
    (pixels : List Nat) : Option (List Nat) :=
  (List.range yres.toNat).foldlM (fun px (j : Nat) =>
    let y := pixel_y ymax dy j
    (List.range xres.toNat).foldlM (fun px (i : Nat) =>
      let x := pixel_x xmin dx i
      let k := mandelbrot_iterations x y maxiter
      let idx := pixel_index xres j i
      store_rgba px idx (shade k)) px) pixels

/-- The conversion of an `int` to `unsigned char`: reduction modulo 256. -/
def uchar_of_int (v : Int) : Nat := (v % 256).toNat

/-- The colouring of `generate_mandelbrot`: black inside, `(k * 255) / maxiter` outside,
with the product and the quotient taken in `int`. -/
def gray_shade (maxiter k : Int) : RGBA :=
  if k ≥ maxiter then ⟨0, 0, 0, 255⟩
  else
    let intensity := uchar_of_int (wrap32 (Int.tdiv (wrap32 (k * 255)) maxiter))
    ⟨intensity, intensity, intensity, 255⟩

/-- The cast `(unsigned char)d` of a `double`: truncation toward zero when the result is in
`0..255`, the host's byte otherwise. -/
def uchar_of_double (H : Host) (d : Double) : Nat :=
  match d with
  | Double.fin n =>
    let t := Int.tdiv n unitsPerOne
    if 0 ≤ t ∧ t ≤ 255 then t.toNat else H.uchar_overflow d % 256
  | _ => H.uchar_overflow d % 256

/-- The colouring of `generate_mandelbrot_color`. -/
def color_shade (H : Host) (maxiter k : Int) : RGBA :=
  if k ≥ maxiter then ⟨0, 0, 0, 255⟩
  else
    let t := Double.ofInt k / Double.ofInt maxiter
    ⟨uchar_of_double H (Double.ofInt 255 * H.sin (t * Double.lit 314159 100000 * Double.ofInt 2)),
     uchar_of_double H (Double.ofInt 255 * H.sin (t * Double.lit 314159 100000 * Double.ofInt 4)),
     uchar_of_double H (Double.ofInt 255 * H.sin (t * Double.lit 314159 100000 * Double.ofInt 6)),
     255⟩

/-- What a render call leaves behind: the returned pointer (`none` is `NULL`) and the new
value of `last_dimensions`. -/
structure Rendered where
  pixels : Option (List Nat)
  last_dimensions : Dimensions
deriving DecidableEq

/-- The body common to the two render functions, with the colouring as a parameter. -/
def render (shade : Int → RGBA) (H : Host) (xmin xmax ymin ymax : Double)
    (maxiter xres : Int) : Option Rendered := do
  let yres ← calculate_height xmin xmax ymin ymax xres
  let dims : Dimensions := ⟨xres, yres⟩
  match malloc H (alloc_size xres yres) with
  | none => some ⟨none, dims⟩
  | some pixels =>
    let dx := (xmax - xmin) / Double.ofInt xres
    let dy := (ymax - ymin) / Double.ofInt yres
    let px ← raster shade xmin ymax dx dy maxiter xres yres pixels
    some ⟨some px, dims⟩

/-- The function `generate_mandelbrot`. -/
def generate_mandelbrot (H : Host) (xmin xmax ymin ymax : Double) (maxiter xres : Int) :
    Option Rendered :=
  render (gray_shade maxiter) H xmin xmax ymin ymax maxiter xres

/-- The function `generate_mandelbrot_color`. -/
def generate_mandelbrot_color (H : Host) (xmin xmax ymin ymax : Double) (maxiter xres : Int) :
    Option Rendered :=
  render (color_shade H maxiter) H xmin xmax ymin ymax maxiter xres

/-- The function `generate_mandelbrot_preview`. -/
def generate_mandelbrot_preview (H : Host) (xmin xmax ymin ymax : Double)
    (maxiter xres : Int) : Option Rendered :=
  let preview_maxiter := Int.tdiv maxiter 4
  let preview_maxiter := if preview_maxiter < 10 then 10 else preview_maxiter
  generate_mandelbrot H xmin xmax ymin ymax preview_maxiter xres

/-- The function `get_pixel_iterations`. -/
def get_pixel_iterations (xmin xmax ymin ymax : Double) (maxiter xres pixel_x pixel_y : Int) :
    Option Int := do
  let yres ← calculate_height xmin xmax ymin ymax xres
  if pixel_x < 0 ∨ pixel_x ≥ xres ∨ pixel_y < 0 ∨ pixel_y ≥ yres then
    some (-1)
  else
    let dx := (xmax - xmin) / Double.ofInt xres
    let dy := (ymax - ymin) / Double.ofInt yres
    let x := xmin + Double.ofInt pixel_x * dx
    let y := ymax - Double.ofInt pixel_y * dy
    some (mandelbrot_iterations x y maxiter)

/-- A host whose allocator always succeeds and hands out zeroed blocks, used to run the
functions on concrete inputs. -/
def plainHost : Host := ⟨fun _ => true, fun _ => 0, fun d => d, fun _ => 0⟩

/-- The state of the buffer after the first `t` pixels, in row-major order, have been
stored: the length is unchanged, the pixels stored so far fit the block and the `int` range,
and each of them holds the bytes of its colour `F j i`. -/
def Stored (F : Nat → Nat → RGBA) (w L : Nat) (px : List Nat) (t : Nat) : Prop :=
  px.length = L ∧ 4 * t ≤ L ∧ 4 * t ≤ 2147483648 ∧
  ∀ j i : Nat, i < w → j * w + i < t →
    px[4 * (j * w + i)]? = some (F j i).r ∧ px[4 * (j * w + i) + 1]? = some (F j i).g ∧
    px[4 * (j * w + i) + 2]? = some (F j i).b ∧ px[4 * (j * w + i) + 3]? = some (F j i).a

/-- The colour the loops give pixel `(j, i)`: `shade` of the iteration count at its sample
point. -/
def pixel_shade (shade : Int → RGBA) (xmin ymax dx dy : Double) (maxiter : Int) (j i : Nat) :
    RGBA :=
  shade (mandelbrot_iterations (pixel_x xmin dx i) (pixel_y ymax dy j) maxiter)

/-- Values that are not negative: `+∞`, a finite value `≥ 0`, or NaN. -/
def Double.nonnegOrNaN : Double → Prop
  | Double.fin n => 0 ≤ n
  | Double.inf b => b = false
  | Double.nan => True

/-- Magnitudes (in units) with at most 53 significant bits: `m * 2^e` with `m < 2^53`. -/
def Representable (B : Nat) : Prop := ∃ m e : Nat, m < 2 ^ 53 ∧ B = m * 2 ^ e

/-- Values that are `+∞` or finite and not negative. -/
def Double.isNonneg (d : Double) : Prop := d = Double.inf false ∨ ∃ n : Nat, d = Double.fin n

/-- Values other than NaN. -/
def Double.notNaN (d : Double) : Prop := d ≠ Double.nan

/-! ## A point next to the cusp -/

/-- The spacing `2^-51` of the binary64 values in `[2, 4)`, in units. -/
def gridUnit : Nat := 1 <<< 1023

/-- The abscissa `1/4 + 2^-50`, in units. -/
def cuspUnits : Nat := 562949953421314 * gridUnit

/-- The units of a finite value (and `0` for the other values). -/
def Double.units : Double → Nat
  | Double.fin n => n.toNat
  | _ => 0

/-- The abscissa, in units, of the `j`-th point of the orbit of the real point `X`. -/
def axisUnits (X : Nat) (j : Nat) : Nat :=
  (orbit (Double.fin (X : Int)) (Double.fin 0) j).1.units

/-- The abscissa of the `j`-th orbit point of `1/4 + 2^-50`, as a rational. -/
def cuspValue (j : Nat) : ℚ := (axisUnits cuspUnits j : ℚ) / (unitsPerOne : ℚ)

/-! ## The exported calls and the global -/

/-- A call of one of the exported functions that read or write `last_dimensions`, with its
arguments. -/
inductive Call where
  | generate_mandelbrot (xmin xmax ymin ymax : Double) (maxiter xres : Int)
  | generate_mandelbrot_color (xmin xmax ymin ymax : Double) (maxiter xres : Int)
  | generate_mandelbrot_preview (xmin xmax ymin ymax : Double) (maxiter xres : Int)
  | get_width
  | get_height
  | get_pixel_iterations (xmin xmax ymin ymax : Double) (maxiter xres pixel_x pixel_y : Int)

/-- What a call returns: a pointer to a block (`none` is `NULL`) or an `int`. -/
inductive Returned where
  | pixels (p : Option (List Nat))
  | int (v : Int)
deriving DecidableEq

/-- One call, made when the global holds `last_dimensions`: the value returned and the value
the global holds afterwards.  The render functions assign both fields of the global; the
other three functions contain no assignment to it. -/
def call (H : Host) (last_dimensions : Dimensions) : Call → Option (Returned × Dimensions)
  | Call.generate_mandelbrot xmin xmax ymin ymax maxiter xres =>
    (generate_mandelbrot H xmin xmax ymin ymax maxiter xres).map
      (fun r => (Returned.pixels r.pixels, r.last_dimensions))
  | Call.generate_mandelbrot_color xmin xmax ymin ymax maxiter xres =>
    (generate_mandelbrot_color H xmin xmax ymin ymax maxiter xres).map
      (fun r => (Returned.pixels r.pixels, r.last_dimensions))
  | Call.generate_mandelbrot_preview xmin xmax ymin ymax maxiter xres =>
    (generate_mandelbrot_preview H xmin xmax ymin ymax maxiter xres).map
      (fun r => (Returned.pixels r.pixels, r.last_dimensions))
  | Call.get_width => some (Returned.int (get_width last_dimensions), last_dimensions)
  | Call.get_height => some (Returned.int (get_height last_dimensions), last_dimensions)
  | Call.get_pixel_iterations xmin xmax ymin ymax maxiter xres pixel_x pixel_y =>
    (get_pixel_iterations xmin xmax ymin ymax maxiter xres pixel_x pixel_y).map
      (fun v => (Returned.int v, last_dimensions))

/-! ## The work of the kernel -/

/-- The number of passes through the body of the loop of `mandelbrot_iterations`, counted
along the same tests as `mandelbrot_loop`. -/
def mandelbrot_passes (x y : Double) (maxiter : Int) :
    Nat → Int → Double → Double → Double → Double → Nat
  | 0, _, _, _, _, _ => 0
  | fuel + 1, k, u, v, u2, v2 =>
    if k < maxiter ∧ u2 + v2 < Double.lit 4 1 then
      let v1 := Double.ofInt 2 * u * v + y
      let u1 := u2 - v2 + x
      mandelbrot_passes x y maxiter fuel (k + 1) u1 v1 (u1 * u1) (v1 * v1) + 1
    else 0

/-- The value `t = (double)k / maxiter` of the colour mapping. -/
def color_t (maxiter k : Int) : Double := Double.ofInt k / Double.ofInt maxiter

/-! ## The naive escape-time count -/

/-- The least `m` among the `fuel` indices `start, start + 1, …` with `|z_m|² ≥ 4`. -/
def first_escape (x y : Double) : Nat → Nat → Option Nat
  | 0, _ => none
  | fuel + 1, m =>
    if Double.lit 4 1 ≤ normSq (orbit x y m) then some m else first_escape x y fuel (m + 1)

/-- The escape-time count over the complex recurrence, in the words of the specification and
not of the source: with `m*` the least `m ≥ 0` such that `|z_m|² ≥ 4`, the count is
`min(maxiter, 1 + m*)`, it is `maxiter` when there is no such `m`, and it is `1` for
`maxiter ≤ 0`.  Only `m < maxiter` is searched: a later `m*` gives `maxiter` as well. -/
def naive_escape_count (x y : Double) (maxiter : Int) : Int :=
  if maxiter ≤ 0 then 1
  else
    match first_escape x y maxiter.toNat 0 with
    | some m => min maxiter (1 + (m : Int))
    | none => maxiter

/-! ## Bytes of a pixel; values a `double` can hold -/

/-- The `c`-th byte of a pixel, in the order the loop body stores them: R, G, B, A. -/
def RGBA.byte (p : RGBA) : Nat → Nat
  | 0 => p.r
  | 1 => p.g
  | 2 => p.b
  | _ => p.a

/-- The values of the model that a `double` can hold: NaN, the infinities, and the finite
values that rounding leaves as they are. -/
def Double.isBinary64 : Double → Bool
  | Double.fin n => decide (Double.roundFrac n 1 = Double.fin n)
  | _ => true

/-! ## A host with a sine -/

/-- The `k`-th term `(-1)^k x^(2k+1) / (2k+1)!` of the sine series at `x = n` units, as a
numerator over the denominator `unitsPerOne ^ (2 * N) * (2 * N + 1)!` common to the terms
`0 .. N`; the quotient is in units. -/
def sin_term (n : Int) (N k : Nat) : Int :=
  (-1) ^ k * n ^ (2 * k + 1) * (unitsPerOne : Int) ^ (2 * (N - k))
    * (((2 * N + 1).factorial / (2 * k + 1).factorial : Nat) : Int)

/-- A sine for concrete runs: the partial sum of the sine series up to the term
`x^35 / 35!`, evaluated exactly and rounded once to binary64.  The remainder of the series
is below `|x|^37 / 37!`, which is less than `10^-18` for `|x| ≤ 4.8`. -/
def sin_series : Double → Double
  | Double.fin n =>
    Double.roundFrac ((List.range 18).foldl (fun acc k => acc + sin_term n 17 k) 0)
      (unitsPerOne ^ 34 * (35).factorial)
  | _ => Double.nan

/-- A host for concrete runs of the colour mapping: the allocator always succeeds and hands
out zeroed blocks, `sin` is `sin_series`, and the cast `(unsigned char)d` of a value whose
integer part is outside `0..255` keeps the low eight bits of that integer part (and is 0 when
the integer part does not fit an `int`). -/
def seriesHost : Host :=
  ⟨fun _ => true, fun _ => 0, sin_series,
    fun d => match d.toInt with
      | some t => (t % 256).toNat
      | none => 0⟩

/-! ## Facts about the arithmetic -/

theorem ilog2_zero : ilog2 0 = 0 := rfl

theorem roundUnits_zero (d : Nat) : roundUnits 0 d = 0 := by
  simp [roundUnits, ilog2_zero]

theorem unitsPerOne_pos : 0 < unitsPerOne := by
  unfold unitsPerOne
  rw [Nat.shiftLeft_eq]
  positivity

theorem overflowUnits_pos : 0 < overflowUnits := by
  have := unitsPerOne_pos
  unfold overflowUnits
  rw [Nat.shiftLeft_eq]
  positivity

namespace Double

theorem neg_def (x : Double) : -x = neg x := rfl
theorem add_def (x y : Double) : x + y = add x y := rfl
theorem sub_def (x y : Double) : x - y = add x (neg y) := rfl
theorem mul_def (x y : Double) : x * y = mul x y := rfl
theorem div_def (x y : Double) : x / y = div x y := rfl
theorem lt_def (x y : Double) : x < y ↔ lt x y = true := Iff.rfl
theorem le_def (x y : Double) : x ≤ y ↔ le x y = true := Iff.rfl

theorem round_not (b : Bool) (n d : Nat) : round (!b) n d = neg (round b n d) := by
  unfold round
  by_cases h : overflowUnits ≤ roundUnits n d
  · simp only [h, if_true, neg]
  · simp only [h, if_false, neg]
    cases b <;> simp

theorem roundFrac_zero (d : Nat) : roundFrac 0 d = fin 0 := by
  have h : overflowUnits ≠ 0 := Nat.pos_iff_ne_zero.mp overflowUnits_pos
  simp [roundFrac, round, roundUnits_zero, h]

theorem roundFrac_neg (z : Int) (d : Nat) : roundFrac (-z) d = neg (roundFrac z d) := by
  by_cases hz : z = 0
  · subst hz
    simp [roundFrac_zero, neg]
  · have h : decide (-z < 0) = !decide (z < 0) := by
      by_cases h1 : z < 0
      · have h2 : ¬ (-z < 0) := by omega
        simp [h1, h2]
      · have h2 : -z < 0 := by omega
        simp [h1, h2]
    unfold roundFrac
    rw [h, Int.natAbs_neg, round_not]

theorem neg_neg (x : Double) : neg (neg x) = x := by
  cases x <;> simp [neg]

theorem add_neg_neg (x y : Double) : add (neg x) (neg y) = neg (add x y) := by
  cases x <;> cases y
  case fin.fin a b =>
    show roundFrac (-a + -b) 1 = neg (roundFrac (a + b) 1)
    rw [← roundFrac_neg]
    congr 1
    omega
  case inf.inf a b =>
    by_cases h : a = b <;> simp [add, neg, h]
  all_goals rfl

theorem mul_neg_right (x y : Double) : mul x (neg y) = neg (mul x y) := by
  cases x <;> cases y
  case fin.fin a b =>
    show roundFrac (a * -b) unitsPerOne = neg (roundFrac (a * b) unitsPerOne)
    rw [← roundFrac_neg]
    congr 1
    ring
  case inf.fin a n =>
    by_cases h : n = 0
    · simp [mul, neg, h]
    · by_cases h1 : n < 0
      · have h2 : ¬ (0 < n) := by omega
        simp [mul, neg, h, h1, h2]
      · have h2 : 0 < n := by omega
        simp [mul, neg, h, h1, h2]
  case fin.inf n b =>
    by_cases h : n = 0 <;> simp [mul, neg, h]
  case inf.inf a b =>
    cases a <;> cases b <;> rfl
  all_goals rfl

theorem mul_neg_neg (x : Double) : mul (neg x) (neg x) = mul x x := by
  cases x
  case fin n =>
    show roundFrac (-n * -n) unitsPerOne = roundFrac (n * n) unitsPerOne
    congr 1
    ring
  all_goals simp [mul, neg]

end Double

/-! ## Rounding keeps representable bounds -/

theorem ilog2Aux_le (f k : Nat) (hk : k ≤ f) (h1 : 1 ≤ k) : 2 ^ ilog2Aux f k ≤ k := by
  induction f generalizing k with
  | zero => omega
  | succ f ih =>
    unfold ilog2Aux
    by_cases h2 : k < 2
    · simp [h2]
      omega
    · simp only [h2, if_false]
      have := ih (k / 2) (by omega) (by omega)
      rw [pow_succ]
      omega

theorem ilog2_le (k : Nat) (h1 : 1 ≤ k) : 2 ^ ilog2 k ≤ k :=
  ilog2Aux_le k k (le_refl k) h1

/-- The shape of `roundUnits`: with `s` the number of dropped bits and `q` the truncated
quotient, the result is `q` or `q + 1` times `2^s`, and it is `q * 2^s` when nothing is
dropped. -/
theorem roundUnits_shape (n d : Nat) :
    n / (d * 2 ^ (ilog2 (n / d) - 52)) * 2 ^ (ilog2 (n / d) - 52) ≤ roundUnits n d ∧
    roundUnits n d ≤ (n / (d * 2 ^ (ilog2 (n / d) - 52)) + 1) * 2 ^ (ilog2 (n / d) - 52) ∧
    (n % (d * 2 ^ (ilog2 (n / d) - 52)) = 0 → 0 < d →
      roundUnits n d = n / (d * 2 ^ (ilog2 (n / d) - 52)) * 2 ^ (ilog2 (n / d) - 52)) := by
  simp only [roundUnits, Nat.shiftLeft_eq]
  generalize ilog2 (n / d) - 52 = s
  generalize hq : n / (d * 2 ^ s) = q
  generalize hr : n % (d * 2 ^ s) = r
  have hq2 : q % 2 ≤ 1 := by omega
  refine ⟨?_, ?_, ?_⟩
  · split_ifs
    · exact le_refl _
    · exact Nat.mul_le_mul_right _ (by omega)
    · exact Nat.mul_le_mul_right _ (by omega)
  · split_ifs
    · exact Nat.mul_le_mul_right _ (by omega)
    · exact le_refl _
    · exact Nat.mul_le_mul_right _ (by omega)
  · intro hr0 hd
    have hD : 0 < d * 2 ^ s := by positivity
    rw [hr0]
    simp [hD]

/-- Truncated quotient when bits are dropped: at least `2^52`. -/
theorem roundUnits_quot_ge (n d : Nat) (hd : 0 < d) (hs : 0 < ilog2 (n / d) - 52) :
    2 ^ 52 ≤ n / (d * 2 ^ (ilog2 (n / d) - 52)) := by
  have hnd : 1 ≤ n / d := by
    rcases Nat.eq_zero_or_pos (n / d) with h0 | h0
    · rw [h0] at hs
      simp [ilog2_zero] at hs
    · exact h0
  have hlog := ilog2_le (n / d) hnd
  have hL : ilog2 (n / d) = 52 + (ilog2 (n / d) - 52) := by omega
  rw [hL, pow_add] at hlog
  rw [Nat.le_div_iff_mul_le (by positivity)]
  have h1 : n / d * d ≤ n := Nat.div_mul_le_self n d
  calc 2 ^ 52 * (d * 2 ^ (ilog2 (n / d) - 52))
      = (2 ^ 52 * 2 ^ (ilog2 (n / d) - 52)) * d := by ring
    _ ≤ n / d * d := Nat.mul_le_mul_right _ hlog
    _ ≤ n := h1

/-- Rounding does not go below a representable lower bound `m * 2^e`, `m < 2^53`. -/
theorem roundUnits_ge (n d m e : Nat) (hd : 0 < d) (hm : m < 2 ^ 53)
    (h : m * 2 ^ e * d ≤ n) : m * 2 ^ e ≤ roundUnits n d := by
  obtain ⟨hlo, _, _⟩ := roundUnits_shape n d
  refine le_trans ?_ hlo
  rcases Nat.lt_or_ge e (ilog2 (n / d) - 52) with he | he
  · have hq := roundUnits_quot_ge n d hd (by omega)
    have h2 : 2 ^ e * 2 ≤ 2 ^ (ilog2 (n / d) - 52) := by
      rw [← pow_succ]
      exact Nat.pow_le_pow_right (by omega) (by omega)
    calc m * 2 ^ e ≤ 2 ^ 53 * 2 ^ e := Nat.mul_le_mul_right _ (by omega)
      _ = 2 ^ 52 * (2 ^ e * 2) := by ring
      _ ≤ 2 ^ 52 * 2 ^ (ilog2 (n / d) - 52) := Nat.mul_le_mul_left _ h2
      _ ≤ n / (d * 2 ^ (ilog2 (n / d) - 52)) * 2 ^ (ilog2 (n / d) - 52) :=
        Nat.mul_le_mul_right _ hq
  · obtain ⟨t, ht⟩ : ∃ t, e = (ilog2 (n / d) - 52) + t := ⟨e - (ilog2 (n / d) - 52), by omega⟩
    generalize ilog2 (n / d) - 52 = s at *
    subst ht
    have hq : m * 2 ^ t ≤ n / (d * 2 ^ s) := by
      rw [Nat.le_div_iff_mul_le (by positivity)]
      calc m * 2 ^ t * (d * 2 ^ s) = m * 2 ^ (s + t) * d := by rw [pow_add]; ring
        _ ≤ n := h
    calc m * 2 ^ (s + t) = m * 2 ^ t * 2 ^ s := by rw [pow_add]; ring
      _ ≤ n / (d * 2 ^ s) * 2 ^ s := Nat.mul_le_mul_right _ hq

/-- Rounding does not go above a representable upper bound `m * 2^e`, `m < 2^53`. -/
theorem roundUnits_le (n d m e : Nat) (hd : 0 < d) (hm : m < 2 ^ 53)
    (h : n ≤ m * 2 ^ e * d) : roundUnits n d ≤ m * 2 ^ e := by
  obtain ⟨_, hhi, hex⟩ := roundUnits_shape n d
  rcases Nat.lt_or_ge e (ilog2 (n / d) - 52) with he | he
  · exfalso
    have hq := roundUnits_quot_ge n d hd (by omega)
    have h2 : 2 ^ e * 2 ≤ 2 ^ (ilog2 (n / d) - 52) := by
      rw [← pow_succ]
      exact Nat.pow_le_pow_right (by omega) (by omega)
    rw [Nat.le_div_iff_mul_le (by positivity)] at hq
    have hdpos : 0 < 2 ^ e * d := by positivity
    have : m * 2 ^ e * d < 2 ^ 52 * (d * 2 ^ (ilog2 (n / d) - 52)) := by
      calc m * 2 ^ e * d = m * (2 ^ e * d) := by ring
        _ < 2 ^ 53 * (2 ^ e * d) := Nat.mul_lt_mul_of_pos_right hm hdpos
        _ = 2 ^ 52 * (d * (2 ^ e * 2)) := by ring
        _ ≤ 2 ^ 52 * (d * 2 ^ (ilog2 (n / d) - 52)) :=
          Nat.mul_le_mul_left _ (Nat.mul_le_mul_left _ h2)
    omega
  · obtain ⟨t, ht⟩ : ∃ t, e = (ilog2 (n / d) - 52) + t := ⟨e - (ilog2 (n / d) - 52), by omega⟩
    generalize ilog2 (n / d) - 52 = s at *
    subst ht
    have hD : 0 < d * 2 ^ s := by positivity
    have hn : n ≤ m * 2 ^ t * (d * 2 ^ s) := by
      calc n ≤ m * 2 ^ (s + t) * d := h
        _ = m * 2 ^ t * (d * 2 ^ s) := by rw [pow_add]; ring
    have hB : m * 2 ^ (s + t) = m * 2 ^ t * 2 ^ s := by rw [pow_add]; ring
    rw [hB]
    rcases Nat.lt_or_ge n (m * 2 ^ t * (d * 2 ^ s)) with hlt | hge
    · have hq : n / (d * 2 ^ s) < m * 2 ^ t := by
        rw [Nat.div_lt_iff_lt_mul hD]
        exact hlt
      exact le_trans hhi (Nat.mul_le_mul_right _ (by omega))
    · have hneq : n = m * 2 ^ t * (d * 2 ^ s) := by omega
      have hr : n % (d * 2 ^ s) = 0 := by rw [hneq]; exact Nat.mul_mod_left _ _
      have hq : n / (d * 2 ^ s) = m * 2 ^ t := by
        rw [hneq]
        exact Nat.mul_div_cancel _ hD
      rw [hex hr hd, hq]

/-! ## The kernel -/

set_option maxRecDepth 100000 in
theorem zero_facts :
    Double.lit 0 1 = Double.fin 0 ∧ Double.ofInt 0 = Double.fin 0 ∧
    Double.fin 0 * Double.fin 0 = Double.fin 0 ∧
    Double.fin 0 + Double.fin 0 < Double.lit 4 1 ∧
    Double.ofInt 2 * Double.fin 0 * Double.fin 0 + Double.fin 0 = Double.fin 0 ∧
    Double.fin 0 - Double.fin 0 + Double.fin 0 = Double.fin 0 := by
  decide

/-- Surplus passes are never used: any two bounds of at least `maxiter - k` passes give the
same result, so the loop always leaves through its own guard. -/
theorem mandelbrot_loop_fuel (x y : Double) (maxiter : Int) :
    ∀ (f1 f2 : Nat) (k : Int) (u v u2 v2 : Double),
      (maxiter - k).toNat ≤ f1 → (maxiter - k).toNat ≤ f2 →
      mandelbrot_loop x y maxiter f1 k u v u2 v2 = mandelbrot_loop x y maxiter f2 k u v u2 v2 := by
  intro f1
  induction f1 with
  | zero =>
    intro f2 k u v u2 v2 h1 _
    have hk : ¬ k < maxiter := by omega
    cases f2 with
    | zero => rfl
    | succ f2 => simp [mandelbrot_loop, hk]
  | succ f1 ih =>
    intro f2 k u v u2 v2 h1 h2
    cases f2 with
    | zero =>
      have hk : ¬ k < maxiter := by omega
      simp [mandelbrot_loop, hk]
    | succ f2 =>
      simp only [mandelbrot_loop]
      by_cases hc : k < maxiter ∧ u2 + v2 < Double.lit 4 1
      · rw [if_pos hc, if_pos hc]
        apply ih
        · omega
        · omega
      · rw [if_neg hc, if_neg hc]

theorem mandelbrot_loop_zero (maxiter : Int) :
    ∀ (fuel : Nat) (k : Int),
      mandelbrot_loop (Double.fin 0) (Double.fin 0) maxiter fuel k
        (Double.fin 0) (Double.fin 0) (Double.fin 0) (Double.fin 0)
      = k + ((min fuel (maxiter - k).toNat : Nat) : Int) := by
  obtain ⟨_, _, h3, h4, h5, h6⟩ := zero_facts
  intro fuel
  induction fuel with
  | zero => intro k; simp [mandelbrot_loop]
  | succ fuel ih =>
    intro k
    simp only [mandelbrot_loop]
    by_cases hk : k < maxiter
    · rw [if_pos ⟨hk, h4⟩, h5, h6, h3, ih]
      omega
    · rw [if_neg (fun h => hk h.1)]
      omega

/-- C1 (amended): at the origin the kernel returns the budget `n` when `n ≥ 1`, and `1` for
every budget `n ≤ 0` (the counter starts at 1 and the loop is never entered); in one formula,
it returns `max n 1`. -/
theorem C1_origin_returns_max_budget_one (n : Int) :
    mandelbrot_iterations (Double.ofInt 0) (Double.ofInt 0) n = max n 1 := by
  obtain ⟨h1, h2, h3, _, _, _⟩ := zero_facts
  unfold mandelbrot_iterations
  simp only [h1, h2, h3]
  rw [mandelbrot_loop_zero]
  omega

/-- C1 (counterexample): with budget `0` the kernel returns `1` at the origin, not `0`. -/
theorem C1_origin_budget_zero :
    mandelbrot_iterations (Double.ofInt 0) (Double.ofInt 0) 0 = 1 ∧
    mandelbrot_iterations (Double.ofInt 0) (Double.ofInt 0) 0 ≠ 0 := by
  decide

set_option maxRecDepth 100000 in
theorem two_facts :
    Double.lit 0 1 = Double.fin 0 ∧ Double.ofInt 0 = Double.fin 0 ∧
    Double.fin 0 * Double.fin 0 = Double.fin 0 ∧
    Double.fin 0 + Double.fin 0 < Double.lit 4 1 ∧
    Double.ofInt 2 * Double.fin 0 * Double.fin 0 + Double.fin 0 = Double.fin 0 ∧
    Double.fin 0 - Double.fin 0 + Double.ofInt 2 = Double.ofInt 2 ∧
    ¬ (Double.ofInt 2 * Double.ofInt 2 + Double.fin 0 < Double.lit 4 1) := by
  decide

/-- C2 (amended): at the point `(2, 0)` the kernel returns `2` for every budget `n ≥ 2` and
`1` for `n = 1`, that is `min n 2`: the first pass computes `z = 2`, and the guard fails
when the counter is already `2`. -/
theorem C2_point_two_returns_min_budget_two (n : Int) (hn : 1 ≤ n) :
    mandelbrot_iterations (Double.ofInt 2) (Double.ofInt 0) n = min n 2 := by
  obtain ⟨h1, h2, h3, h4, h5, h6, h7⟩ := two_facts
  unfold mandelbrot_iterations
  simp only [h1, h2, h3]
  obtain ⟨m, hm⟩ : ∃ m : Nat, n.toNat = m + 1 := ⟨n.toNat - 1, by omega⟩
  rw [hm]
  simp only [mandelbrot_loop]
  by_cases hk : (1 : Int) < n
  · rw [if_pos ⟨hk, h4⟩, h5, h6, h3]
    have h2n : min n 2 = 2 := by omega
    rw [h2n]
    cases m with
    | zero => rfl
    | succ m =>
      simp only [mandelbrot_loop]
      rw [if_neg (fun h => h7 h.2)]
      norm_num
  · rw [if_neg (fun h => hk h.1)]
    omega

/-- C2 (witness): the amended statement at budget `5`. -/
theorem C2_point_two_returns_min_budget_two_witness :
    (1 : Int) ≤ 5 ∧ mandelbrot_iterations (Double.ofInt 2) (Double.ofInt 0) 5 = min 5 2 :=
  ⟨by decide, C2_point_two_returns_min_budget_two 5 (by decide)⟩

set_option maxRecDepth 100000 in
/-- C2 (counterexample): with budget `2` the kernel returns `2` at `(2, 0)`, not `1`. -/
theorem C2_point_two_budget_two :
    (1 : Int) ≤ 2 ∧ mandelbrot_iterations (Double.ofInt 2) (Double.ofInt 0) 2 ≠ 1 := by
  decide

theorem mandelbrot_loop_neg (x y : Double) (maxiter : Int) :
    ∀ (fuel : Nat) (k : Int) (u v u2 v2 : Double),
      mandelbrot_loop x (-y) maxiter fuel k u (-v) u2 v2
      = mandelbrot_loop x y maxiter fuel k u v u2 v2 := by
  intro fuel
  induction fuel with
  | zero => intro k u v u2 v2; rfl
  | succ fuel ih =>
    intro k u v u2 v2
    simp only [mandelbrot_loop]
    have hv : Double.ofInt 2 * u * -v + -y = -(Double.ofInt 2 * u * v + y) := by
      simp only [Double.neg_def, Double.add_def, Double.mul_def]
      rw [Double.mul_neg_right, Double.add_neg_neg]
    have hs : ∀ w : Double, -w * -w = w * w := fun w => Double.mul_neg_neg w
    rw [hv, hs, ih]

/-- C3: the kernel is symmetric about the real axis: for every `x`, `y` and budget `n`,
`mandelbrot_iterations(x, -y, n) = mandelbrot_iterations(x, y, n)`. -/
theorem C3_symmetric_about_real_axis (x y : Double) (n : Int) :
    mandelbrot_iterations x (-y) n = mandelbrot_iterations x y n := by
  unfold mandelbrot_iterations
  simp only [zero_facts.1]
  exact mandelbrot_loop_neg x y n n.toNat 1 (Double.fin 0) (Double.fin 0) _ _

/-! ## The kernel and the orbit -/

/-- The kernel against the orbit: the result `r` satisfies `1 ≤ r`, `r ≤ max n 1`, the guard
`|z_j|² < 4` held for every `j < r - 1`, and if `r < n` the guard failed on `z_{r-1}`. -/
theorem mandelbrot_loop_orbit (x y : Double) (n : Int) :
    ∀ (fuel m : Nat), (n - (m + 1)).toNat ≤ fuel →
      (∀ j : Nat, j < m → normSq (orbit x y j) < Double.lit 4 1) →
      ((m : Int) + 1 ≤ mandelbrot_loop x y n fuel (m + 1) (orbit x y m).1 (orbit x y m).2
          ((orbit x y m).1 * (orbit x y m).1) ((orbit x y m).2 * (orbit x y m).2)) ∧
      (mandelbrot_loop x y n fuel (m + 1) (orbit x y m).1 (orbit x y m).2
          ((orbit x y m).1 * (orbit x y m).1) ((orbit x y m).2 * (orbit x y m).2)
          ≤ max n (m + 1)) ∧
      (∀ j : Nat, (j : Int) + 1 < mandelbrot_loop x y n fuel (m + 1) (orbit x y m).1
          (orbit x y m).2 ((orbit x y m).1 * (orbit x y m).1)
          ((orbit x y m).2 * (orbit x y m).2) →
        normSq (orbit x y j) < Double.lit 4 1) ∧
      (mandelbrot_loop x y n fuel (m + 1) (orbit x y m).1 (orbit x y m).2
          ((orbit x y m).1 * (orbit x y m).1) ((orbit x y m).2 * (orbit x y m).2) < n →
        ¬ normSq (orbit x y (mandelbrot_loop x y n fuel (m + 1) (orbit x y m).1
          (orbit x y m).2 ((orbit x y m).1 * (orbit x y m).1)
          ((orbit x y m).2 * (orbit x y m).2) - 1).toNat) < Double.lit 4 1) := by
  intro fuel
  induction fuel with
  | zero =>
    intro m hf hg
    simp only [mandelbrot_loop]
    refine ⟨le_refl _, le_max_right _ _, ?_, ?_⟩
    · intro j hj
      exact hg j (by omega)
    · intro h
      omega
  | succ fuel ih =>
    intro m hf hg
    simp only [mandelbrot_loop]
    by_cases hc : ((m : Int) + 1 < n ∧
        (orbit x y m).1 * (orbit x y m).1 + (orbit x y m).2 * (orbit x y m).2
          < Double.lit 4 1)
    · rw [if_pos hc]
      have hg1 : ∀ j : Nat, j < m + 1 → normSq (orbit x y j) < Double.lit 4 1 := by
        intro j hj
        rcases Nat.lt_or_ge j m with h | h
        · exact hg j h
        · have : j = m := by omega
          subst this
          exact hc.2
      have := ih (m + 1) (by omega) hg1
      simp only [orbit, orbit_step, Nat.cast_add, Nat.cast_one] at this
      obtain ⟨h1, h2, h3, h4⟩ := this
      refine ⟨by omega, ?_, h3, h4⟩
      have : max n ((m : Int) + 1 + 1) = max n ((m : Int) + 1) := by omega
      rw [← this]
      exact h2
    · rw [if_neg hc]
      refine ⟨le_refl _, le_max_right _ _, ?_, ?_⟩
      · intro j hj
        exact hg j (by omega)
      · intro hlt
        have hm : ((m : Int) + 1 - 1).toNat = m := by omega
        rw [hm]
        intro hgm
        exact hc ⟨hlt, hgm⟩

theorem mandelbrot_iterations_orbit (x y : Double) (n : Int) :
    1 ≤ mandelbrot_iterations x y n ∧ mandelbrot_iterations x y n ≤ max n 1 ∧
    (∀ j : Nat, (j : Int) + 1 < mandelbrot_iterations x y n →
      normSq (orbit x y j) < Double.lit 4 1) ∧
    (mandelbrot_iterations x y n < n →
      ¬ normSq (orbit x y (mandelbrot_iterations x y n - 1).toNat) < Double.lit 4 1) := by
  have := mandelbrot_loop_orbit x y n n.toNat 0 (by omega) (fun j hj => absurd hj (by omega))
  simpa [mandelbrot_iterations, orbit] using this

/-! ## No NaN before the escape -/

theorem roundUnits_ge_rep (n d B : Nat) (hd : 0 < d) (hB : Representable B) (h : B * d ≤ n) :
    B ≤ roundUnits n d := by
  obtain ⟨m, e, hm, rfl⟩ := hB
  exact roundUnits_ge n d m e hd hm h

theorem roundUnits_le_rep (n d B : Nat) (hd : 0 < d) (hB : Representable B) (h : n ≤ B * d) :
    roundUnits n d ≤ B := by
  obtain ⟨m, e, hm, rfl⟩ := hB
  exact roundUnits_le n d m e hd hm h

theorem roundUnits_rep (B : Nat) (hB : Representable B) : roundUnits B 1 = B :=
  Nat.le_antisymm (roundUnits_le_rep B 1 B (by omega) hB (by omega))
    (roundUnits_ge_rep B 1 B (by omega) hB (by omega))

theorem representable_units (k : Nat) (hk : k < 2 ^ 53) : Representable (k * unitsPerOne) := by
  refine ⟨k, 1074, hk, ?_⟩
  unfold unitsPerOne
  rw [Nat.shiftLeft_eq, one_mul]

theorem units_lt_overflow (k : Nat) (hk : k < 2 ^ 53) : k * unitsPerOne < overflowUnits := by
  unfold overflowUnits
  rw [Nat.shiftLeft_eq, Nat.mul_comm unitsPerOne]
  have h1 : (2 : Nat) ^ 53 ≤ 2 ^ 1024 := Nat.pow_le_pow_right (by omega) (by omega)
  exact Nat.mul_lt_mul_of_pos_right (by omega) unitsPerOne_pos

namespace Double

theorem roundFrac_ne_nan (z : Int) (d : Nat) : roundFrac z d ≠ nan := by
  unfold roundFrac round
  simp only []
  split <;> simp

theorem round_of_rep (b : Bool) (B : Nat) (hB : Representable B) (hlt : B < overflowUnits) :
    round b B 1 = fin (if b then -(B : Int) else (B : Int)) := by
  unfold round
  simp only [roundUnits_rep B hB]
  rw [if_neg (by omega)]

/-- The value of a literal or an `int` that is a whole number below `2^53`. -/
theorem roundFrac_units (i : Int) (hi : i.natAbs < 2 ^ 53) :
    roundFrac (i * unitsPerOne) 1 = fin (i * unitsPerOne) := by
  have habs : (i * (unitsPerOne : Int)).natAbs = i.natAbs * unitsPerOne := by
    rw [Int.natAbs_mul, Int.natAbs_ofNat]
  unfold roundFrac
  rw [habs, round_of_rep _ _ (representable_units _ hi) (units_lt_overflow _ hi)]
  congr 1
  have hU := unitsPerOne_pos
  by_cases hneg : i * (unitsPerOne : Int) < 0
  · simp only [hneg, decide_True, if_true]
    rw [← habs]
    omega
  · simp only [hneg, decide_False]
    rw [← habs]
    simp only [Bool.false_eq_true, if_false]
    omega

theorem ofInt_eq (i : Int) (hi : i.natAbs < 2 ^ 53) : ofInt i = fin (i * unitsPerOne) :=
  roundFrac_units i hi

theorem lit_one_eq (i : Int) (hi : i.natAbs < 2 ^ 53) : lit i 1 = fin (i * unitsPerOne) :=
  roundFrac_units i hi

end Double

namespace Double

theorem round_false_cases (n d : Nat) :
    (round false n d = inf false ∧ overflowUnits ≤ roundUnits n d) ∨
    (round false n d = fin (roundUnits n d) ∧ roundUnits n d < overflowUnits) := by
  unfold round
  by_cases h : overflowUnits ≤ roundUnits n d
  · left
    simp [h]
  · right
    simp only [h, if_false, Bool.false_eq_true, true_and]
    omega

theorem roundFrac_of_nonneg (z : Int) (d : Nat) (hz : 0 ≤ z) :
    roundFrac z d = round false z.natAbs d := by
  unfold roundFrac
  have : decide (z < 0) = false := by simp; omega
  rw [this]

theorem roundFrac_notNaN (z : Int) (d : Nat) : (roundFrac z d).notNaN :=
  roundFrac_ne_nan z d

theorem mul_self_cases (w : Double) :
    w * w = nan ∨ w * w = inf false ∨
    ∃ a : Int, w = fin a ∧ w * w = fin (roundUnits (a.natAbs * a.natAbs) unitsPerOne) := by
  rw [mul_def]
  cases w with
  | nan => left; rfl
  | inf b => right; left; cases b <;> rfl
  | fin a =>
    have h : mul (fin a) (fin a) = round false (a.natAbs * a.natAbs) unitsPerOne := by
      show roundFrac (a * a) unitsPerOne = _
      rw [roundFrac_of_nonneg _ _ (mul_self_nonneg a), Int.natAbs_mul]
    rw [h]
    rcases round_false_cases (a.natAbs * a.natAbs) unitsPerOne with ⟨h1, _⟩ | ⟨h1, _⟩
    · right; left; exact h1
    · right; right; exact ⟨a, rfl, h1⟩

theorem four_eq : lit 4 1 = fin ((4 * unitsPerOne : Nat) : Int) := by
  rw [lit_one_eq 4 (by decide)]
  push_cast
  rfl

/-- While the guard `u*u + v*v < 4.0` holds, `u` and `v` are finite and below 2 in
magnitude. -/
theorem guard_small (u v : Double) (h : u * u + v * v < lit 4 1) :
    ∃ a b : Int, u = fin a ∧ v = fin b ∧
      a.natAbs < 2 * unitsPerOne ∧ b.natAbs < 2 * unitsPerOne := by
  have hU := unitsPerOne_pos
  have hrep : Representable (4 * unitsPerOne) := representable_units 4 (by decide)
  rw [four_eq, lt_def, add_def] at h
  have key : ∀ a : Int, roundUnits (a.natAbs * a.natAbs) unitsPerOne < 4 * unitsPerOne →
      a.natAbs < 2 * unitsPerOne := by
    intro a ha
    by_contra hge
    have hge2 : 2 * unitsPerOne ≤ a.natAbs := by omega
    have := roundUnits_ge_rep (a.natAbs * a.natAbs) unitsPerOne (4 * unitsPerOne) hU hrep (by
      calc 4 * unitsPerOne * unitsPerOne = 2 * unitsPerOne * (2 * unitsPerOne) := by ring
        _ ≤ a.natAbs * a.natAbs := Nat.mul_le_mul hge2 hge2)
    omega
  have hbad : ∀ s : Double, (s = nan ∨ s = inf false) →
      ∀ t : Double, lt s t = true → False := by
    intro s hs t ht
    rcases hs with rfl | rfl <;> cases t <;> simp [lt] at ht
  rcases mul_self_cases u with hu | hu | ⟨a, hua, hu⟩ <;>
    rcases mul_self_cases v with hv | hv | ⟨b, hvb, hv⟩ <;> rw [hu, hv] at h
  · exact (hbad _ (Or.inl rfl) _ h).elim
  · exact (hbad _ (Or.inl rfl) _ h).elim
  · exact (hbad _ (Or.inl rfl) _ h).elim
  · exact (hbad _ (Or.inl rfl) _ h).elim
  · exact (hbad _ (Or.inr rfl) _ h).elim
  · exact (hbad _ (Or.inr rfl) _ h).elim
  · exact (hbad _ (Or.inl rfl) _ h).elim
  · exact (hbad _ (Or.inr rfl) _ h).elim
  have ka := key a
  have kb := key b
  generalize roundUnits (a.natAbs * a.natAbs) unitsPerOne = r1 at *
  generalize roundUnits (b.natAbs * b.natAbs) unitsPerOne = r2 at *
  have hsum : add (fin (r1 : Nat)) (fin (r2 : Nat)) = round false (r1 + r2) 1 := by
    show roundFrac ((r1 : Int) + (r2 : Int)) 1 = _
    rw [roundFrac_of_nonneg _ _ (by omega)]
    congr 1
  rw [hsum] at h
  rcases round_false_cases (r1 + r2) 1 with ⟨h1, _⟩ | ⟨h1, _⟩
  · rw [h1] at h
    exact (hbad _ (Or.inr rfl) _ h).elim
  · rw [h1] at h
    simp only [lt, decide_eq_true_eq] at h
    have hlt : roundUnits (r1 + r2) 1 < 4 * unitsPerOne := by
      exact_mod_cast h
    have hs : r1 + r2 < 4 * unitsPerOne := by
      by_contra hge
      have := roundUnits_ge_rep _ 1 (4 * unitsPerOne) (by omega) hrep
        (by omega : 4 * unitsPerOne * 1 ≤ r1 + r2)
      omega
    exact ⟨a, b, hua, hvb, ka (by omega), kb (by omega)⟩

theorem four_units_lt_overflow : 4 * unitsPerOne < overflowUnits :=
  units_lt_overflow 4 (by decide)

/-- A rounding whose exact value is at most `4.0` in magnitude is finite. -/
theorem roundFrac_fin_of_le (z : Int) (d : Nat) (hd : 0 < d)
    (h : z.natAbs ≤ 4 * unitsPerOne * d) : ∃ t : Int, roundFrac z d = fin t := by
  have hle := roundUnits_le_rep z.natAbs d (4 * unitsPerOne) hd
    (representable_units 4 (by decide)) h
  have hov := four_units_lt_overflow
  unfold roundFrac round
  simp only []
  rw [if_neg (by omega)]
  exact ⟨_, rfl⟩

theorem two_mul_fin (a : Int) (ha : a.natAbs < 2 * unitsPerOne) :
    ∃ t : Int, ofInt 2 * fin a = fin t := by
  rw [ofInt_eq 2 (by decide), mul_def]
  show ∃ t : Int, roundFrac (2 * (unitsPerOne : Int) * a) unitsPerOne = fin t
  apply roundFrac_fin_of_le _ _ unitsPerOne_pos
  rw [Int.natAbs_mul, Int.natAbs_mul, Int.natAbs_ofNat]
  have : (2 : Int).natAbs = 2 := rfl
  rw [this]
  calc 2 * unitsPerOne * a.natAbs ≤ 2 * unitsPerOne * (2 * unitsPerOne) :=
        Nat.mul_le_mul_left _ (by omega)
    _ = 4 * unitsPerOne * unitsPerOne := by ring

theorem mul_self_fin (a : Int) (ha : a.natAbs < 2 * unitsPerOne) :
    ∃ c : Int, fin a * fin a = fin c := by
  rw [mul_def]
  show ∃ c : Int, roundFrac (a * a) unitsPerOne = fin c
  apply roundFrac_fin_of_le _ _ unitsPerOne_pos
  rw [Int.natAbs_mul]
  calc a.natAbs * a.natAbs ≤ 2 * unitsPerOne * (2 * unitsPerOne) :=
        Nat.mul_le_mul (by omega) (by omega)
    _ = 4 * unitsPerOne * unitsPerOne := by ring

theorem fin_mul_fin_notNaN (a b : Int) : (fin a * fin b).notNaN :=
  roundFrac_notNaN _ _

theorem fin_sub_fin_notNaN (a b : Int) : (fin a - fin b).notNaN :=
  roundFrac_notNaN _ _

theorem add_fin_notNaN (s : Double) (p : Int) (hs : s.notNaN) : (s + fin p).notNaN := by
  cases s with
  | nan => exact hs
  | inf b => exact fun h => Double.noConfusion h
  | fin n => exact roundFrac_notNaN _ _

/-- One pass of the loop from finite `u`, `v` below 2 in magnitude, with finite `x`, `y`:
neither new variable is NaN. -/
theorem step_notNaN (x y : Double) (hx : x.isFinite = true) (hy : y.isFinite = true)
    (a b : Int) (ha : a.natAbs < 2 * unitsPerOne) (hb : b.natAbs < 2 * unitsPerOne) :
    (fin a * fin a - fin b * fin b + x).notNaN ∧ (ofInt 2 * fin a * fin b + y).notNaN := by
  cases x with
  | nan => simp [isFinite] at hx
  | inf _ => simp [isFinite] at hx
  | fin p =>
    cases y with
    | nan => simp [isFinite] at hy
    | inf _ => simp [isFinite] at hy
    | fin q =>
      obtain ⟨c1, h1⟩ := mul_self_fin a ha
      obtain ⟨c2, h2⟩ := mul_self_fin b hb
      obtain ⟨t, ht⟩ := two_mul_fin a ha
      constructor
      · rw [h1, h2]
        exact add_fin_notNaN _ _ (fin_sub_fin_notNaN _ _)
      · rw [ht]
        exact add_fin_notNaN _ _ (fin_mul_fin_notNaN _ _)

theorem mul_self_isNonneg (w : Double) (hw : w.notNaN) : (w * w).isNonneg := by
  rcases mul_self_cases w with h | h | ⟨a, _, h⟩
  · cases w with
    | nan => exact absurd rfl hw
    | inf b => cases b <;> simp [mul_def, mul] at h
    | fin a => exact absurd h (roundFrac_ne_nan _ _)
  · exact Or.inl h
  · exact Or.inr ⟨_, h⟩

theorem add_isNonneg (s t : Double) (hs : s.isNonneg) (ht : t.isNonneg) : (s + t).isNonneg := by
  rw [add_def]
  rcases hs with rfl | ⟨m, rfl⟩ <;> rcases ht with rfl | ⟨n, rfl⟩
  · exact Or.inl rfl
  · exact Or.inl rfl
  · exact Or.inl rfl
  · show (roundFrac ((m : Int) + (n : Int)) 1).isNonneg
    rw [roundFrac_of_nonneg _ _ (by omega)]
    rcases round_false_cases ((m : Int) + (n : Int)).natAbs 1 with ⟨h, _⟩ | ⟨h, _⟩
    · exact Or.inl h
    · exact Or.inr ⟨_, h⟩

/-- For a value that is not NaN, `4.0 ≤ s` is the negation of the guard `s < 4.0`. -/
theorem four_le_iff (s : Double) (hs : s.isNonneg) : lit 4 1 ≤ s ↔ ¬ s < lit 4 1 := by
  rw [four_eq, le_def, lt_def]
  rcases hs with rfl | ⟨n, rfl⟩
  · simp [le, lt]
  · simp only [le, lt, decide_eq_true_eq]
    omega

end Double

/-- Along the orbit of a finite point, `|z_j|²` is not NaN as long as the guard held on all
earlier points. -/
theorem normSq_orbit_isNonneg (x y : Double) (hx : x.isFinite = true) (hy : y.isFinite = true) :
    ∀ j : Nat, (∀ i : Nat, i < j → normSq (orbit x y i) < Double.lit 4 1) →
      (normSq (orbit x y j)).isNonneg := by
  intro j hg
  cases j with
  | zero =>
    obtain ⟨h1, _, h3, _, _, _⟩ := zero_facts
    have h5 : Double.fin 0 + Double.fin 0 = Double.fin 0 := Double.roundFrac_zero 1
    have e : normSq (orbit x y 0) = Double.fin 0 := by
      show Double.lit 0 1 * Double.lit 0 1 + Double.lit 0 1 * Double.lit 0 1 = Double.fin 0
      rw [h1, h3, h5]
    rw [e]
    exact Or.inr ⟨0, rfl⟩
  | succ j =>
    have hj := hg j (by omega)
    unfold normSq at hj
    obtain ⟨a, b, ha, hb, hal, hbl⟩ := Double.guard_small _ _ hj
    obtain ⟨n1, n2⟩ := Double.step_notNaN x y hx hy a b hal hbl
    have e : orbit x y (j + 1)
        = (Double.fin a * Double.fin a - Double.fin b * Double.fin b + x,
            Double.ofInt 2 * Double.fin a * Double.fin b + y) := by
      show orbit_step x y (orbit x y j) = _
      unfold orbit_step
      rw [ha, hb]
    rw [e]
    unfold normSq
    dsimp only
    generalize Double.fin a * Double.fin a - Double.fin b * Double.fin b + x = u1 at *
    generalize Double.ofInt 2 * Double.fin a * Double.fin b + y = v1 at *
    exact Double.add_isNonneg _ _ (Double.mul_self_isNonneg u1 n1)
      (Double.mul_self_isNonneg v1 n2)

/-! ## The first escape -/

theorem guard_zero (x y : Double) : normSq (orbit x y 0) < Double.lit 4 1 := by
  obtain ⟨h1, _, h3, h4, _, _⟩ := zero_facts
  show Double.lit 0 1 * Double.lit 0 1 + Double.lit 0 1 * Double.lit 0 1 < Double.lit 4 1
  rw [h1, h3]
  exact h4

/-- Before the first index `k ≥ 1` with `|z_k|² ≥ 4` the guard of the loop holds. -/
theorem guard_before_escape (x y : Double) (hx : x.isFinite = true) (hy : y.isFinite = true)
    (k : Nat) (hk : ∀ j : Nat, 1 ≤ j → j < k → ¬ Double.lit 4 1 ≤ normSq (orbit x y j)) :
    ∀ j : Nat, j < k → normSq (orbit x y j) < Double.lit 4 1 := by
  intro j
  induction j using Nat.strong_induction_on with
  | _ j ih =>
    intro hj
    rcases Nat.eq_zero_or_pos j with h0 | hpos
    · subst h0
      exact guard_zero x y
    · have hnn := normSq_orbit_isNonneg x y hx hy j (fun i hi => ih i hi (by omega))
      have hE := hk j hpos hj
      rw [Double.four_le_iff _ hnn] at hE
      exact not_not.mp hE

/-- C4 (amended): for finite `x`, `y` and a budget `n ≥ 1`, with `z₀ = 0` and
`zₖ = zₖ₋₁² + (x + iy)`: if some `k` with `1 ≤ k < n` has `|zₖ|² ≥ 4`, the kernel returns
`k + 1` for the least such `k` (the counter is one ahead of the orbit index when the guard
sees `zₖ`); otherwise it returns `n`. -/
theorem C4_returns_first_escape_plus_one (x y : Double) (n : Int)
    (hx : x.isFinite = true) (hy : y.isFinite = true) (hn : 1 ≤ n) :
    (∀ k : Nat, 1 ≤ k → (k : Int) < n → Double.lit 4 1 ≤ normSq (orbit x y k) →
      (∀ j : Nat, 1 ≤ j → j < k → ¬ Double.lit 4 1 ≤ normSq (orbit x y j)) →
      mandelbrot_iterations x y n = k + 1) ∧
    ((∀ k : Nat, 1 ≤ k → (k : Int) < n → ¬ Double.lit 4 1 ≤ normSq (orbit x y k)) →
      mandelbrot_iterations x y n = n) := by
  obtain ⟨r1, r2, r3, r4⟩ := mandelbrot_iterations_orbit x y n
  have hmax : max n 1 = n := by omega
  rw [hmax] at r2
  constructor
  · intro k hk1 hkn hEk hmin
    have hG := guard_before_escape x y hx hy k hmin
    have hnn := normSq_orbit_isNonneg x y hx hy k hG
    have hnG : ¬ normSq (orbit x y k) < Double.lit 4 1 := (Double.four_le_iff _ hnn).mp hEk
    rcases lt_trichotomy (mandelbrot_iterations x y n) ((k : Int) + 1) with hlt | heq | hgt
    · exfalso
      have h := r4 (by omega)
      have hidx : (mandelbrot_iterations x y n - 1).toNat < k := by omega
      exact h (hG _ hidx)
    · exact heq
    · exact absurd (r3 k hgt) hnG
  · intro hnone
    have hG : ∀ j : Nat, (j : Int) < n → normSq (orbit x y j) < Double.lit 4 1 := by
      intro j hj
      exact guard_before_escape x y hx hy (j + 1)
        (fun i hi1 hi2 => hnone i hi1 (by omega)) j (by omega)
    by_contra hne
    have hlt : mandelbrot_iterations x y n < n := by omega
    exact r4 hlt (hG _ (by omega))

set_option maxRecDepth 100000 in
/-- C4 (witness): the amended statement at the point `(2, 0)` with budget 3. -/
theorem C4_returns_first_escape_plus_one_witness :
    (Double.ofInt 2).isFinite = true ∧ (Double.ofInt 0).isFinite = true ∧ (1 : Int) ≤ 3 ∧
    ((∀ k : Nat, 1 ≤ k → (k : Int) < 3 →
        Double.lit 4 1 ≤ normSq (orbit (Double.ofInt 2) (Double.ofInt 0) k) →
        (∀ j : Nat, 1 ≤ j → j < k →
          ¬ Double.lit 4 1 ≤ normSq (orbit (Double.ofInt 2) (Double.ofInt 0) j)) →
        mandelbrot_iterations (Double.ofInt 2) (Double.ofInt 0) 3 = k + 1) ∧
      ((∀ k : Nat, 1 ≤ k → (k : Int) < 3 →
          ¬ Double.lit 4 1 ≤ normSq (orbit (Double.ofInt 2) (Double.ofInt 0) k)) →
        mandelbrot_iterations (Double.ofInt 2) (Double.ofInt 0) 3 = 3)) :=
  ⟨by decide, by decide, by decide,
    C4_returns_first_escape_plus_one (Double.ofInt 2) (Double.ofInt 0) 3
      (by decide) (by decide) (by decide)⟩

set_option maxRecDepth 100000 in
/-- C4 (counterexample): at the point `(2, 0)` with budget 3, `z₁ = 2` has `|z₁|² = 4 ≥ 4`,
so the least `k` with `1 ≤ k < 3` and `|zₖ|² ≥ 4` is 1; the kernel returns 2. -/
theorem C4_first_escape_index_not_returned :
    (1 : Int) ≤ 3 ∧ (1 : Nat) ≤ 1 ∧ ((1 : Nat) : Int) < 3 ∧
    Double.lit 4 1 ≤ normSq (orbit (Double.ofInt 2) (Double.ofInt 0) 1) ∧
    (∀ j : Nat, 1 ≤ j → j < 1 →
      ¬ Double.lit 4 1 ≤ normSq (orbit (Double.ofInt 2) (Double.ofInt 0) j)) ∧
    mandelbrot_iterations (Double.ofInt 2) (Double.ofInt 0) 3 = 2 ∧
    mandelbrot_iterations (Double.ofInt 2) (Double.ofInt 0) 3 ≠ ((1 : Nat) : Int) := by
  refine ⟨by decide, by decide, by decide, by decide, ?_, by decide, by decide⟩
  intro j h1 h2
  omega

/-! ## The derived height -/

theorem Double.roundFrac_nonneg (z : Int) (d : Nat) (hz : 0 ≤ z) :
    (Double.roundFrac z d).nonnegOrNaN := by
  have h : decide (z < 0) = false := by simp; omega
  unfold Double.roundFrac Double.round
  rw [h]
  by_cases ho : overflowUnits ≤ roundUnits z.natAbs d
  · simp [ho, Double.nonnegOrNaN]
  · simp [ho, Double.nonnegOrNaN]

theorem Double.sub_nonneg_of_lt (a b : Double) (h : a < b) : (b - a).nonnegOrNaN := by
  rw [Double.lt_def] at h
  rw [Double.sub_def]
  cases a <;> cases b
  case fin.fin m n =>
    simp only [Double.lt, decide_eq_true_eq] at h
    exact Double.roundFrac_nonneg _ _ (by omega)
  case inf.inf x y =>
    cases x <;> cases y <;> simp [Double.lt] at h
    simp [Double.add, Double.neg, Double.nonnegOrNaN]
  case inf.fin x n =>
    cases x <;> simp [Double.lt] at h
    simp [Double.add, Double.neg, Double.nonnegOrNaN]
  case fin.inf n y =>
    cases y <;> simp [Double.lt] at h
    simp [Double.add, Double.neg, Double.nonnegOrNaN]
  all_goals simp [Double.lt] at h

theorem Double.mul_nonneg (a b : Double) (ha : a.nonnegOrNaN) (hb : b.nonnegOrNaN) :
    (a * b).nonnegOrNaN := by
  rw [Double.mul_def]
  cases a <;> cases b
  case fin.fin m n =>
    simp only [Double.nonnegOrNaN] at ha hb
    exact Double.roundFrac_nonneg _ _ (Int.mul_nonneg ha hb)
  case inf.inf x y =>
    simp only [Double.nonnegOrNaN] at ha hb
    subst ha hb
    simp [Double.mul, Double.nonnegOrNaN]
  case inf.fin x n =>
    simp only [Double.nonnegOrNaN] at ha hb
    subst ha
    by_cases h0 : n = 0
    · simp [Double.mul, h0, Double.nonnegOrNaN]
    · have h1 : ¬ n < 0 := by omega
      simp [Double.mul, h0, h1, Double.nonnegOrNaN]
  case fin.inf n y =>
    simp only [Double.nonnegOrNaN] at ha hb
    subst hb
    by_cases h0 : n = 0
    · simp [Double.mul, h0, Double.nonnegOrNaN]
    · have h1 : ¬ n < 0 := by omega
      simp [Double.mul, h0, h1, Double.nonnegOrNaN]
  all_goals simp [Double.mul, Double.nonnegOrNaN]

theorem Double.div_nonneg (a b : Double) (ha : a.nonnegOrNaN) (hb : b.nonnegOrNaN) :
    (a / b).nonnegOrNaN := by
  rw [Double.div_def]
  cases a <;> cases b
  case fin.fin m n =>
    simp only [Double.nonnegOrNaN] at ha hb
    by_cases h0 : n = 0
    · by_cases hm : m = 0
      · simp [Double.div, h0, hm, Double.nonnegOrNaN]
      · have h1 : ¬ m < 0 := by omega
        simp [Double.div, h0, hm, h1, Double.nonnegOrNaN]
    · simp only [Double.div, h0, if_false]
      have hs : n.sign = 1 := Int.sign_eq_one_of_pos (by omega)
      rw [hs]
      exact Double.roundFrac_nonneg _ _ (by positivity)
  case inf.fin x n =>
    simp only [Double.nonnegOrNaN] at ha hb
    subst ha
    have h1 : ¬ n < 0 := by omega
    simp [Double.div, h1, Double.nonnegOrNaN]
  case fin.inf n y =>
    simp [Double.div, Double.nonnegOrNaN]
  all_goals simp [Double.div, Double.nonnegOrNaN]

theorem Double.ofInt_nonneg (i : Int) (hi : 0 ≤ i) : (Double.ofInt i).nonnegOrNaN :=
  Double.roundFrac_nonneg _ _ (by unfold unitsPerOne; positivity)

/-- For a valid viewport and a positive `xres` the quotient that `calculate_height` casts is
not negative. -/
theorem height_quotient_nonneg (xmin xmax ymin ymax : Double) (xres : Int)
    (hx : xmin < xmax) (hy : ymin < ymax) (hres : 1 ≤ xres) :
    (height_quotient xmin xmax ymin ymax xres).nonnegOrNaN :=
  Double.div_nonneg _ _
    (Double.mul_nonneg _ _ (Double.ofInt_nonneg xres (by omega)) (Double.sub_nonneg_of_lt _ _ hy))
    (Double.sub_nonneg_of_lt _ _ hx)

/-- The cast of a finite value that is not negative: defined exactly when the value is below
`2^31`, and then its floor. -/
theorem Double.toInt_of_nonneg (n : Int) (hn : 0 ≤ n) :
    (Double.toRat (Double.fin n) < 2147483648 →
      Double.toInt (Double.fin n) = some ⌊Double.toRat (Double.fin n)⌋) ∧
    (∀ h, Double.toInt (Double.fin n) = some h → h = ⌊Double.toRat (Double.fin n)⌋ ∧ 0 ≤ h) := by
  have hU := unitsPerOne_pos
  have hfloor : ⌊Double.toRat (Double.fin n)⌋ = n / (unitsPerOne : Int) := by
    unfold Double.toRat
    exact Rat.floor_intCast_div_natCast n unitsPerOne
  have htdiv : Int.tdiv n (unitsPerOne : Int) = n / (unitsPerOne : Int) :=
    Int.tdiv_eq_ediv hn (by omega)
  have hq0 : 0 ≤ n / (unitsPerOne : Int) := Int.ediv_nonneg hn (by omega)
  constructor
  · intro hlt
    have hfl : ⌊Double.toRat (Double.fin n)⌋ < 2147483648 := by
      rw [Int.floor_lt]
      exact_mod_cast hlt
    rw [hfloor] at hfl ⊢
    unfold Double.toInt
    simp only [htdiv]
    rw [if_pos ⟨by omega, by omega⟩]
  · intro h hh
    unfold Double.toInt at hh
    simp only [htdiv] at hh
    by_cases hc : -2147483648 ≤ n / (unitsPerOne : Int) ∧ n / (unitsPerOne : Int) ≤ 2147483647
    · rw [if_pos hc] at hh
      cases hh
      exact ⟨hfloor.symm, hq0⟩
    · rw [if_neg hc] at hh
      cases hh

/-! ## The raster loops -/

theorem foldlM_range_succ {β : Type} (f : β → Nat → Option β) (b : β) (n : Nat) :
    (List.range (n + 1)).foldlM f b = ((List.range n).foldlM f b).bind (fun c => f c n) := by
  rw [List.range_succ, List.foldlM_append]
  cases h : List.foldlM f b (List.range n) <;> simp [h]

theorem foldlM_range_inv {β : Type} (P : Nat → β → Prop) (f : β → Nat → Option β) (n : Nat)
    (hstep : ∀ m b c, m < n → P m b → f b m = some c → P (m + 1) c) :
    ∀ b c, P 0 b → (List.range n).foldlM f b = some c → P n c := by
  induction n with
  | zero =>
    intro b c h0 h
    simp at h
    subst h
    exact h0
  | succ n ih =>
    intro b c h0 h
    rw [foldlM_range_succ] at h
    cases hm : List.foldlM f b (List.range n) with
    | none => simp [hm] at h
    | some d =>
      simp [hm] at h
      have hd := ih (fun m b c hmn => hstep m b c (by omega)) b d h0 hm
      exact hstep n d c (by omega) hd h

theorem store_eq_some {px px1 : List Nat} {idx : Int} {b : Nat} (h : store px idx b = some px1) :
    0 ≤ idx ∧ idx < px.length ∧ px1 = px.set idx.toNat b := by
  unfold store at h
  by_cases hc : 0 ≤ idx ∧ idx < px.length
  · simp [hc] at h
    exact ⟨hc.1, hc.2, h.symm⟩
  · simp [hc] at h

theorem store_rgba_eq_some {px px1 : List Nat} {idx : Int} {c : RGBA}
    (h : store_rgba px idx c = some px1) :
    0 ≤ idx ∧ idx + 3 < px.length ∧
    px1 = (((px.set idx.toNat c.r).set (idx.toNat + 1) c.g).set (idx.toNat + 2) c.b).set
      (idx.toNat + 3) c.a := by
  unfold store_rgba at h
  cases h0 : store px idx c.r with
  | none => simp [h0] at h
  | some p0 =>
    cases h1 : store p0 (idx + 1) c.g with
    | none => simp [h0, h1] at h
    | some p1 =>
      cases h2 : store p1 (idx + 2) c.b with
      | none => simp [h0, h1, h2] at h
      | some p2 =>
        simp [h0, h1, h2] at h
        obtain ⟨a0, _, e0⟩ := store_eq_some h0
        obtain ⟨_, _, e1⟩ := store_eq_some h1
        obtain ⟨_, _, e2⟩ := store_eq_some h2
        obtain ⟨_, b3, e3⟩ := store_eq_some h
        have l0 : p0.length = px.length := by rw [e0]; simp
        have l1 : p1.length = px.length := by rw [e1]; simp [l0]
        have l2 : p2.length = px.length := by rw [e2]; simp [l1]
        have t1 : (idx + 1).toNat = idx.toNat + 1 := by omega
        have t2 : (idx + 2).toNat = idx.toNat + 2 := by omega
        have t3 : (idx + 3).toNat = idx.toNat + 3 := by omega
        refine ⟨a0, by omega, ?_⟩
        rw [e3, e2, e1, e0, t1, t2, t3]

theorem set4_get (px : List Nat) (n : Nat) (c : RGBA) (h : n + 3 < px.length) :
    ((((px.set n c.r).set (n + 1) c.g).set (n + 2) c.b).set (n + 3) c.a)[n]? = some c.r ∧
    ((((px.set n c.r).set (n + 1) c.g).set (n + 2) c.b).set (n + 3) c.a)[n + 1]? = some c.g ∧
    ((((px.set n c.r).set (n + 1) c.g).set (n + 2) c.b).set (n + 3) c.a)[n + 2]? = some c.b ∧
    ((((px.set n c.r).set (n + 1) c.g).set (n + 2) c.b).set (n + 3) c.a)[n + 3]? = some c.a ∧
    ∀ m, (m < n ∨ n + 4 ≤ m) →
      ((((px.set n c.r).set (n + 1) c.g).set (n + 2) c.b).set (n + 3) c.a)[m]? = px[m]? := by
  have h0 : n < px.length := by omega
  have h1 : n + 1 < px.length := by omega
  have h2 : n + 2 < px.length := by omega
  refine ⟨?_, ?_, ?_, ?_, ?_⟩
  · simp [List.getElem?_set, h0]
  · simp [List.getElem?_set, h1]
  · simp [List.getElem?_set, h2]
  · simp [List.getElem?_set, h]
  · intro m hm
    simp only [List.getElem?_set]
    rw [if_neg (by omega), if_neg (by omega), if_neg (by omega), if_neg (by omega)]

theorem pixel_index_eq (w j i : Nat) (h : 4 * (j * w + i) < 2147483648) :
    pixel_index (w : Int) (j : Int) (i : Int) = ((4 * (j * w + i) : Nat) : Int) := by
  unfold pixel_index wrap32
  have hm : (0 : Int) ≤ (j : Int) * (w : Int) := by positivity
  have hc : (((j * w : Nat)) : Int) = (j : Int) * (w : Int) := by push_cast; ring
  generalize hjw : (j : Int) * (w : Int) = m at *
  generalize hjwn : j * w = mn at *
  omega

theorem pixel_index_neg (w j i : Nat) (h : 4 * (j * w + i) = 2147483648) :
    pixel_index (w : Int) (j : Int) (i : Int) < 0 := by
  unfold pixel_index wrap32
  have hc : (((j * w : Nat)) : Int) = (j : Int) * (w : Int) := by push_cast; ring
  generalize hjw : (j : Int) * (w : Int) = m at *
  generalize hjwn : j * w = mn at *
  omega

/-- One loop body: storing pixel `(j, i)` extends `Stored` by one pixel. -/
theorem stored_step (F : Nat → Nat → RGBA) (w L : Nat) (j i : Nat) (hi : i < w)
    (px px1 : List Nat) (hs : Stored F w L px (j * w + i))
    (h : store_rgba px (pixel_index (w : Int) (j : Int) (i : Int)) (F j i) = some px1) :
    Stored F w L px1 (j * w + i + 1) := by
  obtain ⟨hl, hL, hB, hbytes⟩ := hs
  obtain ⟨h0, h3, e⟩ := store_rgba_eq_some h
  have hlt : 4 * (j * w + i) < 2147483648 := by
    rcases Nat.lt_or_ge (4 * (j * w + i)) 2147483648 with hlt | hge
    · exact hlt
    · exfalso
      have := pixel_index_neg w j i (by omega)
      omega
  rw [pixel_index_eq w j i hlt] at h0 h3 e
  have hn : ((4 * (j * w + i) : Nat) : Int).toNat = 4 * (j * w + i) := Int.toNat_ofNat _
  rw [hn] at e
  have hlen : px1.length = L := by rw [e]; simp [hl]
  have h3n : 4 * (j * w + i) + 3 < px.length := by omega
  refine ⟨hlen, by omega, by omega, ?_⟩
  obtain ⟨g0, g1, g2, g3, gother⟩ := set4_get px (4 * (j * w + i)) (F j i) h3n
  rw [← e] at g0 g1 g2 g3 gother
  intro j1 i1 hi1 hlt1
  rcases Nat.lt_or_ge (j1 * w + i1) (j * w + i) with hold | hnew
  · obtain ⟨b0, b1, b2, b3⟩ := hbytes j1 i1 hi1 hold
    rw [gother _ (by omega), gother _ (by omega), gother _ (by omega), gother _ (by omega)]
    exact ⟨b0, b1, b2, b3⟩
  · have heq : j1 * w + i1 = j * w + i := by omega
    have hj : j1 = j := by
      have := congrArg (· / w) heq
      simp only [] at this
      rw [Nat.mul_comm j1, Nat.mul_comm j, Nat.mul_add_div (by omega), Nat.mul_add_div (by omega),
        Nat.div_eq_of_lt hi1, Nat.div_eq_of_lt hi] at this
      simpa using this
    subst hj
    have hii : i1 = i := by omega
    subst hii
    exact ⟨g0, g1, g2, g3⟩

theorem stored_zero (F : Nat → Nat → RGBA) (w : Nat) (px : List Nat) :
    Stored F w px.length px 0 :=
  ⟨rfl, by omega, by omega, fun j i _ h => absurd h (by omega)⟩

/-- The loops of `raster`: when they complete, every pixel of the `xres × yres` grid has
been stored at its place, and the block is large enough for all of them. -/
theorem raster_stored (shade : Int → RGBA) (xmin ymax dx dy : Double) (maxiter xres yres : Int)
    (px0 px : List Nat) (h : raster shade xmin ymax dx dy maxiter xres yres px0 = some px) :
    Stored (pixel_shade shade xmin ymax dx dy maxiter) xres.toNat px0.length px
      (yres.toNat * xres.toNat) := by
  unfold raster at h
  refine foldlM_range_inv
    (fun j p => Stored (pixel_shade shade xmin ymax dx dy maxiter) xres.toNat px0.length p
      (j * xres.toNat)) _ yres.toNat ?_ px0 px ?_ h
  · intro j p q _ hp hq
    have hrow := foldlM_range_inv
      (fun i p => Stored (pixel_shade shade xmin ymax dx dy maxiter) xres.toNat px0.length p
        (j * xres.toNat + i)) _ xres.toNat ?_ p q (by simpa using hp) hq
    · have e : (j + 1) * xres.toNat = j * xres.toNat + xres.toNat := by ring
      rw [e]
      exact hrow
    · intro i p1 q1 hi hp1 hq1
      have hx : ((xres.toNat : Nat) : Int) = xres := by omega
      have hq2 : store_rgba p1 (pixel_index ((xres.toNat : Nat) : Int) (j : Int) (i : Int))
          (pixel_shade shade xmin ymax dx dy maxiter j i) = some q1 := by
        rw [hx]
        exact hq1
      exact stored_step _ _ _ j i hi p1 q1 hp1 hq2
  · simpa using stored_zero _ _ px0

/-- A render call that returns a block: the height was derived, `last_dimensions` holds
`(xres, yres)`, and every pixel of the grid is stored in the block. -/
theorem render_stored (shade : Int → RGBA) (H : Host) (xmin xmax ymin ymax : Double)
    (maxiter xres : Int) (r : Rendered) (buf : List Nat)
    (hr : render shade H xmin xmax ymin ymax maxiter xres = some r)
    (hbuf : r.pixels = some buf) :
    ∃ yres : Int, calculate_height xmin xmax ymin ymax xres = some yres ∧
      r.last_dimensions = ⟨xres, yres⟩ ∧
      Stored (pixel_shade shade xmin ymax ((xmax - xmin) / Double.ofInt xres)
          ((ymax - ymin) / Double.ofInt yres) maxiter)
        xres.toNat (alloc_size xres yres) buf (yres.toNat * xres.toNat) := by
  unfold render at hr
  cases hh : calculate_height xmin xmax ymin ymax xres with
  | none => simp [hh] at hr
  | some yres =>
    refine ⟨yres, rfl, ?_⟩
    simp only [hh, Option.bind_eq_bind, Option.some_bind] at hr
    cases hm : malloc H (alloc_size xres yres) with
    | none =>
      simp only [hm] at hr
      cases hr
      simp at hbuf
    | some px0 =>
      simp only [hm] at hr
      cases hras : raster shade xmin ymax ((xmax - xmin) / Double.ofInt xres)
          ((ymax - ymin) / Double.ofInt yres) maxiter xres yres px0 with
      | none => simp [hras] at hr
      | some px =>
        simp only [hras, Option.some_bind, Option.some.injEq] at hr
        subst hr
        simp only [Option.some.injEq] at hbuf
        subst hbuf
        refine ⟨rfl, ?_⟩
        have hlen : px0.length = alloc_size xres yres := by
          unfold malloc at hm
          by_cases hok : H.malloc_ok (alloc_size xres yres) = true
          · simp [hok] at hm
            rw [← hm]
            simp
          · simp [hok] at hm
        have := raster_stored shade xmin ymax _ _ maxiter xres yres px0 px hras
        rw [hlen] at this
        exact this

/-- The bytes of pixel `(j, i)` in a block returned by a render call. -/
theorem render_pixel (shade : Int → RGBA) (H : Host) (xmin xmax ymin ymax : Double)
    (maxiter xres : Int) (r : Rendered) (buf : List Nat)
    (hr : render shade H xmin xmax ymin ymax maxiter xres = some r)
    (hbuf : r.pixels = some buf) (i j : Nat)
    (hi : (i : Int) < r.last_dimensions.width) (hj : (j : Int) < r.last_dimensions.height) :
    r.last_dimensions.width = xres ∧
    buf[4 * (j * r.last_dimensions.width.toNat + i)]?
      = some (shade (mandelbrot_iterations
          (pixel_x xmin ((xmax - xmin) / Double.ofInt r.last_dimensions.width) i)
          (pixel_y ymax ((ymax - ymin) / Double.ofInt r.last_dimensions.height) j) maxiter)).r ∧
    buf[4 * (j * r.last_dimensions.width.toNat + i) + 1]?
      = some (shade (mandelbrot_iterations
          (pixel_x xmin ((xmax - xmin) / Double.ofInt r.last_dimensions.width) i)
          (pixel_y ymax ((ymax - ymin) / Double.ofInt r.last_dimensions.height) j) maxiter)).g ∧
    buf[4 * (j * r.last_dimensions.width.toNat + i) + 2]?
      = some (shade (mandelbrot_iterations
          (pixel_x xmin ((xmax - xmin) / Double.ofInt r.last_dimensions.width) i)
          (pixel_y ymax ((ymax - ymin) / Double.ofInt r.last_dimensions.height) j) maxiter)).b ∧
    buf[4 * (j * r.last_dimensions.width.toNat + i) + 3]?
      = some (shade (mandelbrot_iterations
          (pixel_x xmin ((xmax - xmin) / Double.ofInt r.last_dimensions.width) i)
          (pixel_y ymax ((ymax - ymin) / Double.ofInt r.last_dimensions.height) j) maxiter)).a := by
  obtain ⟨yres, _, hd, _, _, _, hbytes⟩ := render_stored shade H xmin xmax ymin ymax maxiter xres
    r buf hr hbuf
  rw [hd] at hi hj ⊢
  simp only at hi hj ⊢
  have hiw : i < xres.toNat := by omega
  have hjh : j < yres.toNat := by omega
  have hlt : j * xres.toNat + i < yres.toNat * xres.toNat := by
    have : (j + 1) * xres.toNat ≤ yres.toNat * xres.toNat := Nat.mul_le_mul_right _ hjh
    have e : (j + 1) * xres.toNat = j * xres.toNat + xres.toNat := by ring
    omega
  exact ⟨trivial, hbytes j i hiw hlt⟩

/-! ## Completion of the loops -/

theorem foldlM_range_defined {β : Type} (P : β → Prop) (f : β → Nat → Option β) (n : Nat)
    (hstep : ∀ m b, m < n → P b → ∃ c, f b m = some c ∧ P c) :
    ∀ b, P b → ∃ c, (List.range n).foldlM f b = some c ∧ P c := by
  induction n with
  | zero =>
    intro b hb
    exact ⟨b, by simp, hb⟩
  | succ n ih =>
    intro b hb
    obtain ⟨d, hd, hPd⟩ := ih (fun m b hm => hstep m b (by omega)) b hb
    obtain ⟨c, hc, hPc⟩ := hstep n d (by omega) hPd
    refine ⟨c, ?_, hPc⟩
    rw [foldlM_range_succ, hd]
    exact hc

theorem store_defined (px : List Nat) (idx : Int) (b : Nat) (h0 : 0 ≤ idx)
    (h1 : idx < px.length) :
    ∃ px1, store px idx b = some px1 ∧ px1.length = px.length := by
  refine ⟨px.set idx.toNat b, ?_, by simp⟩
  unfold store
  rw [if_pos ⟨h0, h1⟩]

theorem store_rgba_defined (px : List Nat) (idx : Int) (c : RGBA) (h0 : 0 ≤ idx)
    (h3 : idx + 3 < px.length) :
    ∃ px1, store_rgba px idx c = some px1 ∧ px1.length = px.length := by
  obtain ⟨p0, e0, l0⟩ := store_defined px idx c.r h0 (by omega)
  obtain ⟨p1, e1, l1⟩ := store_defined p0 (idx + 1) c.g (by omega) (by omega)
  obtain ⟨p2, e2, l2⟩ := store_defined p1 (idx + 2) c.b (by omega) (by omega)
  obtain ⟨p3, e3, l3⟩ := store_defined p2 (idx + 3) c.a (by omega) (by omega)
  refine ⟨p3, ?_, by omega⟩
  unfold store_rgba
  simp [e0, e1, e2, e3]

/-- The loops of `raster` run to completion when the block holds the `xres × yres` pixels
and its size fits an `int`. -/
theorem raster_defined (shade : Int → RGBA) (xmin ymax dx dy : Double) (maxiter xres yres : Int)
    (px0 : List Nat) (hL : 4 * (yres.toNat * xres.toNat) ≤ px0.length)
    (hB : 4 * (yres.toNat * xres.toNat) ≤ 2147483648) :
    ∃ px, raster shade xmin ymax dx dy maxiter xres yres px0 = some px ∧
      px.length = px0.length := by
  unfold raster
  refine foldlM_range_defined (fun p => p.length = px0.length) _ yres.toNat ?_ px0 rfl
  intro j p hj hp
  refine foldlM_range_defined (fun p => p.length = px0.length) _ xres.toNat ?_ p hp
  intro i p1 hi hp1
  have hx : ((xres.toNat : Nat) : Int) = xres := by omega
  have hlt : j * xres.toNat + i < yres.toNat * xres.toNat := by
    have : (j + 1) * xres.toNat ≤ yres.toNat * xres.toNat := Nat.mul_le_mul_right _ hj
    have e : (j + 1) * xres.toNat = j * xres.toNat + xres.toNat := by ring
    omega
  have hidx := pixel_index_eq xres.toNat j i (by omega)
  rw [hx] at hidx
  simp only []
  rw [hidx]
  obtain ⟨c, hc, hl⟩ := store_rgba_defined p1 ((4 * (j * xres.toNat + i) : Nat) : Int)
    (shade (mandelbrot_iterations (pixel_x xmin dx i) (pixel_y ymax dy j) maxiter))
    (by omega) (by omega)
  exact ⟨c, hc, by omega⟩

theorem alloc_size_eq (xres yres : Int) (hx : 0 ≤ xres) (hy : 0 ≤ yres)
    (hB : 4 * (yres.toNat * xres.toNat) ≤ 2147483648) :
    alloc_size xres yres = 4 * (yres.toNat * xres.toNat) := by
  unfold alloc_size wrap32
  have hc : ((yres.toNat * xres.toNat : Nat) : Int) = xres * yres := by
    push_cast
    rw [Int.toNat_of_nonneg hx, Int.toNat_of_nonneg hy]
    ring
  generalize yres.toNat * xres.toNat = m at *
  generalize xres * yres = p at *
  omega

/-- A render call is defined and returns a block of `xres * yres * 4` bytes whenever the
height is derived, the dimensions are not negative, the byte count fits, and the allocator
grants the block. -/
theorem render_defined (shade : Int → RGBA) (H : Host) (xmin xmax ymin ymax : Double)
    (maxiter xres yres : Int) (hh : calculate_height xmin xmax ymin ymax xres = some yres)
    (hx : 0 ≤ xres) (hy : 0 ≤ yres) (hB : 4 * (yres.toNat * xres.toNat) ≤ 2147483648)
    (hm : H.malloc_ok (4 * (yres.toNat * xres.toNat)) = true) :
    ∃ buf, render shade H xmin xmax ymin ymax maxiter xres = some ⟨some buf, ⟨xres, yres⟩⟩ ∧
      buf.length = 4 * (yres.toNat * xres.toNat) := by
  have hsize := alloc_size_eq xres yres hx hy hB
  have hlen : ((List.range (4 * (yres.toNat * xres.toNat))).map H.fresh).length
      = 4 * (yres.toNat * xres.toNat) := by simp
  obtain ⟨px, hpx, hl⟩ := raster_defined shade xmin ymax ((xmax - xmin) / Double.ofInt xres)
    ((ymax - ymin) / Double.ofInt yres) maxiter xres yres
    ((List.range (4 * (yres.toNat * xres.toNat))).map H.fresh) (by omega) hB
  refine ⟨px, ?_, by omega⟩
  unfold render
  simp only [hh, Option.bind_eq_bind, Option.some_bind, malloc, hsize, hm, if_true, hpx]

theorem render_size (shade : Int → RGBA) (H : Host) (xmin xmax ymin ymax : Double)
    (maxiter xres : Int) (hx : xmin < xmax) (hy : ymin < ymax) (hres : 1 ≤ xres)
    (r : Rendered) (buf : List Nat)
    (hr : render shade H xmin xmax ymin ymax maxiter xres = some r)
    (hbuf : r.pixels = some buf) :
    r.last_dimensions.width = xres ∧
    calculate_height xmin xmax ymin ymax xres = some r.last_dimensions.height ∧
    0 ≤ r.last_dimensions.height ∧
    (buf.length : Int) = r.last_dimensions.width * r.last_dimensions.height * 4 := by
  obtain ⟨yres, hh, hd, hlen, _, hB, _⟩ := render_stored shade H xmin xmax ymin ymax maxiter xres
    r buf hr hbuf
  have hq := height_quotient_nonneg xmin xmax ymin ymax xres hx hy hres
  have hy0 : 0 ≤ yres := by
    unfold calculate_height at hh
    cases hqv : height_quotient xmin xmax ymin ymax xres with
    | nan => rw [hqv] at hh; simp [Double.toInt] at hh
    | inf b => rw [hqv] at hh; simp [Double.toInt] at hh
    | fin n =>
      rw [hqv] at hh hq
      exact ((Double.toInt_of_nonneg n hq).2 yres hh).2
  rw [hd]
  refine ⟨rfl, hh, hy0, ?_⟩
  rw [hlen, alloc_size_eq xres yres (by omega) hy0 hB]
  push_cast
  rw [Int.toNat_of_nonneg hy0, Int.toNat_of_nonneg (by omega : 0 ≤ xres)]
  ring

/-! ## The height and the size of the block -/

/-- C5 (amended): for every valid viewport and `xres ≥ 1`, whenever the quotient
`xres * (ymax - ymin) / (xmax - xmin)` computed in `double` is finite and below `2^31`,
`calculate_height` returns its floor; every block returned by `generate_mandelbrot` or
`generate_mandelbrot_color` has `width * height * 4` bytes with `width = xres` and `height`
that floor.  For `xmin = -2, xmax = 1, ymin = -1.5, ymax = 1.5, xres = 4` the height is 4 and,
when the allocator grants 64 bytes, the render returns a block of exactly 64 bytes. -/
theorem C5_height_and_buffer_size :
    (∀ (xmin xmax ymin ymax : Double) (xres : Int), xmin < xmax → ymin < ymax → 1 ≤ xres →
      ((height_quotient xmin xmax ymin ymax xres).isFinite = true →
        (height_quotient xmin xmax ymin ymax xres).toRat < 2147483648 →
        calculate_height xmin xmax ymin ymax xres
          = some ⌊(height_quotient xmin xmax ymin ymax xres).toRat⌋) ∧
      (∀ (H : Host) (maxiter : Int) (r : Rendered) (buf : List Nat),
        (generate_mandelbrot H xmin xmax ymin ymax maxiter xres = some r ∨
          generate_mandelbrot_color H xmin xmax ymin ymax maxiter xres = some r) →
        r.pixels = some buf →
        r.last_dimensions.width = xres ∧
        r.last_dimensions.height = ⌊(height_quotient xmin xmax ymin ymax xres).toRat⌋ ∧
        (buf.length : Int) = r.last_dimensions.width * r.last_dimensions.height * 4)) ∧
    (calculate_height (Double.ofInt (-2)) (Double.ofInt 1) (Double.lit (-15) 10)
        (Double.lit 15 10) 4 = some 4 ∧
      ∀ (H : Host) (maxiter : Int), H.malloc_ok 64 = true →
        ∃ buf, generate_mandelbrot H (Double.ofInt (-2)) (Double.ofInt 1) (Double.lit (-15) 10)
            (Double.lit 15 10) maxiter 4 = some ⟨some buf, ⟨4, 4⟩⟩ ∧ buf.length = 64) := by
  constructor
  · intro xmin xmax ymin ymax xres hx hy hres
    have hq := height_quotient_nonneg xmin xmax ymin ymax xres hx hy hres
    constructor
    · intro hfin hlt
      unfold calculate_height
      cases hqv : height_quotient xmin xmax ymin ymax xres with
      | nan => rw [hqv] at hfin; simp [Double.isFinite] at hfin
      | inf b => rw [hqv] at hfin; simp [Double.isFinite] at hfin
      | fin n =>
        rw [hqv] at hq hlt
        exact (Double.toInt_of_nonneg n hq).1 hlt
    · intro H maxiter r buf hr hbuf
      have hsz : r.last_dimensions.width = xres ∧
          calculate_height xmin xmax ymin ymax xres = some r.last_dimensions.height ∧
          0 ≤ r.last_dimensions.height ∧
          (buf.length : Int) = r.last_dimensions.width * r.last_dimensions.height * 4 := by
        rcases hr with hr | hr
        · exact render_size _ H xmin xmax ymin ymax maxiter xres hx hy hres r buf hr hbuf
        · exact render_size _ H xmin xmax ymin ymax maxiter xres hx hy hres r buf hr hbuf
      obtain ⟨hw, hh, _, hlen⟩ := hsz
      refine ⟨hw, ?_, hlen⟩
      unfold calculate_height at hh
      cases hqv : height_quotient xmin xmax ymin ymax xres with
      | nan => rw [hqv] at hh; simp [Double.toInt] at hh
      | inf b => rw [hqv] at hh; simp [Double.toInt] at hh
      | fin n =>
        rw [hqv] at hh hq
        exact ((Double.toInt_of_nonneg n hq).2 _ hh).1
  · have h4 : calculate_height (Double.ofInt (-2)) (Double.ofInt 1) (Double.lit (-15) 10)
        (Double.lit 15 10) 4 = some 4 := by
      set_option maxRecDepth 100000 in decide
    refine ⟨h4, ?_⟩
    intro H maxiter hm
    exact render_defined _ H _ _ _ _ maxiter 4 4 h4 (by decide) (by decide) (by decide) hm

set_option maxRecDepth 100000 in
/-- C5 (witness): the general statement at the viewport `[-2, 1] × [-1.5, 1.5]`, `xres = 4`. -/
theorem C5_height_and_buffer_size_witness :
    Double.ofInt (-2) < Double.ofInt 1 ∧ Double.lit (-15) 10 < Double.lit 15 10 ∧
    (1 : Int) ≤ 4 ∧
    ((height_quotient (Double.ofInt (-2)) (Double.ofInt 1) (Double.lit (-15) 10)
          (Double.lit 15 10) 4).isFinite = true →
        (height_quotient (Double.ofInt (-2)) (Double.ofInt 1) (Double.lit (-15) 10)
          (Double.lit 15 10) 4).toRat < 2147483648 →
        calculate_height (Double.ofInt (-2)) (Double.ofInt 1) (Double.lit (-15) 10)
          (Double.lit 15 10) 4
          = some ⌊(height_quotient (Double.ofInt (-2)) (Double.ofInt 1) (Double.lit (-15) 10)
              (Double.lit 15 10) 4).toRat⌋) :=
  ⟨by decide, by decide, by decide,
    (C5_height_and_buffer_size.1 (Double.ofInt (-2)) (Double.ofInt 1) (Double.lit (-15) 10)
      (Double.lit 15 10) 4 (by decide) (by decide) (by decide)).1⟩

set_option maxRecDepth 100000 in
/-- C5 (counterexample): the valid viewport `[0, 1] × [0, 2147483648]` with `xres = 1` has
the quotient `2147483648`, which no `int` holds: the cast is undefined and `calculate_height`
returns no value, in particular not the floor of the quotient. -/
theorem C5_height_out_of_int_range :
    Double.ofInt 0 < Double.ofInt 1 ∧ Double.ofInt 0 < Double.ofInt 2147483648 ∧
    (1 : Int) ≤ 1 ∧
    height_quotient (Double.ofInt 0) (Double.ofInt 1) (Double.ofInt 0)
      (Double.ofInt 2147483648) 1 = Double.ofInt 2147483648 ∧
    calculate_height (Double.ofInt 0) (Double.ofInt 1) (Double.ofInt 0)
      (Double.ofInt 2147483648) 1
      ≠ some ⌊(height_quotient (Double.ofInt 0) (Double.ofInt 1) (Double.ofInt 0)
          (Double.ofInt 2147483648) 1).toRat⌋ := by
  have h : calculate_height (Double.ofInt 0) (Double.ofInt 1) (Double.ofInt 0)
      (Double.ofInt 2147483648) 1 = none := by decide
  refine ⟨by decide, by decide, by decide, by decide, ?_⟩
  rw [h]
  simp

/-- C7: in a block returned by `generate_mandelbrot`, every pixel `(i, j)` of the grid whose
iteration count `k` satisfies `k ≥ maxiter` holds exactly `(0, 0, 0, 255)`, and every other
pixel has `R = G = B` and `A = 255`. -/
theorem C7_grayscale_pixels (H : Host) (xmin xmax ymin ymax : Double) (maxiter xres : Int)
    (r : Rendered) (buf : List Nat)
    (hr : generate_mandelbrot H xmin xmax ymin ymax maxiter xres = some r)
    (hbuf : r.pixels = some buf) (i j : Nat)
    (hi : (i : Int) < r.last_dimensions.width) (hj : (j : Int) < r.last_dimensions.height) :
    (maxiter ≤ mandelbrot_iterations
        (pixel_x xmin ((xmax - xmin) / Double.ofInt r.last_dimensions.width) i)
        (pixel_y ymax ((ymax - ymin) / Double.ofInt r.last_dimensions.height) j) maxiter →
      buf[4 * (j * r.last_dimensions.width.toNat + i)]? = some 0 ∧
      buf[4 * (j * r.last_dimensions.width.toNat + i) + 1]? = some 0 ∧
      buf[4 * (j * r.last_dimensions.width.toNat + i) + 2]? = some 0 ∧
      buf[4 * (j * r.last_dimensions.width.toNat + i) + 3]? = some 255) ∧
    (mandelbrot_iterations
        (pixel_x xmin ((xmax - xmin) / Double.ofInt r.last_dimensions.width) i)
        (pixel_y ymax ((ymax - ymin) / Double.ofInt r.last_dimensions.height) j) maxiter
        < maxiter →
      ∃ v : Nat,
      buf[4 * (j * r.last_dimensions.width.toNat + i)]? = some v ∧
      buf[4 * (j * r.last_dimensions.width.toNat + i) + 1]? = some v ∧
      buf[4 * (j * r.last_dimensions.width.toNat + i) + 2]? = some v ∧
      buf[4 * (j * r.last_dimensions.width.toNat + i) + 3]? = some 255) := by
  obtain ⟨_, b0, b1, b2, b3⟩ := render_pixel _ H xmin xmax ymin ymax maxiter xres r buf hr hbuf
    i j hi hj
  constructor
  · intro hk
    have hk1 : mandelbrot_iterations
        (pixel_x xmin ((xmax - xmin) / Double.ofInt r.last_dimensions.width) i)
        (pixel_y ymax ((ymax - ymin) / Double.ofInt r.last_dimensions.height) j) maxiter
        ≥ maxiter := hk
    simp only [gray_shade, if_pos hk1] at b0 b1 b2 b3
    exact ⟨b0, b1, b2, b3⟩
  · intro hk
    have hk1 : ¬ mandelbrot_iterations
        (pixel_x xmin ((xmax - xmin) / Double.ofInt r.last_dimensions.width) i)
        (pixel_y ymax ((ymax - ymin) / Double.ofInt r.last_dimensions.height) j) maxiter
        ≥ maxiter := by omega
    simp only [gray_shade, if_neg hk1] at b0 b1 b2 b3
    exact ⟨_, b0, b1, b2, b3⟩

set_option maxRecDepth 100000 in
/-- C7 (witness): the one-pixel render of the viewport `[1, 2] × [0, 1]` with budget 10; its
pixel escapes with count 3 and is stored as `(76, 76, 76, 255)`. -/
theorem C7_grayscale_pixels_witness :
    generate_mandelbrot plainHost (Double.ofInt 1) (Double.ofInt 2) (Double.ofInt 0)
        (Double.ofInt 1) 10 1 = some ⟨some [76, 76, 76, 255], ⟨1, 1⟩⟩ ∧
    ((10 : Int) ≤ mandelbrot_iterations
        (pixel_x (Double.ofInt 1) ((Double.ofInt 2 - Double.ofInt 1) / Double.ofInt 1) 0)
        (pixel_y (Double.ofInt 1) ((Double.ofInt 1 - Double.ofInt 0) / Double.ofInt 1) 0) 10 →
      [76, 76, 76, 255][0]? = some 0 ∧ [76, 76, 76, 255][1]? = some 0 ∧
        [76, 76, 76, 255][2]? = some 0 ∧ [76, 76, 76, 255][3]? = some 255) ∧
    (mandelbrot_iterations
        (pixel_x (Double.ofInt 1) ((Double.ofInt 2 - Double.ofInt 1) / Double.ofInt 1) 0)
        (pixel_y (Double.ofInt 1) ((Double.ofInt 1 - Double.ofInt 0) / Double.ofInt 1) 0) 10
        < 10 →
      ∃ v : Nat, [76, 76, 76, 255][0]? = some v ∧ [76, 76, 76, 255][1]? = some v ∧
        [76, 76, 76, 255][2]? = some v ∧ [76, 76, 76, 255][3]? = some 255) :=
  have h : generate_mandelbrot plainHost (Double.ofInt 1) (Double.ofInt 2) (Double.ofInt 0)
      (Double.ofInt 1) 10 1 = some ⟨some [76, 76, 76, 255], ⟨1, 1⟩⟩ := by decide
  ⟨h, C7_grayscale_pixels plainHost (Double.ofInt 1) (Double.ofInt 2) (Double.ofInt 0)
      (Double.ofInt 1) 10 1 ⟨some [76, 76, 76, 255], ⟨1, 1⟩⟩ [76, 76, 76, 255] h rfl 0 0
      (by decide) (by decide)⟩

/-- C9: in a block returned by `generate_mandelbrot_color`, every pixel `(i, j)` of the grid
has the alpha byte `255`, and every pixel whose iteration count `k` satisfies `k ≥ maxiter`
holds exactly `(0, 0, 0, 255)`, whatever `sin` and the byte cast of the host are. -/
theorem C9_color_alpha_and_interior (H : Host) (xmin xmax ymin ymax : Double)
    (maxiter xres : Int) (r : Rendered) (buf : List Nat)
    (hr : generate_mandelbrot_color H xmin xmax ymin ymax maxiter xres = some r)
    (hbuf : r.pixels = some buf) (i j : Nat)
    (hi : (i : Int) < r.last_dimensions.width) (hj : (j : Int) < r.last_dimensions.height) :
    buf[4 * (j * r.last_dimensions.width.toNat + i) + 3]? = some 255 ∧
    (maxiter ≤ mandelbrot_iterations
        (pixel_x xmin ((xmax - xmin) / Double.ofInt r.last_dimensions.width) i)
        (pixel_y ymax ((ymax - ymin) / Double.ofInt r.last_dimensions.height) j) maxiter →
      buf[4 * (j * r.last_dimensions.width.toNat + i)]? = some 0 ∧
      buf[4 * (j * r.last_dimensions.width.toNat + i) + 1]? = some 0 ∧
      buf[4 * (j * r.last_dimensions.width.toNat + i) + 2]? = some 0 ∧
      buf[4 * (j * r.last_dimensions.width.toNat + i) + 3]? = some 255) := by
  obtain ⟨_, b0, b1, b2, b3⟩ := render_pixel _ H xmin xmax ymin ymax maxiter xres r buf hr hbuf
    i j hi hj
  constructor
  · rw [b3]
    unfold color_shade
    split <;> rfl
  · intro hk
    have hk1 : mandelbrot_iterations
        (pixel_x xmin ((xmax - xmin) / Double.ofInt r.last_dimensions.width) i)
        (pixel_y ymax ((ymax - ymin) / Double.ofInt r.last_dimensions.height) j) maxiter
        ≥ maxiter := hk
    simp only [color_shade, if_pos hk1] at b0 b1 b2 b3
    exact ⟨b0, b1, b2, b3⟩

set_option maxRecDepth 100000 in
/-- C9 (witness): the one-pixel colour render of the viewport `[0, 1] × [0, 1]` with budget
3; its pixel, the point `i`, does not escape and is stored as `(0, 0, 0, 255)`. -/
theorem C9_color_alpha_and_interior_witness :
    generate_mandelbrot_color plainHost (Double.ofInt 0) (Double.ofInt 1) (Double.ofInt 0)
        (Double.ofInt 1) 3 1 = some ⟨some [0, 0, 0, 255], ⟨1, 1⟩⟩ ∧
    [0, 0, 0, 255][3]? = some 255 ∧
    ((3 : Int) ≤ mandelbrot_iterations
        (pixel_x (Double.ofInt 0) ((Double.ofInt 1 - Double.ofInt 0) / Double.ofInt 1) 0)
        (pixel_y (Double.ofInt 1) ((Double.ofInt 1 - Double.ofInt 0) / Double.ofInt 1) 0) 3 →
      [0, 0, 0, 255][0]? = some 0 ∧ [0, 0, 0, 255][1]? = some 0 ∧
        [0, 0, 0, 255][2]? = some 0 ∧ [0, 0, 0, 255][3]? = some 255) :=
  have h : generate_mandelbrot_color plainHost (Double.ofInt 0) (Double.ofInt 1)
      (Double.ofInt 0) (Double.ofInt 1) 3 1 = some ⟨some [0, 0, 0, 255], ⟨1, 1⟩⟩ := by decide
  ⟨h, C9_color_alpha_and_interior plainHost (Double.ofInt 0) (Double.ofInt 1) (Double.ofInt 0)
      (Double.ofInt 1) 3 1 ⟨some [0, 0, 0, 255], ⟨1, 1⟩⟩ [0, 0, 0, 255] h rfl 0 0
      (by decide) (by decide)⟩

/-- C10: for every viewport, `xres` and budget `n` (also `n ≤ 0`), the preview is the
grayscale render with budget `max (n / 4) 10`, `/` truncating: the same block, the same
`last_dimensions`, the same undefined cases; and that budget is at least 10. -/
theorem C10_preview_budget (H : Host) (xmin xmax ymin ymax : Double) (n xres : Int) :
    generate_mandelbrot_preview H xmin xmax ymin ymax n xres
      = generate_mandelbrot H xmin xmax ymin ymax (max (Int.tdiv n 4) 10) xres ∧
    10 ≤ max (Int.tdiv n 4) 10 := by
  constructor
  · unfold generate_mandelbrot_preview
    by_cases h : Int.tdiv n 4 < 10
    · simp only [if_pos h]
      rw [max_eq_right (by omega)]
    · simp only [if_neg h]
      rw [max_eq_left (by omega)]
  · exact le_max_right _ _

/-! ## The grey level -/

/-- The grey level of an escaped count whose product `k * 255` fits an `int`: the exact
quotient `k * 255 / maxiter`, at most 254. -/
theorem gray_shade_escaped (maxiter k : Int) (h1 : 1 ≤ k) (hk : k < maxiter)
    (hov : k * 255 ≤ 2147483647) :
    gray_shade maxiter k = ⟨(k * 255 / maxiter).toNat, (k * 255 / maxiter).toNat,
      (k * 255 / maxiter).toNat, 255⟩ ∧
    0 ≤ k * 255 / maxiter ∧ k * 255 / maxiter ≤ 254 := by
  have hq0 : 0 ≤ k * 255 / maxiter := Int.ediv_nonneg (by omega) (by omega)
  have hq1 : k * 255 / maxiter ≤ 254 := by
    have : k * 255 / maxiter < 255 := by
      apply Int.ediv_lt_of_lt_mul (by omega)
      nlinarith
    omega
  have hw : wrap32 (k * 255) = k * 255 := by
    unfold wrap32
    omega
  have ht : Int.tdiv (k * 255) maxiter = k * 255 / maxiter :=
    Int.tdiv_eq_ediv (by omega) (by omega)
  have hw2 : wrap32 (k * 255 / maxiter) = k * 255 / maxiter := by
    unfold wrap32
    omega
  have hu : uchar_of_int (k * 255 / maxiter) = (k * 255 / maxiter).toNat := by
    unfold uchar_of_int
    congr 1
    omega
  refine ⟨?_, hq0, hq1⟩
  unfold gray_shade
  rw [if_neg (by omega)]
  simp only [hw, ht, hw2, hu]

/-- The grey level of an escaped pixel whose product `k * 255` fits an `int`
(`k ≤ 8421504`): in a block returned by `generate_mandelbrot` each of the R, G and B bytes
is `k * 255 / maxiter`, the exact integer quotient, which lies in `0..254`. -/
theorem gray_intensity_in_range (H : Host) (xmin xmax ymin ymax : Double) (maxiter xres : Int)
    (r : Rendered) (buf : List Nat)
    (hr : generate_mandelbrot H xmin xmax ymin ymax maxiter xres = some r)
    (hbuf : r.pixels = some buf) (i j : Nat)
    (hi : (i : Int) < r.last_dimensions.width) (hj : (j : Int) < r.last_dimensions.height)
    (hk : mandelbrot_iterations
        (pixel_x xmin ((xmax - xmin) / Double.ofInt r.last_dimensions.width) i)
        (pixel_y ymax ((ymax - ymin) / Double.ofInt r.last_dimensions.height) j) maxiter
        < maxiter)
    (hov : mandelbrot_iterations
        (pixel_x xmin ((xmax - xmin) / Double.ofInt r.last_dimensions.width) i)
        (pixel_y ymax ((ymax - ymin) / Double.ofInt r.last_dimensions.height) j) maxiter
        * 255 ≤ 2147483647) :
    buf[4 * (j * r.last_dimensions.width.toNat + i)]? = some (mandelbrot_iterations
        (pixel_x xmin ((xmax - xmin) / Double.ofInt r.last_dimensions.width) i)
        (pixel_y ymax ((ymax - ymin) / Double.ofInt r.last_dimensions.height) j) maxiter
        * 255 / maxiter).toNat ∧
    buf[4 * (j * r.last_dimensions.width.toNat + i) + 1]? = some (mandelbrot_iterations
        (pixel_x xmin ((xmax - xmin) / Double.ofInt r.last_dimensions.width) i)
        (pixel_y ymax ((ymax - ymin) / Double.ofInt r.last_dimensions.height) j) maxiter
        * 255 / maxiter).toNat ∧
    buf[4 * (j * r.last_dimensions.width.toNat + i) + 2]? = some (mandelbrot_iterations
        (pixel_x xmin ((xmax - xmin) / Double.ofInt r.last_dimensions.width) i)
        (pixel_y ymax ((ymax - ymin) / Double.ofInt r.last_dimensions.height) j) maxiter
        * 255 / maxiter).toNat ∧
    0 ≤ mandelbrot_iterations
        (pixel_x xmin ((xmax - xmin) / Double.ofInt r.last_dimensions.width) i)
        (pixel_y ymax ((ymax - ymin) / Double.ofInt r.last_dimensions.height) j) maxiter
        * 255 / maxiter ∧
    mandelbrot_iterations
        (pixel_x xmin ((xmax - xmin) / Double.ofInt r.last_dimensions.width) i)
        (pixel_y ymax ((ymax - ymin) / Double.ofInt r.last_dimensions.height) j) maxiter
        * 255 / maxiter ≤ 254 := by
  obtain ⟨_, b0, b1, b2, _⟩ := render_pixel _ H xmin xmax ymin ymax maxiter xres r buf hr hbuf
    i j hi hj
  have h1 := (mandelbrot_iterations_orbit
    (pixel_x xmin ((xmax - xmin) / Double.ofInt r.last_dimensions.width) i)
    (pixel_y ymax ((ymax - ymin) / Double.ofInt r.last_dimensions.height) j) maxiter).1
  obtain ⟨hs, hq0, hq1⟩ := gray_shade_escaped maxiter _ h1 hk hov
  rw [hs] at b0 b1 b2
  exact ⟨b0, b1, b2, hq0, hq1⟩

/-! ## The grey level beyond the `int` range -/



theorem unitsPerOne_grid : unitsPerOne = 2251799813685248 * gridUnit := by decide

theorem gridUnit_pos : 0 < gridUnit := by
  unfold gridUnit
  rw [Nat.shiftLeft_eq]
  positivity

theorem representable_grid (k : Nat) (hk : k < 2 ^ 53) : Representable (k * gridUnit) := by
  refine ⟨k, 1023, hk, ?_⟩
  unfold gridUnit
  rw [Nat.shiftLeft_eq, one_mul]

theorem grid_lt_overflow (k : Nat) (hk : k < 2 ^ 53) : k * gridUnit < overflowUnits := by
  have h := units_lt_overflow 4 (by decide)
  have hU := unitsPerOne_grid
  have hg := gridUnit_pos
  have : k * gridUnit < 2 ^ 53 * gridUnit := Nat.mul_lt_mul_of_pos_right hk hg
  omega

set_option maxRecDepth 100000 in
theorem cusp_lit : Double.lit 281474976710657 1125899906842624 = Double.fin (cuspUnits : Int) := by
  decide

namespace Double

theorem round_false_fin (n d B : Nat) (hd : 0 < d) (hB : Representable B)
    (hlt : B < overflowUnits) (h : n ≤ B * d) :
    round false n d = fin (roundUnits n d) := by
  have hle := roundUnits_le_rep n d B hd hB h
  rcases round_false_cases n d with ⟨_, h2⟩ | ⟨h1, _⟩
  · omega
  · exact h1

theorem mul_fin_nat (a b : Nat) :
    fin (a : Int) * fin (b : Int) = round false (a * b) unitsPerOne := by
  rw [mul_def]
  show roundFrac ((a : Int) * (b : Int)) unitsPerOne = _
  rw [roundFrac_of_nonneg _ _ (by positivity)]
  congr 1

theorem add_fin_nat (a b : Nat) : fin (a : Int) + fin (b : Int) = round false (a + b) 1 := by
  rw [add_def]
  show roundFrac ((a : Int) + (b : Int)) 1 = _
  rw [roundFrac_of_nonneg _ _ (by omega)]
  congr 1

theorem sub_zero_nat (a : Nat) : fin (a : Int) - fin 0 = round false a 1 := by
  rw [sub_def]
  show roundFrac ((a : Int) + -0) 1 = _
  rw [roundFrac_of_nonneg _ _ (by omega)]
  congr 1

end Double

/-- One pass of the loop on the real axis (`v = 0`, `y = 0`) from `u = a` units below 2:
the new `u` is finite, the new `v` is 0, and the three roundings that produce the new `u`
keep every representable bound. -/
theorem axis_step (a X : Nat) (ha : a < 2 * unitsPerOne) (hX : X ≤ unitsPerOne) :
    ∃ a1 : Nat,
      orbit_step (Double.fin (X : Int)) (Double.fin 0) (Double.fin (a : Int), Double.fin 0)
        = (Double.fin (a1 : Int), Double.fin 0) ∧
      (∀ B B2 : Nat, Representable B → Representable B2 → B * unitsPerOne ≤ a * a →
        B2 ≤ B + X → B2 ≤ a1) ∧
      (∀ B B2 : Nat, Representable B → Representable B2 → a * a ≤ B * unitsPerOne →
        B + X ≤ B2 → a1 ≤ B2) := by
  have hU := unitsPerOne_pos
  have h4 : Representable (4 * unitsPerOne) := representable_units 4 (by decide)
  have h5 : Representable (5 * unitsPerOne) := representable_units 5 (by decide)
  have h4o := units_lt_overflow 4 (by decide)
  have h5o := units_lt_overflow 5 (by decide)
  have haa : a * a ≤ 4 * unitsPerOne * unitsPerOne := by
    calc a * a ≤ 2 * unitsPerOne * (2 * unitsPerOne) := Nat.mul_le_mul (by omega) (by omega)
      _ = 4 * unitsPerOne * unitsPerOne := by ring
  have e1 : Double.fin (a : Int) * Double.fin (a : Int)
      = Double.fin ((roundUnits (a * a) unitsPerOne : Nat) : Int) := by
    rw [Double.mul_fin_nat, Double.round_false_fin _ _ _ hU h4 h4o haa]
  have b1 := roundUnits_le_rep (a * a) unitsPerOne _ hU h4 haa
  have lo1 : ∀ B : Nat, Representable B → B * unitsPerOne ≤ a * a →
      B ≤ roundUnits (a * a) unitsPerOne := fun B hB h => roundUnits_ge_rep _ _ B hU hB h
  have hi1 : ∀ B : Nat, Representable B → a * a ≤ B * unitsPerOne →
      roundUnits (a * a) unitsPerOne ≤ B := fun B hB h => roundUnits_le_rep _ _ B hU hB h
  generalize roundUnits (a * a) unitsPerOne = r1 at e1 b1 lo1 hi1
  have e0 : Double.fin 0 * Double.fin 0 = Double.fin 0 := zero_facts.2.2.1
  have e2 : Double.fin (r1 : Int) - Double.fin 0 = Double.fin ((roundUnits r1 1 : Nat) : Int) := by
    rw [Double.sub_zero_nat, Double.round_false_fin _ _ _ (by omega) h4 h4o (by omega)]
  have b2 := roundUnits_le_rep r1 1 _ (by omega) h4 (by omega : r1 ≤ 4 * unitsPerOne * 1)
  have e3 : Double.fin ((roundUnits r1 1 : Nat) : Int) + Double.fin (X : Int)
      = Double.fin ((roundUnits (roundUnits r1 1 + X) 1 : Nat) : Int) := by
    rw [Double.add_fin_nat, Double.round_false_fin _ _ _ (by omega) h5 h5o (by omega)]
  obtain ⟨t, ht⟩ := Double.two_mul_fin (a : Int) (by omega)
  have e4 : Double.fin t * Double.fin 0 = Double.fin 0 := by
    rw [Double.mul_def]
    show Double.roundFrac (t * 0) unitsPerOne = _
    rw [Int.mul_zero, Double.roundFrac_zero]
  have e5 : Double.fin 0 + Double.fin 0 = Double.fin 0 := Double.roundFrac_zero 1
  refine ⟨roundUnits (roundUnits r1 1 + X) 1, ?_, ?_, ?_⟩
  · unfold orbit_step
    simp only [e1, e0, e2, e3, ht, e4, e5]
  · intro B B2 hB hB2 h1 h2
    have c1 := lo1 B hB h1
    have c2 := roundUnits_ge_rep r1 1 B (by omega) hB (by omega)
    exact roundUnits_ge_rep _ 1 B2 (by omega) hB2 (by omega)
  · intro B B2 hB hB2 h1 h2
    have c1 := hi1 B hB h1
    have c2 := roundUnits_le_rep r1 1 B (by omega) hB (by omega)
    exact roundUnits_le_rep _ 1 B2 (by omega) hB2 (by omega)

theorem axis_guard_of_le (a : Nat) (ha : a ≤ unitsPerOne) :
    normSq (Double.fin (a : Int), Double.fin 0) < Double.lit 4 1 := by
  have hU := unitsPerOne_pos
  have h1 : Representable (1 * unitsPerOne) := representable_units 1 (by decide)
  have h1o := units_lt_overflow 1 (by decide)
  have haa : a * a ≤ 1 * unitsPerOne * unitsPerOne := by
    calc a * a ≤ unitsPerOne * unitsPerOne := Nat.mul_le_mul ha ha
      _ = 1 * unitsPerOne * unitsPerOne := by ring
  have b1 := roundUnits_le_rep (a * a) unitsPerOne _ hU h1 haa
  have e1 : Double.fin (a : Int) * Double.fin (a : Int)
      = Double.fin ((roundUnits (a * a) unitsPerOne : Nat) : Int) := by
    rw [Double.mul_fin_nat, Double.round_false_fin _ _ _ hU h1 h1o haa]
  generalize roundUnits (a * a) unitsPerOne = r1 at e1 b1
  have e0 : Double.fin 0 * Double.fin 0 = Double.fin ((0 : Nat) : Int) := zero_facts.2.2.1
  have b2 := roundUnits_le_rep (r1 + 0) 1 _ (by omega) h1
    (by omega : r1 + 0 ≤ 1 * unitsPerOne * 1)
  have e2 : Double.fin (r1 : Int) + Double.fin ((0 : Nat) : Int)
      = Double.fin ((roundUnits (r1 + 0) 1 : Nat) : Int) := by
    rw [Double.add_fin_nat, Double.round_false_fin _ _ _ (by omega) h1 h1o (by omega)]
  unfold normSq
  simp only [e1, e0, e2]
  rw [Double.four_eq, Double.lt_def]
  simp only [Double.lt, decide_eq_true_eq]
  omega

theorem axis_guard_fails (a : Nat) (ha : 2 * unitsPerOne ≤ a) :
    ¬ normSq (Double.fin (a : Int), Double.fin 0) < Double.lit 4 1 := by
  have hU := unitsPerOne_pos
  have h4 : Representable (4 * unitsPerOne) := representable_units 4 (by decide)
  have haa : 4 * unitsPerOne * unitsPerOne ≤ a * a := by
    calc 4 * unitsPerOne * unitsPerOne = 2 * unitsPerOne * (2 * unitsPerOne) := by ring
      _ ≤ a * a := Nat.mul_le_mul ha ha
  have b1 := roundUnits_ge_rep (a * a) unitsPerOne _ hU h4 haa
  have e0 : Double.fin 0 * Double.fin 0 = Double.fin ((0 : Nat) : Int) := zero_facts.2.2.1
  have hinf : ∀ t : Double, ¬ (Double.inf false + t < Double.lit 4 1) := by
    intro t
    rw [Double.four_eq, Double.lt_def, Double.add_def]
    cases t with
    | nan => simp [Double.add, Double.lt]
    | inf b => cases b <;> simp [Double.add, Double.lt]
    | fin n => simp [Double.add, Double.lt]
  unfold normSq
  simp only [e0]
  rw [Double.mul_fin_nat]
  rcases Double.round_false_cases (a * a) unitsPerOne with ⟨h, _⟩ | ⟨h, _⟩
  · rw [h]
    exact hinf _
  · rw [h, Double.add_fin_nat]
    generalize roundUnits (a * a) unitsPerOne = r1 at b1
    have b2 := roundUnits_ge_rep (r1 + 0) 1 _ (by omega) h4
      (by omega : 4 * unitsPerOne * 1 ≤ r1 + 0)
    rcases Double.round_false_cases (r1 + 0) 1 with ⟨h2, _⟩ | ⟨h2, _⟩
    · rw [h2, Double.four_eq, Double.lt_def]
      simp [Double.lt]
    · rw [h2, Double.four_eq, Double.lt_def]
      simp only [Double.lt, decide_eq_true_eq]
      omega

/-- While the guard holds, the orbit of a real point `X ≤ 1` stays on the real axis, below 2,
and each point comes from the previous one by `axis_step`. -/
theorem axis_orbit (X : Nat) (hX : X ≤ unitsPerOne) :
    ∀ j : Nat,
      (∀ i : Nat, i < j →
        normSq (orbit (Double.fin (X : Int)) (Double.fin 0) i) < Double.lit 4 1) →
      orbit (Double.fin (X : Int)) (Double.fin 0) j
        = (Double.fin (axisUnits X j : Int), Double.fin 0) := by
  intro j
  induction j with
  | zero =>
    intro _
    have e : orbit (Double.fin (X : Int)) (Double.fin 0) 0
        = (Double.fin ((0 : Nat) : Int), Double.fin 0) := by
      show (Double.lit 0 1, Double.lit 0 1) = _
      rw [zero_facts.1]
      rfl
    unfold axisUnits
    rw [e]
    rfl
  | succ j ih =>
    intro hg
    have hj := ih (fun i hi => hg i (by omega))
    have hgj := hg j (by omega)
    rw [hj] at hgj
    unfold normSq at hgj
    obtain ⟨a, b, ha, _, hal, _⟩ := Double.guard_small _ _ hgj
    have haeq : a = (axisUnits X j : Int) := by
      have := Double.fin.inj ha
      exact this.symm
    rw [haeq, Int.natAbs_ofNat] at hal
    obtain ⟨a1, hstep, _, _⟩ := axis_step (axisUnits X j) X hal hX
    have e : orbit (Double.fin (X : Int)) (Double.fin 0) (j + 1)
        = (Double.fin (a1 : Int), Double.fin 0) := by
      show orbit_step _ _ (orbit _ _ j) = _
      rw [hj, hstep]
    have hu : axisUnits X (j + 1) = a1 := by
      unfold axisUnits
      rw [e]
      show (a1 : Int).toNat = a1
      exact Int.toNat_ofNat a1
    rw [hu]
    exact e

/-- One step of the approach: if `x * s ≥ -1` with `s ≥ 2`, then `(x + x²) * (s + 1) ≥ -1`. -/
theorem cusp_approach_step (x s : ℚ) (hs : 2 ≤ s) (hx : -1 ≤ x * s) :
    -1 ≤ (x + x ^ 2) * (s + 1) := by
  rcases le_or_lt 0 x with h0 | hneg
  · have : 0 ≤ (x + x ^ 2) * (s + 1) := by positivity
    linarith
  · have hw0 : 0 ≤ 1 + x * s := by linarith
    have hw1 : 0 ≤ s - 1 + x * s := by nlinarith
    have hprod : 0 ≤ (1 + x * s) * (s - 1 + x * s) := mul_nonneg hw0 hw1
    have hs2 : 0 < s ^ 2 := by positivity
    have key : -1 * s ^ 2 ≤ (x + x ^ 2) * (s + 1) * s ^ 2 := by
      have e : (x + x ^ 2) * (s + 1) * s ^ 2
          = ((1 + x * s) * (s - 1 + x * s) - (s - 1)) * (s + 1) := by ring
      rw [e]
      nlinarith
    exact le_of_mul_le_mul_right key hs2

/-- The approach to the cusp: from `d₀ = -1/2`, a sequence that grows by at least `d²` per
step satisfies `d_j * (j + 2) ≥ -1`. -/
theorem cusp_approach (d : Nat → ℚ) (J : Nat) (h0 : d 0 = -1 / 2)
    (hstep : ∀ j, j < J → d j + d j ^ 2 ≤ d (j + 1)) :
    ∀ j, j ≤ J → -1 ≤ d j * ((j : ℚ) + 2) := by
  intro j
  induction j with
  | zero =>
    intro _
    rw [h0]
    norm_num
  | succ j ih =>
    intro hj
    have h1 := ih (by omega)
    have h2 := hstep j (by omega)
    have hj0 : (0 : ℚ) ≤ (j : ℚ) := Nat.cast_nonneg j
    have h3 := cusp_approach_step (d j) ((j : ℚ) + 2) (by linarith) h1
    push_cast
    have hpos : (0 : ℚ) ≤ (j : ℚ) + 2 + 1 := by linarith
    have h4 := mul_le_mul_of_nonneg_right h2 hpos
    have e : (j : ℚ) + 1 + 2 = (j : ℚ) + 2 + 1 := by ring
    rw [e]
    linarith

/-- The crossing of the cusp: a sequence that grows by at least `e` per step. -/
theorem cusp_cross (d : Nat → ℚ) (e : ℚ) (n J : Nat)
    (hstep : ∀ j, j < J → d j + e ≤ d (j + 1)) :
    ∀ m, n + m ≤ J → d n + m * e ≤ d (n + m) := by
  intro m
  induction m with
  | zero => intro _; simp
  | succ m ih =>
    intro hm
    have h1 := ih (by omega)
    have h2 := hstep (n + m) (by omega)
    have : n + (m + 1) = n + m + 1 := by omega
    rw [this]
    push_cast
    linarith

/-- One step of the departure: if `x * t ≥ 1` with `t ≥ 3/2`, then
`(x + x²) * (t - 1/2) ≥ 1`. -/
theorem cusp_depart_step (x t : ℚ) (ht : 3 / 2 ≤ t) (hx : 1 ≤ x * t) :
    1 ≤ (x + x ^ 2) * (t - 1 / 2) := by
  have ht0 : 0 < t := by linarith
  have hx0 : 0 < x := by
    by_contra hneg
    push_neg at hneg
    have := mul_nonpos_of_nonpos_of_nonneg hneg ht0.le
    linarith
  have h1 : t ^ 2 ≤ (t + x * t) * (t - 1 / 2) := by
    have ha : t + 1 ≤ t + x * t := by linarith
    have hb : 0 ≤ t - 1 / 2 := by linarith
    have := mul_le_mul_of_nonneg_right ha hb
    nlinarith
  have h2 : 1 * t ^ 2 ≤ (x * t) * ((t + x * t) * (t - 1 / 2)) :=
    mul_le_mul hx h1 (by positivity) (by positivity)
  have e : (x + x ^ 2) * (t - 1 / 2) * t ^ 2 = (x * t) * ((t + x * t) * (t - 1 / 2)) := by ring
  rw [← e] at h2
  exact le_of_mul_le_mul_right h2 (by positivity)

/-- The departure from the cusp: from `d_n * T ≥ 1`, a sequence that grows by at least `d²`
per step satisfies `d_{n+m} * (T - m/2) ≥ 1` while `T - m/2 ≥ 1`. -/
theorem cusp_depart (d : Nat → ℚ) (T : ℚ) (n J : Nat) (hn : 1 ≤ d n * T)
    (hstep : ∀ j, j < J → d j + d j ^ 2 ≤ d (j + 1)) :
    ∀ m : Nat, n + m ≤ J → 1 ≤ T - (m : ℚ) / 2 → 1 ≤ d (n + m) * (T - (m : ℚ) / 2) := by
  intro m
  induction m with
  | zero =>
    intro _ _
    simpa using hn
  | succ m ih =>
    intro hm ht
    push_cast at ht ⊢
    have h1 := ih (by omega) (by linarith)
    have h2 := hstep (n + m) (by omega)
    have e : n + (m + 1) = n + m + 1 := by omega
    rw [e]
    have h3 := cusp_depart_step (d (n + m)) (T - (m : ℚ) / 2) (by linarith) h1
    have hpos : 0 ≤ T - (m : ℚ) / 2 - 1 / 2 := by linarith
    have h4 := mul_le_mul_of_nonneg_right h2 hpos
    have e2 : T - ((m : ℚ) + 1) / 2 = T - (m : ℚ) / 2 - 1 / 2 := by ring
    rw [e2]
    linarith

/-- No sequence that starts at `d₀ = -1/2` and grows by at least `d² + 2^-51` per step stays
below 1 for 268435452 steps. -/
theorem cusp_escapes (d : Nat → ℚ) (J : Nat) (h0 : d 0 = -1 / 2)
    (hstep : ∀ j, j < J → d j + d j ^ 2 + 1 / 2 ^ 51 ≤ d (j + 1))
    (hlt : ∀ j, j ≤ J → d j < 1) (hJ : 268435452 ≤ J) : False := by
  have hsq : ∀ j, j < J → d j + d j ^ 2 ≤ d (j + 1) := by
    intro j hj
    have := hstep j hj
    have h2 : (0 : ℚ) < 1 / 2 ^ 51 := by positivity
    linarith
  have hlin : ∀ j, j < J → d j + 1 / 2 ^ 51 ≤ d (j + 1) := by
    intro j hj
    have := hstep j hj
    have h2 : (0 : ℚ) ≤ d j ^ 2 := by positivity
    linarith
  have hA := cusp_approach d J h0 hsq 67108862 (by omega)
  have hB := cusp_cross d (1 / 2 ^ 51) 67108862 J hlin 67108864 (by omega)
  have hn2 : (1 : ℚ) ≤ d (67108862 + 67108864) * 67108864 := by
    push_cast at hA hB
    norm_num at hA hB ⊢
    linarith
  have hC := cusp_depart d 67108864 (67108862 + 67108864) J hn2 hsq 134217726 (by omega)
    (by norm_num)
  have hlast := hlt (67108862 + 67108864 + 134217726) (by omega)
  norm_num at hC
  linarith

/-- One step of the slow phase: from `0 ≤ z ≤ 1/2 + D` with `D ≤ 2^-25`, a step that adds at
most `z² - z + 1/4 + 3 * 2^-51` stays at most `1/2 + D + 5 * 2^-51`. -/
theorem cusp_slow_step (z z1 D : ℚ) (hz0 : 0 ≤ z) (hz : z ≤ 1 / 2 + D) (hD0 : 0 ≤ D)
    (hD : D ≤ 1 / 2 ^ 25) (h : z1 ≤ z ^ 2 + (1 / 4 + 1 / 2 ^ 50) + 1 / 2 ^ 51) :
    z1 ≤ 1 / 2 + D + 5 / 2 ^ 51 := by
  have h1 : z ^ 2 ≤ (1 / 2 + D) ^ 2 := by nlinarith
  have h2 : D ^ 2 ≤ 1 / 2 ^ 50 := by
    have : D * D ≤ (1 / 2 ^ 25) * (1 / 2 ^ 25) := mul_le_mul hD hD hD0 (by positivity)
    have e : ((1 : ℚ) / 2 ^ 25) * (1 / 2 ^ 25) = 1 / 2 ^ 50 := by norm_num
    nlinarith
  nlinarith

/-- The pass from `axisUnits X j` to `axisUnits X (j + 1)` while the guard holds. -/
theorem axis_next (X : Nat) (hX : X ≤ unitsPerOne) (j : Nat)
    (hg : ∀ i : Nat, i ≤ j →
      normSq (orbit (Double.fin (X : Int)) (Double.fin 0) i) < Double.lit 4 1) :
    axisUnits X j < 2 * unitsPerOne ∧
    (∀ B B2 : Nat, Representable B → Representable B2 →
      B * unitsPerOne ≤ axisUnits X j * axisUnits X j → B2 ≤ B + X →
      B2 ≤ axisUnits X (j + 1)) ∧
    (∀ B B2 : Nat, Representable B → Representable B2 →
      axisUnits X j * axisUnits X j ≤ B * unitsPerOne → B + X ≤ B2 →
      axisUnits X (j + 1) ≤ B2) := by
  have hj := axis_orbit X hX j (fun i hi => hg i (by omega))
  have hgj := hg j (le_refl j)
  rw [hj] at hgj
  unfold normSq at hgj
  obtain ⟨a, b, ha, _, hal, _⟩ := Double.guard_small _ _ hgj
  have haeq : a = (axisUnits X j : Int) := (Double.fin.inj ha).symm
  rw [haeq, Int.natAbs_ofNat] at hal
  obtain ⟨a1, hstep, hlo, hhi⟩ := axis_step (axisUnits X j) X hal hX
  have hu : axisUnits X (j + 1) = a1 := by
    have e : orbit (Double.fin (X : Int)) (Double.fin 0) (j + 1)
        = (Double.fin (a1 : Int), Double.fin 0) := by
      show orbit_step _ _ (orbit _ _ j) = _
      rw [hj, hstep]
    unfold axisUnits
    rw [e]
    exact Int.toNat_ofNat a1
  rw [hu]
  exact ⟨hal, hlo, hhi⟩

theorem cuspUnits_le : cuspUnits ≤ unitsPerOne := by
  have := unitsPerOne_grid
  unfold cuspUnits
  omega

/-- The arithmetic of one pass on a grid of spacing `g = 2^-51`: if the new abscissa `a1`
keeps every grid bound of `a² / U + X`, with `U = 2^51 g` and `X = (2^49 + 2) g`, then
`a1 / U` is `(a / U)² + 1/4 + 2^-50` up to `2^-51`. -/
theorem grid_step_rat (g U X a a1 : Nat) (hg : 0 < g) (hU : U = 2251799813685248 * g)
    (hX : X = 562949953421314 * g) (ha : 2 * a < 3 * U)
    (hlo : ∀ k k2 : Nat, k < 2 ^ 53 → k2 < 2 ^ 53 → k * g * U ≤ a * a →
      k2 * g ≤ k * g + X → k2 * g ≤ a1)
    (hhi : ∀ k k2 : Nat, k < 2 ^ 53 → k2 < 2 ^ 53 → a * a ≤ k * g * U →
      k * g + X ≤ k2 * g → a1 ≤ k2 * g) :
    ((a : ℚ) / U) ^ 2 + (1 / 4 + 1 / 2 ^ 50) - 1 / 2 ^ 51 ≤ (a1 : ℚ) / U ∧
    (a1 : ℚ) / U ≤ ((a : ℚ) / U) ^ 2 + (1 / 4 + 1 / 2 ^ 50) + 1 / 2 ^ 51 := by
  subst hU hX
  have hgg : 0 < g * g := Nat.mul_pos hg hg
  have hD : 0 < 2251799813685248 * (g * g) := by omega
  have hk_lo : a * a / (2251799813685248 * (g * g)) * (2251799813685248 * (g * g)) ≤ a * a :=
    Nat.div_mul_le_self _ _
  have hk_hi : a * a < 2251799813685248 * (g * g) * (a * a / (2251799813685248 * (g * g)) + 1) :=
    Nat.lt_mul_div_succ (a * a) hD
  have hkb : a * a / (2251799813685248 * (g * g)) < 5066549580791808 := by
    rw [Nat.div_lt_iff_lt_mul hD]
    have h1 : (2 * a) * (2 * a) < (3 * (2251799813685248 * g)) * (3 * (2251799813685248 * g)) :=
      Nat.mul_lt_mul'' ha ha
    have e1 : (2 * a) * (2 * a) = 4 * (a * a) := by ring
    have e2 : (3 * (2251799813685248 * g)) * (3 * (2251799813685248 * g))
        = 4 * (5066549580791808 * (2251799813685248 * (g * g))) := by ring
    rw [e1, e2] at h1
    omega
  generalize a * a / (2251799813685248 * (g * g)) = k at hk_lo hk_hi hkb
  have l1 := hlo k (k + 562949953421314) (by omega) (by omega)
    (by calc k * g * (2251799813685248 * g) = k * (2251799813685248 * (g * g)) := by ring
          _ ≤ a * a := hk_lo)
    (by rw [Nat.add_mul])
  have u1 := hhi (k + 1) (k + 1 + 562949953421314) (by omega) (by omega)
    (by calc a * a ≤ 2251799813685248 * (g * g) * (k + 1) := hk_hi.le
          _ = (k + 1) * g * (2251799813685248 * g) := by ring)
    (by rw [Nat.add_mul (k + 1)])
  have hgq : (0 : ℚ) < (g : ℚ) := by exact_mod_cast hg
  have l1q : ((k : ℚ) + 562949953421314) * g ≤ a1 := by exact_mod_cast l1
  have u1q : (a1 : ℚ) ≤ ((k : ℚ) + 1 + 562949953421314) * g := by exact_mod_cast u1
  have hk_loq : (k : ℚ) * (2251799813685248 * (g * g)) ≤ a * a := by exact_mod_cast hk_lo
  have hk_hiq : (a : ℚ) * a < 2251799813685248 * (g * g) * ((k : ℚ) + 1) := by
    exact_mod_cast hk_hi
  push_cast
  generalize (g : ℚ) = G at *
  generalize (a : ℚ) = A at *
  generalize (a1 : ℚ) = A1 at *
  generalize (k : ℚ) = K at *
  have hden : (0 : ℚ) < 2251799813685248 * G := by positivity
  constructor
  · rw [div_pow, le_div_iff hden]
    have e : (A ^ 2 / (2251799813685248 * G) ^ 2 + (1 / 4 + 1 / 2 ^ 50) - 1 / 2 ^ 51)
        * (2251799813685248 * G)
        = (A * A - 2251799813685248 * (G * G) * (K + 1)) / (2251799813685248 * G)
          + (K + 562949953421314) * G := by
      field_simp
      ring
    rw [e]
    have : (A * A - 2251799813685248 * (G * G) * (K + 1)) / (2251799813685248 * G) ≤ 0 :=
      div_nonpos_of_nonpos_of_nonneg (by linarith) hden.le
    linarith
  · rw [div_pow, div_le_iff hden]
    have e : (A ^ 2 / (2251799813685248 * G) ^ 2 + (1 / 4 + 1 / 2 ^ 50) + 1 / 2 ^ 51)
        * (2251799813685248 * G)
        = (A * A - K * (2251799813685248 * (G * G))) / (2251799813685248 * G)
          + (K + 1 + 562949953421314) * G := by
      field_simp
      ring
    rw [e]
    have : 0 ≤ (A * A - K * (2251799813685248 * (G * G))) / (2251799813685248 * G) :=
      div_nonneg (by linarith) hden.le
    linarith

/-- In rationals: below 3/2 a pass moves `z` to `z² + 1/4 + 2^-50` up to `2^-51`. -/
theorem cusp_next_rat (j : Nat)
    (hg : ∀ i : Nat, i ≤ j →
      normSq (orbit (Double.fin (cuspUnits : Int)) (Double.fin 0) i) < Double.lit 4 1)
    (hz : cuspValue j < 3 / 2) :
    cuspValue j ^ 2 + (1 / 4 + 1 / 2 ^ 50) - 1 / 2 ^ 51 ≤ cuspValue (j + 1) ∧
    cuspValue (j + 1) ≤ cuspValue j ^ 2 + (1 / 4 + 1 / 2 ^ 50) + 1 / 2 ^ 51 := by
  obtain ⟨_, hlo, hhi⟩ := axis_next cuspUnits cuspUnits_le j hg
  have hUq : (0 : ℚ) < (unitsPerOne : ℚ) := by exact_mod_cast unitsPerOne_pos
  have ha32 : 2 * axisUnits cuspUnits j < 3 * unitsPerOne := by
    unfold cuspValue at hz
    rw [div_lt_iff hUq] at hz
    have : (2 : ℚ) * axisUnits cuspUnits j < 3 * unitsPerOne := by linarith
    exact_mod_cast this
  exact grid_step_rat gridUnit unitsPerOne cuspUnits (axisUnits cuspUnits j)
    (axisUnits cuspUnits (j + 1)) gridUnit_pos unitsPerOne_grid rfl ha32
    (fun k k2 hk hk2 h1 h2 =>
      hlo (k * gridUnit) (k2 * gridUnit) (representable_grid k hk) (representable_grid k2 hk2)
        h1 h2)
    (fun k k2 hk hk2 h1 h2 =>
      hhi (k * gridUnit) (k2 * gridUnit) (representable_grid k hk) (representable_grid k2 hk2)
        h1 h2)

theorem grid_step_big (g U X a a1 : Nat) (hU : U = 2251799813685248 * g)
    (hX : X = 562949953421314 * g) (ha : 3 * U ≤ 2 * a)
    (hlo : ∀ k k2 : Nat, k < 2 ^ 53 → k2 < 2 ^ 53 → k * g * U ≤ a * a →
      k2 * g ≤ k * g + X → k2 * g ≤ a1) :
    2 * U ≤ a1 := by
  subst hU hX
  have h1 : (3 * (2251799813685248 * g)) * (3 * (2251799813685248 * g)) ≤ (2 * a) * (2 * a) :=
    Nat.mul_le_mul ha ha
  have e1 : (2 * a) * (2 * a) = 4 * (a * a) := by ring
  have e2 : (3 * (2251799813685248 * g)) * (3 * (2251799813685248 * g))
      = 4 * (5066549580791808 * g * (2251799813685248 * g)) := by ring
  rw [e1, e2] at h1
  have := hlo 5066549580791808 5629499534213120 (by norm_num) (by norm_num) (by omega)
    (by omega)
  omega

theorem axisUnits_zero (X : Nat) : axisUnits X 0 = 0 := by
  have e : orbit (Double.fin (X : Int)) (Double.fin 0) 0
      = (Double.fin ((0 : Nat) : Int), Double.fin 0) := by
    show (Double.lit 0 1, Double.lit 0 1) = _
    rw [zero_facts.1]
    rfl
  unfold axisUnits
  rw [e]
  rfl

/-- The slow phase: for the first 8421504 orbit points of `1/4 + 2^-50` the guard holds and
the abscissa is at most `1/2 + 5 j / 2^51`. -/
theorem cusp_slow :
    ∀ j : Nat, j ≤ 8421504 →
      (∀ i : Nat, i ≤ j →
        normSq (orbit (Double.fin (cuspUnits : Int)) (Double.fin 0) i) < Double.lit 4 1) ∧
      cuspValue j ≤ 1 / 2 + (j : ℚ) * (5 / 2 ^ 51) := by
  have hUq : (0 : ℚ) < (unitsPerOne : ℚ) := by exact_mod_cast unitsPerOne_pos
  have hnn : ∀ j, 0 ≤ cuspValue j := fun j =>
    div_nonneg (Nat.cast_nonneg _) (Nat.cast_nonneg _)
  have hguard : ∀ j : Nat,
      (∀ i : Nat, i < j →
        normSq (orbit (Double.fin (cuspUnits : Int)) (Double.fin 0) i) < Double.lit 4 1) →
      cuspValue j ≤ 1 →
      normSq (orbit (Double.fin (cuspUnits : Int)) (Double.fin 0) j) < Double.lit 4 1 := by
    intro j hg hle
    rw [axis_orbit cuspUnits cuspUnits_le j hg]
    apply axis_guard_of_le
    unfold cuspValue at hle
    rw [div_le_one hUq] at hle
    exact_mod_cast hle
  intro j
  induction j with
  | zero =>
    intro _
    have hz : cuspValue 0 = 0 := by
      unfold cuspValue
      rw [axisUnits_zero]
      simp
    refine ⟨?_, ?_⟩
    · intro i hi
      have : i = 0 := by omega
      subst this
      exact guard_zero _ _
    · rw [hz]
      norm_num
  | succ j ih =>
    intro hj
    obtain ⟨hg, hb⟩ := ih (by omega)
    have hjq : (j : ℚ) ≤ 8421503 := by
      have : j ≤ 8421503 := by omega
      exact_mod_cast this
    have hj0 : (0 : ℚ) ≤ (j : ℚ) := Nat.cast_nonneg j
    have hD : (j : ℚ) * (5 / 2 ^ 51) ≤ 1 / 2 ^ 25 := by
      have : (j : ℚ) * (5 / 2 ^ 51) ≤ 8421503 * (5 / 2 ^ 51) :=
        mul_le_mul_of_nonneg_right hjq (by positivity)
      have e : (8421503 : ℚ) * (5 / 2 ^ 51) ≤ 1 / 2 ^ 25 := by norm_num
      linarith
    have hsmall : cuspValue j < 3 / 2 := by
      have : (1 : ℚ) / 2 ^ 25 < 1 := by norm_num
      linarith
    obtain ⟨_, hup⟩ := cusp_next_rat j hg hsmall
    have hD0 : (0 : ℚ) ≤ (j : ℚ) * (5 / 2 ^ 51) := mul_nonneg hj0 (by norm_num)
    have hnew := cusp_slow_step (cuspValue j) (cuspValue (j + 1)) ((j : ℚ) * (5 / 2 ^ 51))
      (hnn j) hb hD0 hD hup
    have hbound : cuspValue (j + 1) ≤ 1 / 2 + ((j + 1 : Nat) : ℚ) * (5 / 2 ^ 51) := by
      push_cast
      linarith
    refine ⟨?_, hbound⟩
    intro i hi
    rcases Nat.lt_or_ge i (j + 1) with hlt | hge
    · exact hg i (by omega)
    · have : i = j + 1 := by omega
      subst this
      apply hguard (j + 1) (fun i hi => hg i (by omega))
      have h5 : (5 : ℚ) / 2 ^ 51 ≤ 1 / 2 ^ 25 := by norm_num
      have : (1 : ℚ) / 2 ^ 25 ≤ 1 / 4 := by norm_num
      linarith

/-- The orbit of `1/4 + 2^-50` leaves: the guard fails on one of its first 268435454
points. -/
theorem cusp_leaves :
    ∃ j : Nat, j ≤ 268435453 ∧
      ¬ normSq (orbit (Double.fin (cuspUnits : Int)) (Double.fin 0) j) < Double.lit 4 1 := by
  by_contra hcon
  push_neg at hcon
  have hg : ∀ j i : Nat, j ≤ 268435453 → i ≤ j →
      normSq (orbit (Double.fin (cuspUnits : Int)) (Double.fin 0) i) < Double.lit 4 1 :=
    fun j i hj hi => hcon i (by omega)
  have hUq : (0 : ℚ) < (unitsPerOne : ℚ) := by exact_mod_cast unitsPerOne_pos
  -- below 3/2 as long as the next guard holds
  have hlt : ∀ j, j ≤ 268435452 → cuspValue j < 3 / 2 := by
    intro j hj
    by_contra hge
    push_neg at hge
    obtain ⟨_, hlo, _⟩ := axis_next cuspUnits cuspUnits_le j (hg j · (by omega))
    have ha : 3 * unitsPerOne ≤ 2 * axisUnits cuspUnits j := by
      unfold cuspValue at hge
      rw [le_div_iff hUq] at hge
      have : (3 : ℚ) * unitsPerOne ≤ 2 * axisUnits cuspUnits j := by linarith
      exact_mod_cast this
    have hbig := grid_step_big gridUnit unitsPerOne cuspUnits (axisUnits cuspUnits j)
      (axisUnits cuspUnits (j + 1)) unitsPerOne_grid rfl ha
      (fun k k2 hk hk2 h1 h2 =>
        hlo (k * gridUnit) (k2 * gridUnit) (representable_grid k hk)
          (representable_grid k2 hk2) h1 h2)
    have hfail := axis_guard_fails (axisUnits cuspUnits (j + 1)) hbig
    rw [← axis_orbit cuspUnits cuspUnits_le (j + 1) (fun i hi => hcon i (by omega))] at hfail
    exact hfail (hcon (j + 1) (by omega))
  apply cusp_escapes (fun j => cuspValue j - 1 / 2) 268435452
  · show cuspValue 0 - 1 / 2 = -1 / 2
    unfold cuspValue
    rw [axisUnits_zero]
    norm_num
  · intro j hj
    obtain ⟨hlow, _⟩ := cusp_next_rat j (hg j · (by omega)) (hlt j (by omega))
    show cuspValue j - 1 / 2 + (cuspValue j - 1 / 2) ^ 2 + 1 / 2 ^ 51 ≤ cuspValue (j + 1) - 1 / 2
    have e : cuspValue j - 1 / 2 + (cuspValue j - 1 / 2) ^ 2 + 1 / 2 ^ 51
        = cuspValue j ^ 2 + (1 / 4 + 1 / 2 ^ 50) - 1 / 2 ^ 51 - 1 / 2 := by
      norm_num
      ring
    rw [e]
    linarith
  · intro j hj
    show cuspValue j - 1 / 2 < 1
    have := hlt j hj
    linarith
  · exact le_refl _

/-- The count of the point `(1/4 + 2^-50, 0)` under the largest budget: the point escapes,
after more than 8421504 passes. -/
theorem cusp_count :
    8421505 ≤ mandelbrot_iterations (Double.fin (cuspUnits : Int)) (Double.fin 0) 2147483647 ∧
    mandelbrot_iterations (Double.fin (cuspUnits : Int)) (Double.fin 0) 2147483647
      < 2147483647 := by
  obtain ⟨r1, r2, r3, r4⟩ := mandelbrot_iterations_orbit (Double.fin (cuspUnits : Int))
    (Double.fin 0) 2147483647
  generalize mandelbrot_iterations (Double.fin (cuspUnits : Int)) (Double.fin 0) 2147483647 = K
    at r1 r2 r3 r4
  have hmax : max (2147483647 : Int) 1 = 2147483647 := by decide
  rw [hmax] at r2
  constructor
  · by_contra hlt
    have h := r4 (by omega)
    exact h ((cusp_slow 8421504 (le_refl _)).1 (K - 1).toNat (by omega))
  · by_contra hge
    obtain ⟨j, hj, hfail⟩ := cusp_leaves
    exact hfail (r3 j (by omega))

/-- The grey level stored for an escaped count above 8421504 under the largest budget is
not `k * 255 / maxiter`: the product `k * 255` has left the `int` range. -/
theorem gray_shade_overflow (k : Int) (h1 : 8421505 ≤ k) (h2 : k < 2147483647) :
    ((gray_shade 2147483647 k).r : Int) ≠ k * 255 / 2147483647 := by
  unfold gray_shade
  rw [if_neg (by omega)]
  simp only []
  have hw : -2147483648 ≤ wrap32 (k * 255) ∧ wrap32 (k * 255) ≤ 2147483647 ∧
      (wrap32 (k * 255) - k * 255) % 4294967296 = 0 := by
    unfold wrap32
    omega
  generalize wrap32 (k * 255) = w at hw
  obtain ⟨hw1, hw2, hw3⟩ := hw
  have hE1 : 1 ≤ k * 255 / 2147483647 := by omega
  have hE2 : k * 255 / 2147483647 ≤ 254 := by omega
  have hq : Int.tdiv w 2147483647 = -1 ∨ Int.tdiv w 2147483647 = 0 ∨
      (Int.tdiv w 2147483647 = 1 ∧ w = 2147483647) := by
    rcases le_or_lt 0 w with hpos | hneg
    · rw [Int.tdiv_eq_ediv hpos (by omega)]
      omega
    · have e : w = -(-w) := by omega
      rw [e, Int.neg_tdiv, Int.tdiv_eq_ediv (by omega) (by omega)]
      omega
  rcases hq with hq | hq | ⟨hq, hpos⟩
  all_goals try subst hpos
  · rw [hq]
    have : (uchar_of_int (wrap32 (-1)) : Int) = 255 := by decide
    rw [this]
    omega
  · rw [hq]
    have : (uchar_of_int (wrap32 0) : Int) = 0 := by decide
    rw [this]
    omega
  · rw [hq]
    have : (uchar_of_int (wrap32 1) : Int) = 1 := by decide
    rw [this]
    omega

set_option maxRecDepth 100000 in
theorem cusp_viewport :
    calculate_height (Double.lit 281474976710657 1125899906842624)
      (Double.lit 1407374883553281 1125899906842624) (Double.ofInt (-1)) (Double.ofInt 0) 1
      = some 1 ∧
    pixel_x (Double.lit 281474976710657 1125899906842624)
      ((Double.lit 1407374883553281 1125899906842624
        - Double.lit 281474976710657 1125899906842624) / Double.ofInt 1) ((0 : Nat) : Int)
      = Double.fin (cuspUnits : Int) ∧
    pixel_y (Double.ofInt 0) ((Double.ofInt 0 - Double.ofInt (-1)) / Double.ofInt 1)
      ((0 : Nat) : Int) = Double.fin 0 := by
  decide

/-- C8 (failing input): the one-pixel grayscale render of the viewport
`[1/4 + 2^-50, 5/4 + 2^-50] × [-1, 0]` with budget `2147483647`.  The render is defined and
returns a 4-byte block; its pixel, the point `(1/4 + 2^-50, 0)`, escapes with a count `k`
between 8421505 and the budget, and the red byte stored is not `k * 255 / 2147483647`:
the product `k * 255` does not fit an `int`. -/
theorem C8_gray_product_overflows :
    ∃ buf : List Nat,
      generate_mandelbrot plainHost (Double.lit 281474976710657 1125899906842624)
        (Double.lit 1407374883553281 1125899906842624) (Double.ofInt (-1)) (Double.ofInt 0)
        2147483647 1 = some ⟨some buf, ⟨1, 1⟩⟩ ∧
      8421505 ≤ mandelbrot_iterations
        (pixel_x (Double.lit 281474976710657 1125899906842624)
          ((Double.lit 1407374883553281 1125899906842624
            - Double.lit 281474976710657 1125899906842624) / Double.ofInt 1) ((0 : Nat) : Int))
        (pixel_y (Double.ofInt 0) ((Double.ofInt 0 - Double.ofInt (-1)) / Double.ofInt 1)
          ((0 : Nat) : Int)) 2147483647 ∧
      mandelbrot_iterations
        (pixel_x (Double.lit 281474976710657 1125899906842624)
          ((Double.lit 1407374883553281 1125899906842624
            - Double.lit 281474976710657 1125899906842624) / Double.ofInt 1) ((0 : Nat) : Int))
        (pixel_y (Double.ofInt 0) ((Double.ofInt 0 - Double.ofInt (-1)) / Double.ofInt 1)
          ((0 : Nat) : Int)) 2147483647 < 2147483647 ∧
      ∃ b : Nat, buf[0]? = some b ∧
        (b : Int) ≠ mandelbrot_iterations
          (pixel_x (Double.lit 281474976710657 1125899906842624)
            ((Double.lit 1407374883553281 1125899906842624
              - Double.lit 281474976710657 1125899906842624) / Double.ofInt 1)
            ((0 : Nat) : Int))
          (pixel_y (Double.ofInt 0) ((Double.ofInt 0 - Double.ofInt (-1)) / Double.ofInt 1)
            ((0 : Nat) : Int)) 2147483647 * 255 / 2147483647 := by
  obtain ⟨hh, hpx, hpy⟩ := cusp_viewport
  obtain ⟨buf, hr, _⟩ := render_defined (gray_shade 2147483647) plainHost
    (Double.lit 281474976710657 1125899906842624)
    (Double.lit 1407374883553281 1125899906842624) (Double.ofInt (-1)) (Double.ofInt 0)
    2147483647 1 1 hh (by decide) (by decide) (by decide) rfl
  obtain ⟨_, b0, _, _, _⟩ := render_pixel (gray_shade 2147483647) plainHost
    (Double.lit 281474976710657 1125899906842624)
    (Double.lit 1407374883553281 1125899906842624) (Double.ofInt (-1)) (Double.ofInt 0)
    2147483647 1 ⟨some buf, ⟨1, 1⟩⟩ buf hr rfl 0 0
    (show ((0 : Nat) : Int) < 1 by decide) (show ((0 : Nat) : Int) < 1 by decide)
  obtain ⟨c1, c2⟩ := cusp_count
  refine ⟨buf, hr, ?_, ?_, _, b0, ?_⟩
  · rw [hpx, hpy]
    exact c1
  · rw [hpx, hpy]
    exact c2
  · show ((gray_shade 2147483647 (mandelbrot_iterations
        (pixel_x (Double.lit 281474976710657 1125899906842624)
          ((Double.lit 1407374883553281 1125899906842624
            - Double.lit 281474976710657 1125899906842624) / Double.ofInt 1)
          ((0 : Nat) : Int))
        (pixel_y (Double.ofInt 0) ((Double.ofInt 0 - Double.ofInt (-1)) / Double.ofInt 1)
          ((0 : Nat) : Int)) 2147483647)).r : Int) ≠ _
    rw [hpx, hpy]
    exact gray_shade_overflow _ c1 c2

/-! ## The pixel query -/

/-- C11: whenever the height is derived, `get_pixel_iterations` returns `-1` for every pixel
with `pixel_x < 0`, `pixel_x ≥ xres`, `pixel_y < 0` or `pixel_y ≥ yres`, whatever the viewport
and the budget are; in particular it returns `-1` for every pixel when the derived height is
`≤ 0`. -/
theorem C11_out_of_bounds_returns_sentinel (xmin xmax ymin ymax : Double)
    (maxiter xres pixel_x pixel_y yres : Int)
    (hh : calculate_height xmin xmax ymin ymax xres = some yres) :
    ((pixel_x < 0 ∨ pixel_x ≥ xres ∨ pixel_y < 0 ∨ pixel_y ≥ yres) →
      get_pixel_iterations xmin xmax ymin ymax maxiter xres pixel_x pixel_y = some (-1)) ∧
    (yres ≤ 0 →
      get_pixel_iterations xmin xmax ymin ymax maxiter xres pixel_x pixel_y = some (-1)) := by
  have key : (pixel_x < 0 ∨ pixel_x ≥ xres ∨ pixel_y < 0 ∨ pixel_y ≥ yres) →
      get_pixel_iterations xmin xmax ymin ymax maxiter xres pixel_x pixel_y = some (-1) := by
    intro hb
    unfold get_pixel_iterations
    simp only [hh, Option.bind_eq_bind, Option.some_bind]
    rw [if_pos hb]
  refine ⟨key, fun hy => key ?_⟩
  by_cases h : pixel_y < 0
  · exact Or.inr (Or.inr (Or.inl h))
  · exact Or.inr (Or.inr (Or.inr (by omega)))

set_option maxRecDepth 100000 in
/-- C11 (witness): the viewport `[0, 4] × [0, 3]` with `xres = 1` has derived height 0, and
pixel `(0, 0)` is out of bounds. -/
theorem C11_out_of_bounds_returns_sentinel_witness :
    calculate_height (Double.ofInt 0) (Double.ofInt 4) (Double.ofInt 0) (Double.ofInt 3) 1
      = some 0 ∧
    ((0 : Int) < 0 ∨ (0 : Int) ≥ 1 ∨ (0 : Int) < 0 ∨ (0 : Int) ≥ 0) ∧ (0 : Int) ≤ 0 ∧
    get_pixel_iterations (Double.ofInt 0) (Double.ofInt 4) (Double.ofInt 0) (Double.ofInt 3)
      10 1 0 0 = some (-1) :=
  have h : calculate_height (Double.ofInt 0) (Double.ofInt 4) (Double.ofInt 0)
      (Double.ofInt 3) 1 = some 0 := by decide
  ⟨h, by decide, by decide,
    (C11_out_of_bounds_returns_sentinel (Double.ofInt 0) (Double.ofInt 4) (Double.ofInt 0)
      (Double.ofInt 3) 10 1 0 0 0 h).1 (by decide)⟩

theorem get_pixel_iterations_in_bounds (xmin xmax ymin ymax : Double)
    (maxiter xres pixel_x pixel_y yres : Int)
    (hh : calculate_height xmin xmax ymin ymax xres = some yres)
    (hx0 : 0 ≤ pixel_x) (hx1 : pixel_x < xres) (hy0 : 0 ≤ pixel_y) (hy1 : pixel_y < yres) :
    get_pixel_iterations xmin xmax ymin ymax maxiter xres pixel_x pixel_y
      = some (mandelbrot_iterations
          (xmin + Double.ofInt pixel_x * ((xmax - xmin) / Double.ofInt xres))
          (ymax - Double.ofInt pixel_y * ((ymax - ymin) / Double.ofInt yres)) maxiter) := by
  unfold get_pixel_iterations
  simp only [hh, Option.bind_eq_bind, Option.some_bind]
  rw [if_neg (by omega)]

/-- The bytes of an in-bounds pixel, addressed by `int` coordinates, in a block returned by a
render call. -/
theorem render_pixel_int (shade : Int → RGBA) (H : Host) (xmin xmax ymin ymax : Double)
    (maxiter xres yres pixel_x pixel_y : Int)
    (hh : calculate_height xmin xmax ymin ymax xres = some yres)
    (hx0 : 0 ≤ pixel_x) (hx1 : pixel_x < xres) (hy0 : 0 ≤ pixel_y) (hy1 : pixel_y < yres)
    (r : Rendered) (buf : List Nat)
    (hr : render shade H xmin xmax ymin ymax maxiter xres = some r)
    (hbuf : r.pixels = some buf) :
    buf[4 * (pixel_y.toNat * xres.toNat + pixel_x.toNat)]?
      = some (shade (mandelbrot_iterations
          (xmin + Double.ofInt pixel_x * ((xmax - xmin) / Double.ofInt xres))
          (ymax - Double.ofInt pixel_y * ((ymax - ymin) / Double.ofInt yres)) maxiter)).r ∧
    buf[4 * (pixel_y.toNat * xres.toNat + pixel_x.toNat) + 1]?
      = some (shade (mandelbrot_iterations
          (xmin + Double.ofInt pixel_x * ((xmax - xmin) / Double.ofInt xres))
          (ymax - Double.ofInt pixel_y * ((ymax - ymin) / Double.ofInt yres)) maxiter)).g ∧
    buf[4 * (pixel_y.toNat * xres.toNat + pixel_x.toNat) + 2]?
      = some (shade (mandelbrot_iterations
          (xmin + Double.ofInt pixel_x * ((xmax - xmin) / Double.ofInt xres))
          (ymax - Double.ofInt pixel_y * ((ymax - ymin) / Double.ofInt yres)) maxiter)).b ∧
    buf[4 * (pixel_y.toNat * xres.toNat + pixel_x.toNat) + 3]?
      = some (shade (mandelbrot_iterations
          (xmin + Double.ofInt pixel_x * ((xmax - xmin) / Double.ofInt xres))
          (ymax - Double.ofInt pixel_y * ((ymax - ymin) / Double.ofInt yres)) maxiter)).a := by
  obtain ⟨yres1, hh1, hd, _⟩ := render_stored shade H xmin xmax ymin ymax maxiter xres r buf
    hr hbuf
  have hy : yres1 = yres := by
    rw [hh] at hh1
    exact (Option.some.inj hh1).symm
  subst hy
  have hw : r.last_dimensions.width = xres := by rw [hd]
  have hht : r.last_dimensions.height = yres1 := by rw [hd]
  have hi : ((pixel_x.toNat : Nat) : Int) < r.last_dimensions.width := by rw [hw]; omega
  have hj : ((pixel_y.toNat : Nat) : Int) < r.last_dimensions.height := by rw [hht]; omega
  have h := (render_pixel shade H xmin xmax ymin ymax maxiter xres r buf hr hbuf
    pixel_x.toNat pixel_y.toNat hi hj).2
  rw [hw, hht] at h
  have ex : ((pixel_x.toNat : Nat) : Int) = pixel_x := Int.toNat_of_nonneg hx0
  have ey : ((pixel_y.toNat : Nat) : Int) = pixel_y := Int.toNat_of_nonneg hy0
  unfold Mandelbrot.pixel_x Mandelbrot.pixel_y at h
  rw [ex, ey] at h
  exact h

/-- C12: for every pixel with `0 ≤ pixel_x < xres` and `0 ≤ pixel_y < yres`,
`get_pixel_iterations` returns `mandelbrot_iterations(xmin + pixel_x*dx, ymax - pixel_y*dy,
maxiter)` with `dx = (xmax-xmin)/xres` and `dy = (ymax-ymin)/yres`; this `k` is the count the
render loops colour at pixel `(pixel_x, pixel_y)`, and the four bytes of that pixel in a block
returned by `generate_mandelbrot` or `generate_mandelbrot_color` are the colouring of `k`. -/
theorem C12_pixel_iterations_is_render_count (H : Host) (xmin xmax ymin ymax : Double)
    (maxiter xres yres pixel_x pixel_y : Int)
    (hh : calculate_height xmin xmax ymin ymax xres = some yres)
    (hx0 : 0 ≤ pixel_x) (hx1 : pixel_x < xres) (hy0 : 0 ≤ pixel_y) (hy1 : pixel_y < yres) :
    ∃ k : Int,
      get_pixel_iterations xmin xmax ymin ymax maxiter xres pixel_x pixel_y = some k ∧
      k = mandelbrot_iterations
          (xmin + Double.ofInt pixel_x * ((xmax - xmin) / Double.ofInt xres))
          (ymax - Double.ofInt pixel_y * ((ymax - ymin) / Double.ofInt yres)) maxiter ∧
      (∀ shade : Int → RGBA,
        pixel_shade shade xmin ymax ((xmax - xmin) / Double.ofInt xres)
          ((ymax - ymin) / Double.ofInt yres) maxiter pixel_y.toNat pixel_x.toNat = shade k) ∧
      (∀ (r : Rendered) (buf : List Nat),
        generate_mandelbrot H xmin xmax ymin ymax maxiter xres = some r →
        r.pixels = some buf →
        buf[4 * (pixel_y.toNat * xres.toNat + pixel_x.toNat)]? = some (gray_shade maxiter k).r ∧
        buf[4 * (pixel_y.toNat * xres.toNat + pixel_x.toNat) + 1]?
          = some (gray_shade maxiter k).g ∧
        buf[4 * (pixel_y.toNat * xres.toNat + pixel_x.toNat) + 2]?
          = some (gray_shade maxiter k).b ∧
        buf[4 * (pixel_y.toNat * xres.toNat + pixel_x.toNat) + 3]?
          = some (gray_shade maxiter k).a) ∧
      (∀ (r : Rendered) (buf : List Nat),
        generate_mandelbrot_color H xmin xmax ymin ymax maxiter xres = some r →
        r.pixels = some buf →
        buf[4 * (pixel_y.toNat * xres.toNat + pixel_x.toNat)]?
          = some (color_shade H maxiter k).r ∧
        buf[4 * (pixel_y.toNat * xres.toNat + pixel_x.toNat) + 1]?
          = some (color_shade H maxiter k).g ∧
        buf[4 * (pixel_y.toNat * xres.toNat + pixel_x.toNat) + 2]?
          = some (color_shade H maxiter k).b ∧
        buf[4 * (pixel_y.toNat * xres.toNat + pixel_x.toNat) + 3]?
          = some (color_shade H maxiter k).a) := by
  refine ⟨_, get_pixel_iterations_in_bounds xmin xmax ymin ymax maxiter xres pixel_x pixel_y
    yres hh hx0 hx1 hy0 hy1, rfl, ?_, ?_, ?_⟩
  · intro shade
    unfold pixel_shade Mandelbrot.pixel_x Mandelbrot.pixel_y
    rw [Int.toNat_of_nonneg hx0, Int.toNat_of_nonneg hy0]
  · intro r buf hr hbuf
    exact render_pixel_int (gray_shade maxiter) H xmin xmax ymin ymax maxiter xres yres
      pixel_x pixel_y hh hx0 hx1 hy0 hy1 r buf hr hbuf
  · intro r buf hr hbuf
    exact render_pixel_int (color_shade H maxiter) H xmin xmax ymin ymax maxiter xres yres
      pixel_x pixel_y hh hx0 hx1 hy0 hy1 r buf hr hbuf

set_option maxRecDepth 100000 in
/-- C12 (witness): the viewport `[1, 2] × [0, 1]` with `xres = 1` and budget 10; pixel
`(0, 0)` is the point `(1, 1)`, whose count is 3. -/
theorem C12_pixel_iterations_is_render_count_witness :
    calculate_height (Double.ofInt 1) (Double.ofInt 2) (Double.ofInt 0) (Double.ofInt 1) 1
      = some 1 ∧
    get_pixel_iterations (Double.ofInt 1) (Double.ofInt 2) (Double.ofInt 0) (Double.ofInt 1)
      10 1 0 0 = some 3 ∧
    generate_mandelbrot plainHost (Double.ofInt 1) (Double.ofInt 2) (Double.ofInt 0)
      (Double.ofInt 1) 10 1 = some ⟨some [76, 76, 76, 255], ⟨1, 1⟩⟩ ∧
    gray_shade 10 3 = ⟨76, 76, 76, 255⟩ ∧
    ∃ k : Int,
      get_pixel_iterations (Double.ofInt 1) (Double.ofInt 2) (Double.ofInt 0) (Double.ofInt 1)
        10 1 0 0 = some k ∧
      k = mandelbrot_iterations
          (Double.ofInt 1 + Double.ofInt 0 * ((Double.ofInt 2 - Double.ofInt 1) / Double.ofInt 1))
          (Double.ofInt 1 - Double.ofInt 0 * ((Double.ofInt 1 - Double.ofInt 0) / Double.ofInt 1))
          10 ∧
      (∀ shade : Int → RGBA,
        pixel_shade shade (Double.ofInt 1) (Double.ofInt 1)
          ((Double.ofInt 2 - Double.ofInt 1) / Double.ofInt 1)
          ((Double.ofInt 1 - Double.ofInt 0) / Double.ofInt 1) 10 (0 : Int).toNat
          (0 : Int).toNat = shade k) ∧
      (∀ (r : Rendered) (buf : List Nat),
        generate_mandelbrot plainHost (Double.ofInt 1) (Double.ofInt 2) (Double.ofInt 0)
          (Double.ofInt 1) 10 1 = some r →
        r.pixels = some buf →
        buf[4 * ((0 : Int).toNat * (1 : Int).toNat + (0 : Int).toNat)]?
          = some (gray_shade 10 k).r ∧
        buf[4 * ((0 : Int).toNat * (1 : Int).toNat + (0 : Int).toNat) + 1]?
          = some (gray_shade 10 k).g ∧
        buf[4 * ((0 : Int).toNat * (1 : Int).toNat + (0 : Int).toNat) + 2]?
          = some (gray_shade 10 k).b ∧
        buf[4 * ((0 : Int).toNat * (1 : Int).toNat + (0 : Int).toNat) + 3]?
          = some (gray_shade 10 k).a) ∧
      (∀ (r : Rendered) (buf : List Nat),
        generate_mandelbrot_color plainHost (Double.ofInt 1) (Double.ofInt 2) (Double.ofInt 0)
          (Double.ofInt 1) 10 1 = some r →
        r.pixels = some buf →
        buf[4 * ((0 : Int).toNat * (1 : Int).toNat + (0 : Int).toNat)]?
          = some (color_shade plainHost 10 k).r ∧
        buf[4 * ((0 : Int).toNat * (1 : Int).toNat + (0 : Int).toNat) + 1]?
          = some (color_shade plainHost 10 k).g ∧
        buf[4 * ((0 : Int).toNat * (1 : Int).toNat + (0 : Int).toNat) + 2]?
          = some (color_shade plainHost 10 k).b ∧
        buf[4 * ((0 : Int).toNat * (1 : Int).toNat + (0 : Int).toNat) + 3]?
          = some (color_shade plainHost 10 k).a) :=
  have h : calculate_height (Double.ofInt 1) (Double.ofInt 2) (Double.ofInt 0)
      (Double.ofInt 1) 1 = some 1 := by decide
  ⟨h, by decide, by decide, by decide,
    C12_pixel_iterations_is_render_count plainHost (Double.ofInt 1) (Double.ofInt 2)
      (Double.ofInt 0) (Double.ofInt 1) 10 1 1 0 0 h (by decide) (by decide) (by decide)
      (by decide)⟩

/-! ## Two budgets -/

/-- The loop never returns less than the counter it is entered with. -/
theorem mandelbrot_loop_ge (x y : Double) (maxiter : Int) :
    ∀ (fuel : Nat) (k : Int) (u v u2 v2 : Double),
      k ≤ mandelbrot_loop x y maxiter fuel k u v u2 v2 := by
  intro fuel
  induction fuel with
  | zero => intro k u v u2 v2; exact le_refl _
  | succ fuel ih =>
    intro k u v u2 v2
    simp only [mandelbrot_loop]
    split
    · exact le_trans (by omega) (ih _ _ _ _ _)
    · exact le_refl _

/-- Two budgets, one loop: entered in the same state with the counter at most `n`, the loop
with budget `n` returns the smaller of `n` and what the loop with budget `m ≥ n` returns. -/
theorem mandelbrot_loop_budget (x y : Double) (n m : Int) (hnm : n ≤ m) :
    ∀ (f1 f2 : Nat) (k : Int) (u v u2 v2 : Double), k ≤ n →
      (n - k).toNat ≤ f1 → (m - k).toNat ≤ f2 →
      mandelbrot_loop x y n f1 k u v u2 v2
        = min (mandelbrot_loop x y m f2 k u v u2 v2) n := by
  intro f1
  induction f1 with
  | zero =>
    intro f2 k u v u2 v2 hk h1 h2
    have hkn : k = n := by omega
    have hge := mandelbrot_loop_ge x y m f2 k u v u2 v2
    simp only [mandelbrot_loop]
    omega
  | succ f1 ih =>
    intro f2 k u v u2 v2 hk h1 h2
    rcases eq_or_lt_of_le hk with hkn | hkn
    · have hge := mandelbrot_loop_ge x y m f2 k u v u2 v2
      simp only [mandelbrot_loop]
      rw [if_neg (fun h => by omega)]
      omega
    · cases f2 with
      | zero => omega
      | succ f2 =>
        simp only [mandelbrot_loop]
        by_cases hg : u2 + v2 < Double.lit 4 1
        · rw [if_pos ⟨hkn, hg⟩, if_pos ⟨by omega, hg⟩]
          exact ih f2 (k + 1) _ _ _ _ (by omega) (by omega) (by omega)
        · rw [if_neg (fun h => hg h.2), if_neg (fun h => hg h.2)]
          omega

/-- C19: for every `x`, `y` and budgets `1 ≤ n ≤ m`,
`mandelbrot_iterations(x, y, n) = min(mandelbrot_iterations(x, y, m), n)`; so a point whose
count under the budget `m` is at most `n` has the same count under the lower budget `n`. -/
theorem C19_budget_monotone (x y : Double) (n m : Int) (hn : 1 ≤ n) (hnm : n ≤ m) :
    mandelbrot_iterations x y n = min (mandelbrot_iterations x y m) n ∧
    (mandelbrot_iterations x y m ≤ n →
      mandelbrot_iterations x y n = mandelbrot_iterations x y m) := by
  have h : mandelbrot_iterations x y n = min (mandelbrot_iterations x y m) n := by
    unfold mandelbrot_iterations
    exact mandelbrot_loop_budget x y n m hnm n.toNat m.toNat 1 _ _ _ _ hn (by omega) (by omega)
  refine ⟨h, fun hle => ?_⟩
  rw [h]
  exact min_eq_left hle

set_option maxRecDepth 100000 in
/-- C19 (witness): the point `(1, 1)`, whose count is 3, with the budgets 2 and 10. -/
theorem C19_budget_monotone_witness :
    (1 : Int) ≤ 2 ∧ (2 : Int) ≤ 10 ∧
    mandelbrot_iterations (Double.ofInt 1) (Double.ofInt 1) 10 = 3 ∧
    mandelbrot_iterations (Double.ofInt 1) (Double.ofInt 1) 2 = 2 ∧
    (mandelbrot_iterations (Double.ofInt 1) (Double.ofInt 1) 2
      = min (mandelbrot_iterations (Double.ofInt 1) (Double.ofInt 1) 10) 2 ∧
    (mandelbrot_iterations (Double.ofInt 1) (Double.ofInt 1) 10 ≤ 2 →
      mandelbrot_iterations (Double.ofInt 1) (Double.ofInt 1) 2
        = mandelbrot_iterations (Double.ofInt 1) (Double.ofInt 1) 10)) :=
  ⟨by decide, by decide, by decide, by decide,
    C19_budget_monotone (Double.ofInt 1) (Double.ofInt 1) 2 10 (by decide) (by decide)⟩

/-! ## The work of one call of the kernel -/

/-- The loop returns the counter it was entered with plus the number of passes it made, and
from counter `k` it makes at most `maxiter - k` passes, whatever bound it is given. -/
theorem mandelbrot_loop_passes (x y : Double) (maxiter : Int) :
    ∀ (fuel : Nat) (k : Int) (u v u2 v2 : Double),
      mandelbrot_loop x y maxiter fuel k u v u2 v2
        = k + (mandelbrot_passes x y maxiter fuel k u v u2 v2 : Int) ∧
      (mandelbrot_passes x y maxiter fuel k u v u2 v2 : Int) ≤ max (maxiter - k) 0 := by
  intro fuel
  induction fuel with
  | zero =>
    intro k u v u2 v2
    simp only [mandelbrot_loop, mandelbrot_passes]
    refine ⟨by simp, ?_⟩
    simp
  | succ fuel ih =>
    intro k u v u2 v2
    simp only [mandelbrot_loop, mandelbrot_passes]
    by_cases hc : k < maxiter ∧ u2 + v2 < Double.lit 4 1
    · rw [if_pos hc, if_pos hc]
      obtain ⟨h1, h2⟩ := ih (k + 1) (u2 - v2 + x) (Double.ofInt 2 * u * v + y)
        ((u2 - v2 + x) * (u2 - v2 + x))
        ((Double.ofInt 2 * u * v + y) * (Double.ofInt 2 * u * v + y))
      rw [h1]
      push_cast
      have := hc.1
      constructor
      · ring
      · omega
    · rw [if_neg hc, if_neg hc]
      refine ⟨by simp, ?_⟩
      simp

namespace Double

theorem div_fin_nat (a b : Nat) (hb : 0 < b) :
    fin (a : Int) / fin (b : Int) = round false (a * unitsPerOne) b := by
  rw [div_def]
  have hb0 : ((b : Nat) : Int) ≠ 0 := by omega
  have hs : ((b : Nat) : Int).sign = 1 := Int.sign_eq_one_of_pos (by omega)
  show (if ((b : Nat) : Int) = 0 then _ else
    roundFrac ((a : Int) * (unitsPerOne : Int) * ((b : Nat) : Int).sign)
      ((b : Nat) : Int).natAbs) = _
  rw [if_neg hb0, hs, mul_one,
    roundFrac_of_nonneg _ _ (Int.mul_nonneg (Int.ofNat_nonneg a) (Int.ofNat_nonneg unitsPerOne))]
  congr 1

end Double

/-- The colouring of an escaped count, written with `color_t`. -/
theorem color_shade_t (H : Host) (maxiter k : Int) (hk : k < maxiter) :
    color_shade H maxiter k =
      ⟨uchar_of_double H (Double.ofInt 255 *
          H.sin (color_t maxiter k * Double.lit 314159 100000 * Double.ofInt 2)),
        uchar_of_double H (Double.ofInt 255 *
          H.sin (color_t maxiter k * Double.lit 314159 100000 * Double.ofInt 4)),
        uchar_of_double H (Double.ofInt 255 *
          H.sin (color_t maxiter k * Double.lit 314159 100000 * Double.ofInt 6)),
        255⟩ := by
  unfold color_shade color_t
  rw [if_neg (by omega)]

/-- The quotient `(double)k / maxiter` of two `int` values with `0 ≤ k < maxiter` is a finite
value in `[0, 1)`: the exact quotient is at most `1 - 2^-31`, which is a binary64 value. -/
theorem color_t_range (maxiter k : Int) (h0 : 0 ≤ k) (hk : k < maxiter)
    (hmax : maxiter ≤ 2147483647) :
    Double.lit 0 1 ≤ color_t maxiter k ∧ color_t maxiter k < Double.lit 1 1 := by
  have hU := unitsPerOne_pos
  obtain ⟨V, hV⟩ : ∃ V : Nat, V = 2 ^ 1043 := ⟨_, rfl⟩
  have hUV : unitsPerOne = 2147483648 * V := by
    rw [hV]
    unfold unitsPerOne
    rw [Nat.shiftLeft_eq, one_mul]
    have : (2147483648 : Nat) = 2 ^ 31 := by norm_num
    rw [this, ← pow_add]
  have hrep : Representable (2147483647 * V) := by
    refine ⟨2147483647, 1043, ?_, ?_⟩
    · norm_num
    · exact congrArg (fun t => 2147483647 * t) hV
  have hBU : 2147483647 * V < unitsPerOne := by
    have : 0 < V := by rw [hV]; positivity
    omega
  have hov : unitsPerOne < overflowUnits := by
    have := units_lt_overflow 1 (by norm_num)
    omega
  obtain ⟨k1, rfl⟩ := Int.eq_ofNat_of_zero_le h0
  obtain ⟨n1, rfl⟩ := Int.eq_ofNat_of_zero_le (by omega : 0 ≤ maxiter)
  have hk1 : k1 < n1 := by omega
  have hn1 : n1 ≤ 2147483647 := by omega
  have e1 : Double.ofInt (k1 : Int) = Double.fin ((k1 * unitsPerOne : Nat) : Int) := by
    rw [Double.ofInt_eq _ (by omega)]
    push_cast
    rfl
  have e2 : Double.ofInt (n1 : Int) = Double.fin ((n1 * unitsPerOne : Nat) : Int) := by
    rw [Double.ofInt_eq _ (by omega)]
    push_cast
    rfl
  have hle : k1 * unitsPerOne * unitsPerOne ≤ 2147483647 * V * (n1 * unitsPerOne) := by
    have h1 : k1 * 2147483648 ≤ 2147483647 * n1 := by omega
    calc k1 * unitsPerOne * unitsPerOne = k1 * 2147483648 * (V * unitsPerOne) := by
          rw [hUV]; ring
      _ ≤ 2147483647 * n1 * (V * unitsPerOne) := Nat.mul_le_mul_right _ h1
      _ = 2147483647 * V * (n1 * unitsPerOne) := by ring
  have hd : 0 < n1 * unitsPerOne := Nat.mul_pos (by omega) hU
  have hfin := Double.round_false_fin (k1 * unitsPerOne * unitsPerOne) (n1 * unitsPerOne)
    (2147483647 * V) hd hrep (by omega) hle
  have hr := roundUnits_le_rep (k1 * unitsPerOne * unitsPerOne) (n1 * unitsPerOne)
    (2147483647 * V) hd hrep hle
  have ht : color_t (n1 : Int) (k1 : Int)
      = Double.fin (roundUnits (k1 * unitsPerOne * unitsPerOne) (n1 * unitsPerOne) : Nat) := by
    unfold color_t
    rw [e1, e2, Double.div_fin_nat _ _ hd, hfin]
  have z : Double.lit 0 1 = Double.fin 0 := zero_facts.1
  have o : Double.lit 1 1 = Double.fin ((unitsPerOne : Nat) : Int) := by
    rw [Double.lit_one_eq 1 (by decide)]
    simp
  rw [ht, z, o]
  generalize roundUnits (k1 * unitsPerOne * unitsPerOne) (n1 * unitsPerOne) = r at *
  constructor
  · rw [Double.le_def]
    simp only [Double.le, decide_eq_true_eq]
    omega
  · rw [Double.lt_def]
    simp only [Double.lt, decide_eq_true_eq]
    omega

/-- C15: for every `x`, `y` and every `int` budget `n ≥ 1`, the loop of the kernel makes at
most `n - 1` passes (whatever bound the model is given), the kernel returns one more than the
number of passes, a `k` with `1 ≤ k ≤ n`; and for an escaped count (`k < n`) the value
`t = (double)k / n` of the colour mapping lies in `[0, 1)`. -/
theorem C15_budget_bounds_work (x y : Double) (n : Int) (hn : 1 ≤ n) (hmax : n ≤ 2147483647) :
    (∀ fuel : Nat,
      (mandelbrot_passes x y n fuel 1 (Double.lit 0 1) (Double.lit 0 1)
        (Double.lit 0 1 * Double.lit 0 1) (Double.lit 0 1 * Double.lit 0 1) : Int) ≤ n - 1) ∧
    mandelbrot_iterations x y n
      = 1 + (mandelbrot_passes x y n n.toNat 1 (Double.lit 0 1) (Double.lit 0 1)
        (Double.lit 0 1 * Double.lit 0 1) (Double.lit 0 1 * Double.lit 0 1) : Int) ∧
    1 ≤ mandelbrot_iterations x y n ∧ mandelbrot_iterations x y n ≤ n ∧
    (mandelbrot_iterations x y n < n →
      Double.lit 0 1 ≤ color_t n (mandelbrot_iterations x y n) ∧
      color_t n (mandelbrot_iterations x y n) < Double.lit 1 1) := by
  have hp := fun fuel => mandelbrot_loop_passes x y n fuel 1 (Double.lit 0 1) (Double.lit 0 1)
    (Double.lit 0 1 * Double.lit 0 1) (Double.lit 0 1 * Double.lit 0 1)
  have hit : mandelbrot_iterations x y n
      = 1 + (mandelbrot_passes x y n n.toNat 1 (Double.lit 0 1) (Double.lit 0 1)
        (Double.lit 0 1 * Double.lit 0 1) (Double.lit 0 1 * Double.lit 0 1) : Int) :=
    (hp n.toNat).1
  have hb := (hp n.toNat).2
  refine ⟨fun fuel => ?_, hit, by omega, by omega, fun hlt => ?_⟩
  · have := (hp fuel).2
    omega
  · exact color_t_range n _ (by omega) hlt hmax

set_option maxRecDepth 100000 in
/-- C15 (witness): the point `(1, 1)` with budget 10: two passes, count 3, `t = 0.3`. -/
theorem C15_budget_bounds_work_witness :
    (1 : Int) ≤ 10 ∧ (10 : Int) ≤ 2147483647 ∧
    mandelbrot_iterations (Double.ofInt 1) (Double.ofInt 1) 10 = 3 ∧
    color_t 10 3 = Double.lit 3 10 ∧
    ((∀ fuel : Nat,
      (mandelbrot_passes (Double.ofInt 1) (Double.ofInt 1) 10 fuel 1 (Double.lit 0 1)
        (Double.lit 0 1) (Double.lit 0 1 * Double.lit 0 1)
        (Double.lit 0 1 * Double.lit 0 1) : Int) ≤ 10 - 1) ∧
    mandelbrot_iterations (Double.ofInt 1) (Double.ofInt 1) 10
      = 1 + (mandelbrot_passes (Double.ofInt 1) (Double.ofInt 1) 10 (10 : Int).toNat 1
        (Double.lit 0 1) (Double.lit 0 1) (Double.lit 0 1 * Double.lit 0 1)
        (Double.lit 0 1 * Double.lit 0 1) : Int) ∧
    1 ≤ mandelbrot_iterations (Double.ofInt 1) (Double.ofInt 1) 10 ∧
    mandelbrot_iterations (Double.ofInt 1) (Double.ofInt 1) 10 ≤ 10 ∧
    (mandelbrot_iterations (Double.ofInt 1) (Double.ofInt 1) 10 < 10 →
      Double.lit 0 1 ≤ color_t 10 (mandelbrot_iterations (Double.ofInt 1) (Double.ofInt 1) 10) ∧
      color_t 10 (mandelbrot_iterations (Double.ofInt 1) (Double.ofInt 1) 10)
        < Double.lit 1 1)) :=
  ⟨by decide, by decide, by decide, by decide,
    C15_budget_bounds_work (Double.ofInt 1) (Double.ofInt 1) 10 (by decide) (by decide)⟩

/-! ## The global after each call; the divisor of the colourings -/

/-- A render call that is defined leaves `(xres, yres)` in `last_dimensions`, whether it
returns a block or `NULL`. -/
theorem render_dimensions (shade : Int → RGBA) (H : Host) (xmin xmax ymin ymax : Double)
    (maxiter xres : Int) (r : Rendered)
    (hr : render shade H xmin xmax ymin ymax maxiter xres = some r) :
    ∃ yres : Int, calculate_height xmin xmax ymin ymax xres = some yres ∧
      r.last_dimensions = ⟨xres, yres⟩ := by
  unfold render at hr
  cases hh : calculate_height xmin xmax ymin ymax xres with
  | none => simp [hh] at hr
  | some yres =>
    refine ⟨yres, rfl, ?_⟩
    simp only [hh, Option.bind_eq_bind, Option.some_bind] at hr
    cases hm : malloc H (alloc_size xres yres) with
    | none =>
      simp only [hm] at hr
      cases hr
      rfl
    | some px0 =>
      simp only [hm] at hr
      cases hras : raster shade xmin ymax ((xmax - xmin) / Double.ofInt xres)
          ((ymax - ymin) / Double.ofInt yres) maxiter xres yres px0 with
      | none => simp [hras] at hr
      | some px =>
        simp only [hras, Option.some_bind, Option.some.injEq] at hr
        subst hr
        rfl

/-- C14: after any defined call of `generate_mandelbrot`, `generate_mandelbrot_color` or
`generate_mandelbrot_preview` with the arguments `(xmin, xmax, ymin, ymax, maxiter, xres)`,
also one that returns `NULL`, the global holds `(xres, calculate_height(xmin, xmax, ymin, ymax,
xres))`, whatever `maxiter` was: `get_width` returns `xres` and `get_height` returns the
derived height.  `get_width`, `get_height` and `get_pixel_iterations` leave the global as it
was. -/
theorem C14_last_dimensions_frame (H : Host) (d : Dimensions) :
    (∀ (xmin xmax ymin ymax : Double) (maxiter xres : Int) (ret : Returned) (d1 : Dimensions),
      (call H d (Call.generate_mandelbrot xmin xmax ymin ymax maxiter xres) = some (ret, d1) ∨
        call H d (Call.generate_mandelbrot_color xmin xmax ymin ymax maxiter xres)
          = some (ret, d1) ∨
        call H d (Call.generate_mandelbrot_preview xmin xmax ymin ymax maxiter xres)
          = some (ret, d1)) →
      ∃ yres : Int, calculate_height xmin xmax ymin ymax xres = some yres ∧
        d1 = ⟨xres, yres⟩ ∧
        call H d1 Call.get_width = some (Returned.int xres, d1) ∧
        call H d1 Call.get_height = some (Returned.int yres, d1)) ∧
    call H d Call.get_width = some (Returned.int d.width, d) ∧
    call H d Call.get_height = some (Returned.int d.height, d) ∧
    (∀ (xmin xmax ymin ymax : Double) (maxiter xres pixel_x pixel_y : Int) (ret : Returned)
      (d1 : Dimensions),
      call H d (Call.get_pixel_iterations xmin xmax ymin ymax maxiter xres pixel_x pixel_y)
        = some (ret, d1) → d1 = d) := by
  refine ⟨?_, rfl, rfl, ?_⟩
  · intro xmin xmax ymin ymax maxiter xres ret d1 hc
    have key : ∀ (shade : Int → RGBA) (m : Int),
        (render shade H xmin xmax ymin ymax m xres).map
          (fun r => (Returned.pixels r.pixels, r.last_dimensions)) = some (ret, d1) →
        ∃ yres : Int, calculate_height xmin xmax ymin ymax xres = some yres ∧
          d1 = ⟨xres, yres⟩ ∧
          call H d1 Call.get_width = some (Returned.int xres, d1) ∧
          call H d1 Call.get_height = some (Returned.int yres, d1) := by
      intro shade m h
      cases hr : render shade H xmin xmax ymin ymax m xres with
      | none => simp [hr] at h
      | some r =>
        rw [hr] at h
        simp only [Option.map_some', Option.some.injEq, Prod.mk.injEq] at h
        obtain ⟨yres, hh, hd⟩ := render_dimensions shade H xmin xmax ymin ymax m xres r hr
        have e : d1 = ⟨xres, yres⟩ := by rw [← h.2, hd]
        subst e
        exact ⟨yres, hh, rfl, rfl, rfl⟩
    rcases hc with hc | hc | hc
    · exact key _ _ hc
    · exact key _ _ hc
    · exact key _ _ hc
  · intro xmin xmax ymin ymax maxiter xres pixel_x pixel_y ret d1 hc
    simp only [call] at hc
    cases hg : get_pixel_iterations xmin xmax ymin ymax maxiter xres pixel_x pixel_y with
    | none => simp [hg] at hc
    | some v =>
      rw [hg] at hc
      simp only [Option.map_some', Option.some.injEq, Prod.mk.injEq] at hc
      exact hc.2.symm

/-- C20: the kernel returns `k ≥ 1`, so the escaped branch `k < maxiter` of the two
colourings, where they divide by `maxiter`, is reached only when `maxiter ≥ 2`: the divisor is
never zero.  For every `maxiter ≤ 1` (zero and negative budgets included) every pixel of a
block returned by `generate_mandelbrot` or `generate_mandelbrot_color` is `(0, 0, 0, 255)`. -/
theorem C20_escaped_branch_needs_budget_two :
    (∀ (x y : Double) (maxiter : Int),
      mandelbrot_iterations x y maxiter < maxiter → 2 ≤ maxiter ∧ maxiter ≠ 0) ∧
    (∀ (H : Host) (xmin xmax ymin ymax : Double) (maxiter xres : Int) (r : Rendered)
      (buf : List Nat) (i j : Nat), maxiter ≤ 1 →
      (generate_mandelbrot H xmin xmax ymin ymax maxiter xres = some r ∨
        generate_mandelbrot_color H xmin xmax ymin ymax maxiter xres = some r) →
      r.pixels = some buf →
      (i : Int) < r.last_dimensions.width → (j : Int) < r.last_dimensions.height →
      buf[4 * (j * r.last_dimensions.width.toNat + i)]? = some 0 ∧
      buf[4 * (j * r.last_dimensions.width.toNat + i) + 1]? = some 0 ∧
      buf[4 * (j * r.last_dimensions.width.toNat + i) + 2]? = some 0 ∧
      buf[4 * (j * r.last_dimensions.width.toNat + i) + 3]? = some 255) := by
  constructor
  · intro x y maxiter h
    have := (mandelbrot_iterations_orbit x y maxiter).1
    exact ⟨by omega, by omega⟩
  · intro H xmin xmax ymin ymax maxiter xres r buf i j hm hr hbuf hi hj
    have hk : mandelbrot_iterations
        (pixel_x xmin ((xmax - xmin) / Double.ofInt r.last_dimensions.width) i)
        (pixel_y ymax ((ymax - ymin) / Double.ofInt r.last_dimensions.height) j) maxiter
        ≥ maxiter := by
      have := (mandelbrot_iterations_orbit
        (pixel_x xmin ((xmax - xmin) / Double.ofInt r.last_dimensions.width) i)
        (pixel_y ymax ((ymax - ymin) / Double.ofInt r.last_dimensions.height) j) maxiter).1
      omega
    rcases hr with hr | hr
    · obtain ⟨_, b0, b1, b2, b3⟩ := render_pixel _ H xmin xmax ymin ymax maxiter xres r buf
        hr hbuf i j hi hj
      simp only [gray_shade, if_pos hk] at b0 b1 b2 b3
      exact ⟨b0, b1, b2, b3⟩
    · obtain ⟨_, b0, b1, b2, b3⟩ := render_pixel _ H xmin xmax ymin ymax maxiter xres r buf
        hr hbuf i j hi hj
      simp only [color_shade, if_pos hk] at b0 b1 b2 b3
      exact ⟨b0, b1, b2, b3⟩

set_option maxRecDepth 100000 in
/-- C14 (witness): from the initial global `{0, 0}`, the one-pixel grayscale render of the
viewport `[1, 2] × [0, 1]` leaves `(1, 1)`, which the two accessors then return. -/
theorem C14_last_dimensions_frame_witness :
    call plainHost last_dimensions_init
      (Call.generate_mandelbrot (Double.ofInt 1) (Double.ofInt 2) (Double.ofInt 0)
        (Double.ofInt 1) 10 1)
      = some (Returned.pixels (some [76, 76, 76, 255]), ⟨1, 1⟩) ∧
    ∃ yres : Int,
      calculate_height (Double.ofInt 1) (Double.ofInt 2) (Double.ofInt 0) (Double.ofInt 1) 1
        = some yres ∧
      (⟨1, 1⟩ : Dimensions) = ⟨1, yres⟩ ∧
      call plainHost ⟨1, 1⟩ Call.get_width = some (Returned.int 1, ⟨1, 1⟩) ∧
      call plainHost ⟨1, 1⟩ Call.get_height = some (Returned.int yres, ⟨1, 1⟩) :=
  have h : call plainHost last_dimensions_init
      (Call.generate_mandelbrot (Double.ofInt 1) (Double.ofInt 2) (Double.ofInt 0)
        (Double.ofInt 1) 10 1)
      = some (Returned.pixels (some [76, 76, 76, 255]), ⟨1, 1⟩) := by decide
  ⟨h, (C14_last_dimensions_frame plainHost last_dimensions_init).1 (Double.ofInt 1)
    (Double.ofInt 2) (Double.ofInt 0) (Double.ofInt 1) 10 1 _ _ (Or.inl h)⟩

set_option maxRecDepth 100000 in
/-- C20 (witness): the one-pixel renders of the viewport `[1, 2] × [0, 1]` with budget 1: the
pixel, which escapes at once under any larger budget, is stored as `(0, 0, 0, 255)`. -/
theorem C20_escaped_branch_needs_budget_two_witness :
    (1 : Int) ≤ 1 ∧
    generate_mandelbrot plainHost (Double.ofInt 1) (Double.ofInt 2) (Double.ofInt 0)
      (Double.ofInt 1) 1 1 = some ⟨some [0, 0, 0, 255], ⟨1, 1⟩⟩ ∧
    ([0, 0, 0, 255][4 * (0 * (1 : Int).toNat + 0)]? = some 0 ∧
      [0, 0, 0, 255][4 * (0 * (1 : Int).toNat + 0) + 1]? = some 0 ∧
      [0, 0, 0, 255][4 * (0 * (1 : Int).toNat + 0) + 2]? = some 0 ∧
      [0, 0, 0, 255][4 * (0 * (1 : Int).toNat + 0) + 3]? = some 255) :=
  have h : generate_mandelbrot plainHost (Double.ofInt 1) (Double.ofInt 2) (Double.ofInt 0)
      (Double.ofInt 1) 1 1 = some ⟨some [0, 0, 0, 255], ⟨1, 1⟩⟩ := by decide
  ⟨by decide, h,
    C20_escaped_branch_needs_budget_two.2 plainHost (Double.ofInt 1) (Double.ofInt 2)
      (Double.ofInt 0) (Double.ofInt 1) 1 1 ⟨some [0, 0, 0, 255], ⟨1, 1⟩⟩ [0, 0, 0, 255] 0 0
      (by decide) (Or.inl h) rfl (by decide) (by decide)⟩

/-! ## A derived height of zero -/

/-- With no rows the loops of `raster` make no pass: the block is returned as it was, and
neither `dx` nor `dy` is used. -/
theorem raster_no_rows (shade : Int → RGBA) (xmin ymax dx dy : Double) (maxiter xres : Int)
    (pixels : List Nat) :
    raster shade xmin ymax dx dy maxiter xres 0 pixels = some pixels := by
  simp [raster]

/-- C16 (amended): for every valid viewport and every `xres ≥ 1` at which the height is
derived, the derived height is not negative, and it is `≥ 1` exactly when the quotient
`xres * (ymax - ymin) / (xmax - xmin)`, computed in `double`, is at least `1.0`.  When it is
0 the divisor of `dy` is zero, but `dy` is never used: the loops make no pass and
`get_pixel_iterations` returns `-1` for every pixel. -/
theorem C16_height_nonneg (xmin xmax ymin ymax : Double) (xres yres : Int)
    (hx : xmin < xmax) (hy : ymin < ymax) (hres : 1 ≤ xres)
    (hh : calculate_height xmin xmax ymin ymax xres = some yres) :
    0 ≤ yres ∧
    (1 ≤ yres ↔ Double.lit 1 1 ≤ height_quotient xmin xmax ymin ymax xres) ∧
    (yres = 0 →
      (∀ (shade : Int → RGBA) (dx dy : Double) (maxiter : Int) (pixels : List Nat),
        raster shade xmin ymax dx dy maxiter xres yres pixels = some pixels) ∧
      (∀ maxiter px py : Int,
        get_pixel_iterations xmin xmax ymin ymax maxiter xres px py = some (-1))) := by
  have hU := unitsPerOne_pos
  have hq := height_quotient_nonneg xmin xmax ymin ymax xres hx hy hres
  have o : Double.lit 1 1 = Double.fin ((unitsPerOne : Nat) : Int) := by
    rw [Double.lit_one_eq 1 (by decide)]
    simp
  have hh0 := hh
  unfold calculate_height at hh
  cases hqv : height_quotient xmin xmax ymin ymax xres with
  | nan => rw [hqv] at hh; simp [Double.toInt] at hh
  | inf b => rw [hqv] at hh; simp [Double.toInt] at hh
  | fin n =>
    rw [hqv] at hh hq
    have hn : 0 ≤ n := hq
    have htdiv : Int.tdiv n (unitsPerOne : Int) = n / (unitsPerOne : Int) :=
      Int.tdiv_eq_ediv hn (by omega)
    unfold Double.toInt at hh
    simp only [htdiv] at hh
    by_cases hc : -2147483648 ≤ n / (unitsPerOne : Int) ∧ n / (unitsPerOne : Int) ≤ 2147483647
    · rw [if_pos hc] at hh
      have hy0 : yres = n / (unitsPerOne : Int) := (Option.some.inj hh).symm
      have hq0 : 0 ≤ n / (unitsPerOne : Int) := Int.ediv_nonneg hn (by omega)
      refine ⟨by omega, ?_, ?_⟩
      · rw [o, Double.le_def]
        simp only [Double.le, decide_eq_true_eq]
        rw [hy0]
        constructor
        · intro h1
          by_contra hlt
          have : n / (unitsPerOne : Int) = 0 := Int.ediv_eq_zero_of_lt hn (by omega)
          omega
        · intro h1
          exact Int.le_ediv_of_mul_le (by omega) (by omega)
      · intro h0
        subst h0
        refine ⟨fun shade dx dy maxiter pixels => raster_no_rows _ _ _ _ _ _ _ _, ?_⟩
        intro maxiter px py
        unfold get_pixel_iterations
        simp only [hh0, Option.bind_eq_bind, Option.some_bind]
        rw [if_pos]
        by_cases h : py < 0
        · exact Or.inr (Or.inr (Or.inl h))
        · exact Or.inr (Or.inr (Or.inr (by omega)))
    · rw [if_neg hc] at hh
      cases hh

set_option maxRecDepth 100000 in
/-- C16 (witness): the viewport `[-2, 1] × [-1.5, 1.5]` with `xres = 4` has derived height 4
and quotient `4.0`. -/
theorem C16_height_nonneg_witness :
    Double.ofInt (-2) < Double.ofInt 1 ∧ Double.lit (-15) 10 < Double.lit 15 10 ∧
    (1 : Int) ≤ 4 ∧
    calculate_height (Double.ofInt (-2)) (Double.ofInt 1) (Double.lit (-15) 10)
      (Double.lit 15 10) 4 = some 4 ∧
    (0 : Int) ≤ 4 ∧
    ((1 : Int) ≤ 4 ↔ Double.lit 1 1 ≤ height_quotient (Double.ofInt (-2)) (Double.ofInt 1)
      (Double.lit (-15) 10) (Double.lit 15 10) 4) :=
  have h : calculate_height (Double.ofInt (-2)) (Double.ofInt 1) (Double.lit (-15) 10)
      (Double.lit 15 10) 4 = some 4 := by decide
  have t := C16_height_nonneg (Double.ofInt (-2)) (Double.ofInt 1) (Double.lit (-15) 10)
    (Double.lit 15 10) 4 4 (by decide) (by decide) (by decide) h
  ⟨by decide, by decide, by decide, h, t.1, t.2.1⟩

set_option maxRecDepth 100000 in
/-- C16 (counterexample): the valid viewport `[0, 4] × [0, 3]` with `xres = 1` has the
quotient `0.75` and the derived height 0, which is not `≥ 1`; the divisor of `dy` is then
`0.0` and `dy` is `+∞`. -/
theorem C16_height_zero_for_valid_viewport :
    Double.ofInt 0 < Double.ofInt 4 ∧ Double.ofInt 0 < Double.ofInt 3 ∧ (1 : Int) ≤ 1 ∧
    calculate_height (Double.ofInt 0) (Double.ofInt 4) (Double.ofInt 0) (Double.ofInt 3) 1
      = some 0 ∧
    ¬ (1 : Int) ≤ 0 ∧
    Double.ofInt 0 = Double.fin 0 ∧
    (Double.ofInt 3 - Double.ofInt 0) / Double.ofInt 0 = Double.inf false := by
  decide

/-! ## The kernel against the naive count -/

/-- What `first_escape` finds: the least index of its range with `|z_m|² ≥ 4`, or none when
the range has no such index. -/
theorem first_escape_spec (x y : Double) :
    ∀ (fuel start : Nat),
      (∀ m : Nat, first_escape x y fuel start = some m →
        start ≤ m ∧ m < start + fuel ∧ Double.lit 4 1 ≤ normSq (orbit x y m) ∧
        ∀ j : Nat, start ≤ j → j < m → ¬ Double.lit 4 1 ≤ normSq (orbit x y j)) ∧
      (first_escape x y fuel start = none →
        ∀ j : Nat, start ≤ j → j < start + fuel → ¬ Double.lit 4 1 ≤ normSq (orbit x y j)) := by
  intro fuel
  induction fuel with
  | zero =>
    intro start
    refine ⟨fun m h => ?_, fun _ j h1 h2 => by omega⟩
    simp [first_escape] at h
  | succ fuel ih =>
    intro start
    simp only [first_escape]
    by_cases hE : Double.lit 4 1 ≤ normSq (orbit x y start)
    · rw [if_pos hE]
      refine ⟨fun m h => ?_, fun h => by simp at h⟩
      have hm : start = m := Option.some.inj h
      subst hm
      exact ⟨le_refl _, by omega, hE, fun j h1 h2 => by omega⟩
    · rw [if_neg hE]
      obtain ⟨i1, i2⟩ := ih (start + 1)
      constructor
      · intro m h
        obtain ⟨a, b, c, d⟩ := i1 m h
        refine ⟨by omega, by omega, c, fun j h1 h2 => ?_⟩
        rcases Nat.eq_or_lt_of_le h1 with e | e
        · rw [← e]
          exact hE
        · exact d j (by omega) h2
      · intro h j h1 h2
        rcases Nat.eq_or_lt_of_le h1 with e | e
        · rw [← e]
          exact hE
        · exact i2 h j (by omega) (by omega)

/-- The count `naive_escape_count` against the unbounded reading of its words: for a budget
`n ≥ 1` it is `min(n, 1 + m)` for the least `m ≥ 0` with `|z_m|² ≥ 4`, and `n` when no index
has `|z_m|² ≥ 4`. -/
theorem naive_escape_count_spec (x y : Double) (n : Int) (hn : 1 ≤ n) :
    (∀ m : Nat, Double.lit 4 1 ≤ normSq (orbit x y m) →
      (∀ j : Nat, j < m → ¬ Double.lit 4 1 ≤ normSq (orbit x y j)) →
      naive_escape_count x y n = min n (1 + (m : Int))) ∧
    ((∀ m : Nat, ¬ Double.lit 4 1 ≤ normSq (orbit x y m)) → naive_escape_count x y n = n) := by
  obtain ⟨s1, s2⟩ := first_escape_spec x y n.toNat 0
  unfold naive_escape_count
  rw [if_neg (by omega)]
  constructor
  · intro m hE hmin
    cases hf : first_escape x y n.toNat 0 with
    | none =>
      simp only []
      have := s2 hf
      by_cases hm : m < n.toNat
      · exact absurd hE (this m (by omega) (by omega))
      · omega
    | some m1 =>
      simp only []
      obtain ⟨_, b, c, d⟩ := s1 m1 hf
      rcases lt_trichotomy m1 m with h | h | h
      · exact absurd c (hmin m1 h)
      · rw [h]
      · exact absurd hE (d m (by omega) h)
  · intro hnone
    cases hf : first_escape x y n.toNat 0 with
    | none => rfl
    | some m1 => exact absurd (s1 m1 hf).2.2.1 (hnone m1)

namespace Double

/-- A rounding whose exact value is at most `k` in magnitude, `k < 2^53` a whole number, is
finite and at most `k` in magnitude. -/
theorem roundFrac_fin_bound (k : Nat) (hk : k < 2 ^ 53) (z : Int) (d : Nat) (hd : 0 < d)
    (h : z.natAbs ≤ k * unitsPerOne * d) :
    ∃ t : Int, roundFrac z d = fin t ∧ t.natAbs ≤ k * unitsPerOne := by
  have hle := roundUnits_le_rep z.natAbs d (k * unitsPerOne) hd (representable_units k hk) h
  have hov := units_lt_overflow k hk
  unfold roundFrac round
  simp only []
  rw [if_neg (by omega)]
  refine ⟨_, rfl, ?_⟩
  generalize roundUnits z.natAbs d = r at *
  split <;> omega

theorem fin_add_notNaN (t : Int) (x : Double) (hx : x.notNaN) : (fin t + x).notNaN := by
  cases x with
  | nan => exact absurd rfl hx
  | inf b => exact fun h => Double.noConfusion h
  | fin n => exact roundFrac_notNaN _ _

/-- One pass of the loop from finite `u`, `v` below 2 in magnitude, with `x`, `y` other than
NaN: neither new variable is NaN. -/
theorem step_notNaN_of_notNaN (x y : Double) (hx : x.notNaN) (hy : y.notNaN)
    (a b : Int) (ha : a.natAbs < 2 * unitsPerOne) (hb : b.natAbs < 2 * unitsPerOne) :
    (fin a * fin a - fin b * fin b + x).notNaN ∧ (ofInt 2 * fin a * fin b + y).notNaN := by
  have hU := unitsPerOne_pos
  have sq : ∀ c : Int, c.natAbs < 2 * unitsPerOne →
      ∃ t : Int, fin c * fin c = fin t ∧ t.natAbs ≤ 4 * unitsPerOne := by
    intro c hc
    apply roundFrac_fin_bound 4 (by decide) (c * c) unitsPerOne hU
    rw [Int.natAbs_mul]
    calc c.natAbs * c.natAbs ≤ 2 * unitsPerOne * (2 * unitsPerOne) :=
          Nat.mul_le_mul (by omega) (by omega)
      _ = 4 * unitsPerOne * unitsPerOne := by ring
  obtain ⟨c1, h1, b1⟩ := sq a ha
  obtain ⟨c2, h2, b2⟩ := sq b hb
  obtain ⟨s, hs, _⟩ : ∃ s : Int, fin c1 - fin c2 = fin s ∧ s.natAbs ≤ 8 * unitsPerOne := by
    apply roundFrac_fin_bound 8 (by decide) (c1 + -c2) 1 (by omega)
    omega
  obtain ⟨t, ht, bt⟩ : ∃ t : Int, ofInt 2 * fin a = fin t ∧ t.natAbs ≤ 4 * unitsPerOne := by
    rw [ofInt_eq 2 (by decide)]
    apply roundFrac_fin_bound 4 (by decide) (2 * (unitsPerOne : Int) * a) unitsPerOne hU
    rw [Int.natAbs_mul, Int.natAbs_mul, Int.natAbs_ofNat]
    have : (2 : Int).natAbs = 2 := rfl
    rw [this]
    calc 2 * unitsPerOne * a.natAbs ≤ 2 * unitsPerOne * (2 * unitsPerOne) :=
          Nat.mul_le_mul_left _ (by omega)
      _ = 4 * unitsPerOne * unitsPerOne := by ring
  obtain ⟨w, hw, _⟩ : ∃ w : Int, fin t * fin b = fin w ∧ w.natAbs ≤ 8 * unitsPerOne := by
    apply roundFrac_fin_bound 8 (by decide) (t * b) unitsPerOne hU
    rw [Int.natAbs_mul]
    calc t.natAbs * b.natAbs ≤ 4 * unitsPerOne * (2 * unitsPerOne) :=
          Nat.mul_le_mul bt (by omega)
      _ = 8 * unitsPerOne * unitsPerOne := by ring
  constructor
  · rw [h1, h2, hs]
    exact fin_add_notNaN _ _ hx
  · rw [ht, hw]
    exact fin_add_notNaN _ _ hy

end Double

/-- Along the orbit of a point whose coordinates are not NaN, `|z_j|²` is not NaN as long as
the guard held on all earlier points. -/
theorem normSq_orbit_isNonneg_of_notNaN (x y : Double) (hx : x.notNaN) (hy : y.notNaN) :
    ∀ j : Nat, (∀ i : Nat, i < j → normSq (orbit x y i) < Double.lit 4 1) →
      (normSq (orbit x y j)).isNonneg := by
  intro j hg
  cases j with
  | zero =>
    obtain ⟨h1, _, h3, _, _, _⟩ := zero_facts
    have h5 : Double.fin 0 + Double.fin 0 = Double.fin 0 := Double.roundFrac_zero 1
    have e : normSq (orbit x y 0) = Double.fin 0 := by
      show Double.lit 0 1 * Double.lit 0 1 + Double.lit 0 1 * Double.lit 0 1 = Double.fin 0
      rw [h1, h3, h5]
    rw [e]
    exact Or.inr ⟨0, rfl⟩
  | succ j =>
    have hj := hg j (by omega)
    unfold normSq at hj
    obtain ⟨a, b, ha, hb, hal, hbl⟩ := Double.guard_small _ _ hj
    obtain ⟨n1, n2⟩ := Double.step_notNaN_of_notNaN x y hx hy a b hal hbl
    have e : orbit x y (j + 1)
        = (Double.fin a * Double.fin a - Double.fin b * Double.fin b + x,
            Double.ofInt 2 * Double.fin a * Double.fin b + y) := by
      show orbit_step x y (orbit x y j) = _
      unfold orbit_step
      rw [ha, hb]
    rw [e]
    unfold normSq
    dsimp only
    generalize Double.fin a * Double.fin a - Double.fin b * Double.fin b + x = u1 at *
    generalize Double.ofInt 2 * Double.fin a * Double.fin b + y = v1 at *
    exact Double.add_isNonneg _ _ (Double.mul_self_isNonneg u1 n1)
      (Double.mul_self_isNonneg v1 n2)

/-- With a NaN coordinate, which no call of the exported functions passes to the kernel
(`kernel_args_notNaN`), the first pass makes `|z_1|²` NaN and the guard fails when the
counter is 2. -/
theorem mandelbrot_iterations_nan (x y : Double) (n : Int) (hn : 1 ≤ n)
    (h : x = Double.nan ∨ y = Double.nan) : mandelbrot_iterations x y n = min n 2 := by
  obtain ⟨h1, _, h3, h4, _, _⟩ := zero_facts
  have hbad : ∀ u v : Double, (u = Double.nan ∨ v = Double.nan) →
      ¬ (u * u + v * v < Double.lit 4 1) := by
    intro u v huv hlt
    obtain ⟨a, b, ha, hb, _, _⟩ := Double.guard_small u v hlt
    rcases huv with e | e
    · rw [e] at ha
      exact Double.noConfusion ha
    · rw [e] at hb
      exact Double.noConfusion hb
  have hstep : (Double.fin 0 - Double.fin 0 + x = Double.nan) ∨
      (Double.ofInt 2 * Double.fin 0 * Double.fin 0 + y = Double.nan) := by
    rcases h with e | e
    · left
      rw [e]
      generalize Double.fin 0 - Double.fin 0 = s
      cases s <;> rfl
    · right
      rw [e]
      generalize Double.ofInt 2 * Double.fin 0 * Double.fin 0 = s
      cases s <;> rfl
  unfold mandelbrot_iterations
  simp only [h1, h3]
  obtain ⟨m, hm⟩ : ∃ m : Nat, n.toNat = m + 1 := ⟨n.toNat - 1, by omega⟩
  rw [hm]
  simp only [mandelbrot_loop]
  by_cases hk : (1 : Int) < n
  · rw [if_pos ⟨hk, h4⟩]
    have h2n : min n 2 = 2 := by omega
    rw [h2n]
    cases m with
    | zero => rfl
    | succ m =>
      simp only [mandelbrot_loop]
      rw [if_neg (fun c => hbad _ _ hstep c.2)]
      norm_num
  · rw [if_neg (fun c => hk c.1)]
    omega

/-- For `x`, `y` other than NaN the kernel returns the naive escape-time count: up to the
escape `|z|²` is not NaN, so the guard `|z|² < 4` fails exactly when `|z|² ≥ 4`. -/
theorem mandelbrot_iterations_eq_naive (x y : Double) (n : Int) (hx : x.notNaN)
    (hy : y.notNaN) : mandelbrot_iterations x y n = naive_escape_count x y n := by
  obtain ⟨r1, r2, r3, r4⟩ := mandelbrot_iterations_orbit x y n
  by_cases hn : n ≤ 0
  · unfold naive_escape_count
    rw [if_pos hn]
    omega
  · have hmax : max n 1 = n := by omega
    rw [hmax] at r2
    have hiff : ∀ m : Nat, (m : Int) + 1 ≤ mandelbrot_iterations x y n →
        (Double.lit 4 1 ≤ normSq (orbit x y m) ↔ ¬ normSq (orbit x y m) < Double.lit 4 1) := by
      intro m hm
      exact Double.four_le_iff _ (normSq_orbit_isNonneg_of_notNaN x y hx hy m
        (fun i hi => r3 i (by omega)))
    obtain ⟨s1, s2⟩ := first_escape_spec x y n.toNat 0
    unfold naive_escape_count
    rw [if_neg hn]
    cases hf : first_escape x y n.toNat 0 with
    | none =>
      simp only []
      by_contra hne
      have hlt : mandelbrot_iterations x y n < n := by omega
      have hidx : (((mandelbrot_iterations x y n - 1).toNat : Nat) : Int) + 1
          ≤ mandelbrot_iterations x y n := by omega
      have hE := (hiff _ hidx).mpr (r4 hlt)
      exact s2 hf _ (by omega) (by omega) hE
    | some m =>
      simp only []
      obtain ⟨_, b, c, d⟩ := s1 m hf
      have hge : mandelbrot_iterations x y n ≤ (m : Int) + 1 := by
        by_contra hgt
        have hG := r3 m (by omega)
        exact ((hiff m (by omega)).mp c) hG
      rcases eq_or_lt_of_le hge with e | hlt
      · omega
      · exfalso
        have hltn : mandelbrot_iterations x y n < n := by omega
        have hidx : (((mandelbrot_iterations x y n - 1).toNat : Nat) : Int) + 1
            ≤ mandelbrot_iterations x y n := by omega
        have hE := (hiff _ hidx).mpr (r4 hltn)
        exact d _ (by omega) (by omega) hE

/-! ## The layout of the block -/

theorem ilog2Aux_lt (f k : Nat) (hk : k ≤ f) : k < 2 ^ (ilog2Aux f k + 1) := by
  induction f generalizing k with
  | zero =>
    have : k = 0 := by omega
    subst this
    simp [ilog2Aux]
  | succ f ih =>
    unfold ilog2Aux
    by_cases h2 : k < 2
    · simp only [h2, if_true]
      omega
    · simp only [h2, if_false]
      have := ih (k / 2) (by omega)
      rw [pow_succ]
      omega

theorem ilog2_lt (k : Nat) : k < 2 ^ (ilog2 k + 1) := ilog2Aux_lt k k (le_refl k)

theorem representable_of_le (m s : Nat) (hm : m ≤ 2 ^ 53) : Representable (m * 2 ^ s) := by
  rcases Nat.lt_or_ge m (2 ^ 53) with h | h
  · exact ⟨m, s, h, rfl⟩
  · have e : m = 2 ^ 53 := by omega
    refine ⟨2 ^ 52, s + 1, by norm_num, ?_⟩
    rw [e, pow_succ]
    ring

/-- Every result of `roundUnits` has at most 53 significant bits. -/
theorem representable_roundUnits (n d : Nat) (hd : 0 < d) : Representable (roundUnits n d) := by
  have hq : n / (d * 2 ^ (ilog2 (n / d) - 52)) < 2 ^ 53 := by
    have h1 := ilog2_lt (n / d)
    rw [Nat.div_lt_iff_lt_mul hd] at h1
    have hpos : 0 < d * 2 ^ (ilog2 (n / d) - 52) := by positivity
    rw [Nat.div_lt_iff_lt_mul hpos]
    have h2 : 2 ^ (ilog2 (n / d) + 1) ≤ 2 ^ (53 + (ilog2 (n / d) - 52)) :=
      Nat.pow_le_pow_right (by omega) (by omega)
    calc n < 2 ^ (ilog2 (n / d) + 1) * d := h1
      _ ≤ 2 ^ (53 + (ilog2 (n / d) - 52)) * d := Nat.mul_le_mul_right _ h2
      _ = 2 ^ 53 * (d * 2 ^ (ilog2 (n / d) - 52)) := by rw [pow_add]; ring
  simp only [roundUnits, Nat.shiftLeft_eq]
  generalize ilog2 (n / d) - 52 = s at *
  generalize n / (d * 2 ^ s) = q at *
  have hq2 : q % 2 ≤ 1 := by omega
  split_ifs
  · exact representable_of_le q s (by omega)
  · exact representable_of_le (q + 1) s (by omega)
  · exact representable_of_le (q + q % 2) s (by omega)

namespace Double

/-- A finite result of a rounding is a binary64 magnitude. -/
theorem roundFrac_fin_rep (z : Int) (d : Nat) (hd : 0 < d) (t : Int)
    (h : roundFrac z d = fin t) : Representable t.natAbs ∧ t.natAbs < overflowUnits := by
  have hrep := representable_roundUnits z.natAbs d hd
  unfold roundFrac round at h
  simp only [] at h
  generalize roundUnits z.natAbs d = r at *
  by_cases ho : overflowUnits ≤ r
  · rw [if_pos ho] at h
    exact Double.noConfusion h
  · rw [if_neg ho] at h
    have e : t.natAbs = r := by
      have := fin.inj h
      split at this <;> omega
    rw [e]
    exact ⟨hrep, by omega⟩

/-- A finite difference has finite operands and is a binary64 magnitude. -/
theorem sub_fin_inv (x y : Double) (t : Int) (h : x - y = fin t) :
    (∃ a : Int, x = fin a) ∧ Representable t.natAbs ∧ t.natAbs < overflowUnits := by
  rw [sub_def] at h
  cases x <;> cases y
  case fin.fin a b =>
    exact ⟨⟨a, rfl⟩, roundFrac_fin_rep (a + -b) 1 (by omega) t h⟩
  case inf.inf a b =>
    exfalso
    cases a <;> cases b <;> simp [add, neg] at h
  all_goals exact Double.noConfusion h

/-- A binary64 magnitude divided by an `int` that is at least 1 stays finite. -/
theorem div_int_fin (t : Int) (hrep : Representable t.natAbs) (hlt : t.natAbs < overflowUnits)
    (h : Int) (h1 : 1 ≤ h) (h2 : h ≤ 2147483647) : ∃ q : Int, fin t / ofInt h = fin q := by
  have hU := unitsPerOne_pos
  rw [ofInt_eq h (by omega), div_def]
  have hne : h * (unitsPerOne : Int) ≠ 0 := by
    have : 0 < h * (unitsPerOne : Int) := Int.mul_pos (by omega) (by omega)
    omega
  show ∃ q : Int, (if h * (unitsPerOne : Int) = 0 then _ else
    roundFrac (t * (unitsPerOne : Int) * (h * (unitsPerOne : Int)).sign)
      (h * (unitsPerOne : Int)).natAbs) = fin q
  rw [if_neg hne]
  have hd : 0 < (h * (unitsPerOne : Int)).natAbs := Int.natAbs_pos.mpr hne
  have hle := roundUnits_le_rep (t * (unitsPerOne : Int) * (h * (unitsPerOne : Int)).sign).natAbs
    (h * (unitsPerOne : Int)).natAbs t.natAbs hd hrep (by
      rw [Int.natAbs_mul, Int.natAbs_mul, Int.natAbs_mul, Int.natAbs_ofNat, Int.natAbs_sign_of_nonzero hne,
        mul_one]
      have : 1 ≤ h.natAbs := by omega
      calc t.natAbs * unitsPerOne = t.natAbs * (1 * unitsPerOne) := by ring
        _ ≤ t.natAbs * (h.natAbs * unitsPerOne) :=
          Nat.mul_le_mul_left _ (Nat.mul_le_mul_right _ this))
  unfold roundFrac round
  simp only []
  rw [if_neg (by omega)]
  exact ⟨_, rfl⟩

/-- Subtracting the product `0 * d`, `d` finite, from a binary64 value leaves the value. -/
theorem sub_zero_mul (y : Double) (hy : y.isBinary64 = true) (q : Int) :
    y - ofInt 0 * fin q = y := by
  have h0 : ofInt 0 * fin q = fin 0 := by
    rw [zero_facts.2.1, mul_def]
    show roundFrac (0 * q) unitsPerOne = fin 0
    rw [zero_mul, roundFrac_zero]
  rw [h0, sub_def]
  cases y with
  | nan => rfl
  | inf b => rfl
  | fin n =>
    show roundFrac (n + -0) 1 = fin n
    simp only [isBinary64, decide_eq_true_eq] at hy
    rw [neg_zero, add_zero]
    exact hy

end Double

/-- A finite quotient in `calculate_height` comes from a finite `ymax - ymin`. -/
theorem height_quotient_fin_inv (xmin xmax ymin ymax : Double) (xres : Int) (n : Int)
    (h : height_quotient xmin xmax ymin ymax xres = Double.fin n) :
    ∃ t : Int, ymax - ymin = Double.fin t := by
  unfold height_quotient at h
  rw [Double.div_def, Double.mul_def] at h
  generalize Double.ofInt xres = a at h
  generalize xmax - xmin = b at h
  cases hD : ymax - ymin with
  | fin t => exact ⟨t, rfl⟩
  | nan =>
    exfalso
    rw [hD] at h
    cases a <;> cases b <;> simp [Double.mul, Double.div] at h
  | inf s =>
    exfalso
    rw [hD] at h
    cases a with
    | nan => cases b <;> simp [Double.mul, Double.div] at h
    | inf s1 => cases b <;> simp [Double.mul, Double.div] at h
    | fin m =>
      by_cases hm : m = 0
      · cases b <;> simp [Double.mul, Double.div, hm] at h
      · cases b <;> simp [Double.mul, Double.div, hm] at h

/-- A height that `calculate_height` returns comes from a finite quotient and fits an `int`. -/
theorem calculate_height_inv (xmin xmax ymin ymax : Double) (xres yres : Int)
    (hh : calculate_height xmin xmax ymin ymax xres = some yres) :
    (∃ n : Int, height_quotient xmin xmax ymin ymax xres = Double.fin n) ∧
    -2147483648 ≤ yres ∧ yres ≤ 2147483647 := by
  unfold calculate_height at hh
  cases hq : height_quotient xmin xmax ymin ymax xres with
  | nan => rw [hq] at hh; simp [Double.toInt] at hh
  | inf b => rw [hq] at hh; simp [Double.toInt] at hh
  | fin n =>
    rw [hq] at hh
    refine ⟨⟨n, rfl⟩, ?_⟩
    unfold Double.toInt at hh
    simp only [] at hh
    split at hh
    · cases hh
      omega
    · cases hh

/-- The first row of a render with at least one row is sampled at `y = ymax`. -/
theorem pixel_y_row_zero (xmin xmax ymin ymax : Double) (xres yres : Int)
    (hh : calculate_height xmin xmax ymin ymax xres = some yres) (h1 : 1 ≤ yres)
    (hy : ymax.isBinary64 = true) :
    pixel_y ymax ((ymax - ymin) / Double.ofInt yres) 0 = ymax := by
  obtain ⟨⟨n, hn⟩, _, hmax⟩ := calculate_height_inv xmin xmax ymin ymax xres yres hh
  obtain ⟨t, ht⟩ := height_quotient_fin_inv xmin xmax ymin ymax xres n hn
  obtain ⟨_, hrep, hlt⟩ := Double.sub_fin_inv ymax ymin t ht
  obtain ⟨q, hq⟩ := Double.div_int_fin t hrep hlt yres h1 hmax
  unfold pixel_y
  rw [ht, hq]
  exact Double.sub_zero_mul ymax hy q

/-- The arithmetic of the row-major layout: quads of distinct pixels are disjoint, and every
offset below `4 * (h * w)` lies in the quad of one pixel. -/
theorem quad_layout (w h : Nat) :
    (∀ i j c i1 j1 c1 : Nat, i < w → i1 < w → c < 4 → c1 < 4 →
      4 * (j * w + i) + c = 4 * (j1 * w + i1) + c1 → i = i1 ∧ j = j1 ∧ c = c1) ∧
    (∀ b : Nat, b < 4 * (h * w) →
      ∃ i j c : Nat, i < w ∧ j < h ∧ c < 4 ∧ b = 4 * (j * w + i) + c) ∧
    (∀ i j c : Nat, i < w → j < h → c < 4 → 4 * (j * w + i) + c < 4 * (h * w)) := by
  refine ⟨?_, ?_, ?_⟩
  · intro i j c i1 j1 c1 hi hi1 hc hc1 he
    have hp : j * w + i = j1 * w + i1 := by omega
    have hcc : c = c1 := by omega
    have hw : 0 < w := by omega
    have d1 : (i + j * w) / w = j := by
      rw [Nat.add_mul_div_right i j hw, Nat.div_eq_of_lt hi, zero_add]
    have d2 : (i1 + j1 * w) / w = j1 := by
      rw [Nat.add_mul_div_right i1 j1 hw, Nat.div_eq_of_lt hi1, zero_add]
    have hj : j = j1 := by
      rw [← d1, ← d2]
      congr 1
      omega
    subst hj
    exact ⟨by omega, rfl, hcc⟩
  · intro b hb
    have hw : 0 < w := by
      rcases Nat.eq_zero_or_pos w with h0 | h0
      · subst h0
        simp at hb
      · exact h0
    refine ⟨b / 4 % w, b / 4 / w, b % 4, Nat.mod_lt _ hw, ?_, Nat.mod_lt _ (by omega), ?_⟩
    · rw [Nat.div_lt_iff_lt_mul hw]
      omega
    · have e1 := Nat.div_add_mod (b / 4) w
      have e2 := Nat.div_add_mod b 4
      have e3 : b / 4 / w * w = w * (b / 4 / w) := Nat.mul_comm _ _
      omega
  · intro i j c hi hj hc
    have : (j + 1) * w ≤ h * w := Nat.mul_le_mul_right _ hj
    have e : (j + 1) * w = j * w + w := by ring
    omega

/-- The layout of a returned block: in a block returned by `generate_mandelbrot` or `generate_mandelbrot_color` with
`xres ≥ 1` and a height `≥ 1`, the block has `width * height * 4` bytes; pixel `(i, j)` holds
its bytes R, G, B, A at the offsets `4*(j*width + i) .. 4*(j*width + i) + 3`, all inside the
block, and they are the colouring of the count at the sample point `x = xmin + i*dx`,
`y = ymax - j*dy`; the quads of distinct pixels are disjoint; every byte of the block lies in
the quad of a pixel of the grid, so every byte is written; and row 0 is sampled at
`y = ymax`. -/
theorem returned_block_layout (H : Host) (xmin xmax ymin ymax : Double) (maxiter xres : Int)
    (shade : Int → RGBA) (r : Rendered) (buf : List Nat)
    (hr : (generate_mandelbrot H xmin xmax ymin ymax maxiter xres = some r ∧
        shade = gray_shade maxiter) ∨
      (generate_mandelbrot_color H xmin xmax ymin ymax maxiter xres = some r ∧
        shade = color_shade H maxiter))
    (hbuf : r.pixels = some buf) (hw : 1 ≤ xres) (hh : 1 ≤ r.last_dimensions.height) :
    r.last_dimensions.width = xres ∧
    buf.length = xres.toNat * r.last_dimensions.height.toNat * 4 ∧
    (∀ i j c : Nat, i < xres.toNat → j < r.last_dimensions.height.toNat → c < 4 →
      4 * (j * xres.toNat + i) + c < buf.length ∧
      buf[4 * (j * xres.toNat + i) + c]? = some ((shade (mandelbrot_iterations
        (pixel_x xmin ((xmax - xmin) / Double.ofInt xres) i)
        (pixel_y ymax ((ymax - ymin) / Double.ofInt r.last_dimensions.height) j)
        maxiter)).byte c)) ∧
    (∀ i j c i1 j1 c1 : Nat, i < xres.toNat → i1 < xres.toNat → c < 4 → c1 < 4 →
      4 * (j * xres.toNat + i) + c = 4 * (j1 * xres.toNat + i1) + c1 →
      i = i1 ∧ j = j1 ∧ c = c1) ∧
    (∀ b : Nat, b < buf.length →
      ∃ i j c : Nat, i < xres.toNat ∧ j < r.last_dimensions.height.toNat ∧ c < 4 ∧
        b = 4 * (j * xres.toNat + i) + c) ∧
    (ymax.isBinary64 = true →
      pixel_y ymax ((ymax - ymin) / Double.ofInt r.last_dimensions.height) 0 = ymax) := by
  have hr1 : render shade H xmin xmax ymin ymax maxiter xres = some r := by
    rcases hr with ⟨h, e⟩ | ⟨h, e⟩
    · rw [e]
      exact h
    · rw [e]
      exact h
  obtain ⟨yres, hcalc, hd, hlen, _, hB, hbytes⟩ := render_stored shade H xmin xmax ymin ymax
    maxiter xres r buf hr1 hbuf
  rw [hd] at hh ⊢
  simp only at hh ⊢
  have hsize := alloc_size_eq xres yres (by omega) (by omega) hB
  rw [hsize] at hlen
  obtain ⟨q1, q2, q3⟩ := quad_layout xres.toNat yres.toNat
  refine ⟨trivial, ?_, ?_, q1, ?_, ?_⟩
  · rw [hlen]
    ring
  · intro i j c hi hj hc
    have hlt : j * xres.toNat + i < yres.toNat * xres.toNat := by
      have := q3 i j 0 hi hj (by omega)
      omega
    obtain ⟨b0, b1, b2, b3⟩ := hbytes j i hi hlt
    refine ⟨by rw [hlen]; exact q3 i j c hi hj hc, ?_⟩
    unfold pixel_shade at b0 b1 b2 b3
    rcases c with _ | _ | _ | _ | c
    · exact b0
    · exact b1
    · exact b2
    · exact b3
    · omega
  · intro b hb
    exact q2 b (by omega)
  · intro hy
    exact pixel_y_row_zero xmin xmax ymin ymax xres yres hcalc hh hy

/-! ## The colour channels -/

/-- The cast `(unsigned char)d` of a finite value whose integer part is in `0..255` is that
integer part: the cast truncates toward zero. -/
theorem uchar_of_double_trunc (H : Host) (n : Int) (h0 : 0 ≤ Int.tdiv n unitsPerOne)
    (h1 : Int.tdiv n unitsPerOne ≤ 255) :
    uchar_of_double H (Double.fin n) = (Int.tdiv n unitsPerOne).toNat := by
  unfold uchar_of_double
  simp only []
  rw [if_pos ⟨h0, h1⟩]

/-- The product `255 * s` for a finite `s` between `254/255` and `1 - 2^-52` is a finite value
in `[254, 255)`. -/
theorem mul_255_below_one (m : Nat) (hlo : 254 * unitsPerOne ≤ 255 * m)
    (V : Nat) (hV : Representable ((255 * 35184372088832 - 1) * V))
    (hUV : unitsPerOne = 35184372088832 * V) (hhi : 255 * m ≤ (255 * 35184372088832 - 1) * V) :
    ∃ p : Nat, Double.ofInt 255 * Double.fin (m : Int) = Double.fin (p : Int) ∧
      254 * unitsPerOne ≤ p ∧ p < 255 * unitsPerOne := by
  have hU := unitsPerOne_pos
  have hVpos : 0 < V := by
    rcases Nat.eq_zero_or_pos V with h | h
    · rw [h] at hUV
      omega
    · exact h
  have e255 : Double.ofInt 255 = Double.fin ((255 * unitsPerOne : Nat) : Int) := by
    rw [Double.ofInt_eq 255 (by decide)]
    push_cast
    rfl
  have hBlt : (255 * 35184372088832 - 1) * V < 255 * unitsPerOne := by
    rw [hUV]
    have : (255 * 35184372088832 - 1) * V + V = 255 * (35184372088832 * V) := by
      have h1 : (255 * 35184372088832 - 1 + 1) * V = 255 * (35184372088832 * V) := by
        norm_num
        ring
      rw [← h1]
      ring
    omega
  have hov : 255 * unitsPerOne < overflowUnits := units_lt_overflow 255 (by decide)
  have hle : 255 * unitsPerOne * m ≤ (255 * 35184372088832 - 1) * V * unitsPerOne := by
    calc 255 * unitsPerOne * m = 255 * m * unitsPerOne := by ring
      _ ≤ (255 * 35184372088832 - 1) * V * unitsPerOne := Nat.mul_le_mul_right _ hhi
  have hge : 254 * unitsPerOne * unitsPerOne ≤ 255 * unitsPerOne * m := by
    calc 254 * unitsPerOne * unitsPerOne ≤ 255 * m * unitsPerOne := Nat.mul_le_mul_right _ hlo
      _ = 255 * unitsPerOne * m := by ring
  have hfin := Double.round_false_fin (255 * unitsPerOne * m) unitsPerOne
    ((255 * 35184372088832 - 1) * V) hU hV (by omega) hle
  have hr1 := roundUnits_le_rep (255 * unitsPerOne * m) unitsPerOne
    ((255 * 35184372088832 - 1) * V) hU hV hle
  have hr2 := roundUnits_ge_rep (255 * unitsPerOne * m) unitsPerOne (254 * unitsPerOne) hU
    (representable_units 254 (by decide)) hge
  refine ⟨roundUnits (255 * unitsPerOne * m) unitsPerOne, ?_, hr2, by omega⟩
  rw [e255, Double.mul_fin_nat, hfin]

set_option maxRecDepth 100000 in
/-- The two bounds `0.999` and `1 - 2^-52` in units, against `254/255` and `255 - 2^-45`. -/
theorem sine_bounds_units :
    ∃ c1 c2 V : Nat, Double.lit 999 1000 = Double.fin (c1 : Int) ∧
      Double.lit 4503599627370495 4503599627370496 = Double.fin (c2 : Int) ∧
      254 * unitsPerOne ≤ 255 * c1 ∧ 255 * c2 ≤ (255 * 35184372088832 - 1) * V ∧
      unitsPerOne = 35184372088832 * V ∧ V = 2 ^ 1029 :=
  ⟨(Double.lit 999 1000).units, (Double.lit 4503599627370495 4503599627370496).units,
    1 <<< 1029, by decide, by decide, by decide, by decide, by decide,
    by rw [Nat.shiftLeft_eq, one_mul]⟩

/-- The red byte of the colour mapping when the host's sine is a finite value between `0.999`
and `1 - 2^-52`: the product with 255 is below 255 and the cast truncates it to 254. -/
theorem color_red_below_one (H : Host) (maxiter k : Int) (hk : k < maxiter)
    (hlo : Double.lit 999 1000
      ≤ H.sin (color_t maxiter k * Double.lit 314159 100000 * Double.ofInt 2))
    (hhi : H.sin (color_t maxiter k * Double.lit 314159 100000 * Double.ofInt 2)
      ≤ Double.lit 4503599627370495 4503599627370496) :
    (color_shade H maxiter k).r = 254 := by
  have hU := unitsPerOne_pos
  rw [color_shade_t H maxiter k hk]
  simp only []
  generalize H.sin (color_t maxiter k * Double.lit 314159 100000 * Double.ofInt 2) = s at *
  obtain ⟨c1, c2, V, e1, e2, b1, b2, hUV, hV⟩ := sine_bounds_units
  have hrep : Representable ((255 * 35184372088832 - 1) * V) :=
    ⟨255 * 35184372088832 - 1, 1029, by norm_num, congrArg _ hV⟩
  clear hV
  rw [e1, Double.le_def] at hlo
  rw [e2, Double.le_def] at hhi
  cases s with
  | nan => simp [Double.le] at hlo
  | inf b => cases b <;> simp [Double.le] at hlo hhi
  | fin n =>
    simp only [Double.le, decide_eq_true_eq] at hlo hhi
    obtain ⟨m, rfl⟩ := Int.eq_ofNat_of_zero_le (by omega : 0 ≤ n)
    have hlo1 : c1 ≤ m := by omega
    have hhi1 : m ≤ c2 := by omega
    obtain ⟨p, hp, p1, p2⟩ := mul_255_below_one m (by omega) V hrep hUV (by omega)
    rw [hp]
    have ht : Int.tdiv (p : Int) (unitsPerOne : Int) = 254 := by
      rw [Int.tdiv_eq_ediv (by omega) (by omega)]
      have h1 : (254 : Int) ≤ (p : Int) / (unitsPerOne : Int) :=
        Int.le_ediv_of_mul_le (by omega) (by omega)
      have h2 : (p : Int) / (unitsPerOne : Int) < 255 :=
        Int.ediv_lt_of_lt_mul (by omega) (by omega)
      omega
    rw [uchar_of_double_trunc H _ (by omega) (by omega), ht]
    rfl

/-- The exact sine just below `π/2`: for `1.5707949 ≤ x ≤ 1.5707951` it lies strictly between
`0.999` and `1 - 2^-52`. -/
theorem real_sin_near_quarter_turn (x : ℝ) (h1 : (1.5707949 : ℝ) ≤ x) (h2 : x ≤ 1.5707951) :
    (0.999 : ℝ) < Real.sin x ∧ Real.sin x < 1 - 1 / 4503599627370496 := by
  have p1 := Real.pi_gt_d6
  have p2 := Real.pi_lt_d6
  have e : Real.sin x = Real.cos (Real.pi / 2 - x) := (Real.cos_pi_div_two_sub x).symm
  rw [e]
  generalize hδ : Real.pi / 2 - x = δ
  have d1 : (0.0000009 : ℝ) < δ := by rw [← hδ]; linarith
  have d2 : δ < 0.0000016 := by rw [← hδ]; linarith
  have habs : |δ| ≤ 1 := by rw [abs_le]; constructor <;> linarith
  have hlow := Real.one_sub_sq_div_two_le_cos (x := δ)
  have hup := Real.cos_bound habs
  rw [abs_le] at hup
  have habs2 : |δ| = δ := abs_of_pos (by linarith)
  rw [habs2] at hup
  have hsq1 : δ ^ 2 < 0.0000016 ^ 2 := by nlinarith
  have hsq2 : (0.0000009 : ℝ) ^ 2 < δ ^ 2 := by nlinarith
  have h4 : δ ^ 4 = δ ^ 2 * δ ^ 2 := by ring
  have hsq0 : 0 ≤ δ ^ 2 := by positivity
  constructor
  · norm_num at hsq1 ⊢
    linarith
  · have h5 : δ ^ 4 * (5 / 96) ≤ δ ^ 2 * (1 / 10) := by
      rw [h4]
      nlinarith
    norm_num at hsq2 hsq1 ⊢
    linarith [hup.2]

set_option maxRecDepth 100000 in
/-- The argument `0.25 * 3.14159 * 2` of the sine, as computed in binary64, in units. -/
theorem quarter_turn_argument :
    ∃ a : Nat, color_t 4 1 * Double.lit 314159 100000 * Double.ofInt 2 = Double.fin (a : Int) ∧
      15707949 * unitsPerOne ≤ 10000000 * a ∧ 10000000 * a ≤ 15707951 * unitsPerOne :=
  ⟨(color_t 4 1 * Double.lit 314159 100000 * Double.ofInt 2).units, by decide, by decide,
    by decide⟩

/-- The hypothesis of the example of C17 is what the exact sine satisfies: at the argument
`0.25 * 3.14159 * 2` computed in binary64, the exact sine lies strictly between `0.999` and
`1 - 2^-52`, so a library sine that is accurate there returns a value in that range. -/
theorem exact_sine_at_quarter_turn :
    (0.999 : ℝ) < Real.sin (((color_t 4 1 * Double.lit 314159 100000
        * Double.ofInt 2).toRat : ℚ) : ℝ) ∧
    Real.sin (((color_t 4 1 * Double.lit 314159 100000 * Double.ofInt 2).toRat : ℚ) : ℝ)
      < 1 - 1 / 4503599627370496 := by
  obtain ⟨a, ha, b1, b2⟩ := quarter_turn_argument
  have hU := unitsPerOne_pos
  rw [ha]
  have e : (((Double.fin (a : Int)).toRat : ℚ) : ℝ) = (a : ℝ) / (unitsPerOne : ℝ) := by
    unfold Double.toRat
    push_cast
    rfl
  rw [e]
  generalize unitsPerOne = U at *
  have hUr : (0 : ℝ) < (U : ℝ) := by exact_mod_cast hU
  have c1 : (15707949 : ℝ) * (U : ℝ) ≤ 10000000 * (a : ℝ) := by exact_mod_cast b1
  have c2 : (10000000 : ℝ) * (a : ℝ) ≤ 15707951 * (U : ℝ) := by exact_mod_cast b2
  apply real_sin_near_quarter_turn
  · rw [le_div_iff₀ hUr]
    linarith
  · rw [div_le_iff₀ hUr]
    linarith

/-- C17 (amended): in a block returned by `generate_mandelbrot_color`, for every escaped pixel
with `t = (double)k / maxiter`, the red byte is the cast to `unsigned char` of the `double`
`255 * sin(t * 3.14159 * 2)`, green and blue likewise with the factors 4 and 6; the cast
truncates toward zero (it does not round) whenever the integer part is in `0..255`.  For
`k = 1`, `maxiter = 4` the argument of the sine is `1.570795`, below `π/2`, and with a sine
whose value there is between `0.999` and `1 - 2^-52` the red byte is 254. -/
theorem C17_color_channels_truncate (H : Host) (xmin xmax ymin ymax : Double)
    (maxiter xres : Int) (r : Rendered) (buf : List Nat)
    (hr : generate_mandelbrot_color H xmin xmax ymin ymax maxiter xres = some r)
    (hbuf : r.pixels = some buf) (i j : Nat)
    (hi : (i : Int) < r.last_dimensions.width) (hj : (j : Int) < r.last_dimensions.height)
    (hk : mandelbrot_iterations
        (pixel_x xmin ((xmax - xmin) / Double.ofInt r.last_dimensions.width) i)
        (pixel_y ymax ((ymax - ymin) / Double.ofInt r.last_dimensions.height) j) maxiter
        < maxiter) :
    (buf[4 * (j * r.last_dimensions.width.toNat + i)]?
        = some (uchar_of_double H (Double.ofInt 255 * H.sin (color_t maxiter
          (mandelbrot_iterations
            (pixel_x xmin ((xmax - xmin) / Double.ofInt r.last_dimensions.width) i)
            (pixel_y ymax ((ymax - ymin) / Double.ofInt r.last_dimensions.height) j) maxiter)
          * Double.lit 314159 100000 * Double.ofInt 2))) ∧
      buf[4 * (j * r.last_dimensions.width.toNat + i) + 1]?
        = some (uchar_of_double H (Double.ofInt 255 * H.sin (color_t maxiter
          (mandelbrot_iterations
            (pixel_x xmin ((xmax - xmin) / Double.ofInt r.last_dimensions.width) i)
            (pixel_y ymax ((ymax - ymin) / Double.ofInt r.last_dimensions.height) j) maxiter)
          * Double.lit 314159 100000 * Double.ofInt 4))) ∧
      buf[4 * (j * r.last_dimensions.width.toNat + i) + 2]?
        = some (uchar_of_double H (Double.ofInt 255 * H.sin (color_t maxiter
          (mandelbrot_iterations
            (pixel_x xmin ((xmax - xmin) / Double.ofInt r.last_dimensions.width) i)
            (pixel_y ymax ((ymax - ymin) / Double.ofInt r.last_dimensions.height) j) maxiter)
          * Double.lit 314159 100000 * Double.ofInt 6)))) ∧
    (∀ n : Int, 0 ≤ Int.tdiv n unitsPerOne → Int.tdiv n unitsPerOne ≤ 255 →
      uchar_of_double H (Double.fin n) = (Int.tdiv n unitsPerOne).toNat) ∧
    (Double.lit 999 1000
        ≤ H.sin (color_t 4 1 * Double.lit 314159 100000 * Double.ofInt 2) →
      H.sin (color_t 4 1 * Double.lit 314159 100000 * Double.ofInt 2)
        ≤ Double.lit 4503599627370495 4503599627370496 →
      (color_shade H 4 1).r = 254) := by
  obtain ⟨_, b0, b1, b2, _⟩ := render_pixel _ H xmin xmax ymin ymax maxiter xres r buf hr hbuf
    i j hi hj
  rw [color_shade_t H maxiter _ hk] at b0 b1 b2
  simp only [] at b0 b1 b2
  refine ⟨?_, ?_, ?_⟩
  · exact ⟨b0, b1, b2⟩
  · exact fun n h0 h1 => uchar_of_double_trunc H n h0 h1
  intro hlo hhi
  have h14 : (1 : Int) < 4 := by decide
  exact color_red_below_one H 4 1 h14 hlo hhi

set_option maxRecDepth 100000 in
/-- C17 (witness): the one-pixel colour render of the viewport `[2, 3] × [-1, 0]` with budget
8 on the host `seriesHost`: the pixel is the point `(2, 0)`, its count is 2 and `t = 0.25`. -/
theorem C17_color_channels_truncate_witness :
    generate_mandelbrot_color seriesHost (Double.ofInt 2) (Double.ofInt 3) (Double.ofInt (-1))
      (Double.ofInt 0) 8 1 = some ⟨some [254, 0, 2, 255], ⟨1, 1⟩⟩ ∧
    mandelbrot_iterations
      (pixel_x (Double.ofInt 2) ((Double.ofInt 3 - Double.ofInt 2) / Double.ofInt 1) 0)
      (pixel_y (Double.ofInt 0) ((Double.ofInt 0 - Double.ofInt (-1)) / Double.ofInt 1) 0) 8
      = 2 ∧
    Double.lit 999 1000
      ≤ seriesHost.sin (color_t 4 1 * Double.lit 314159 100000 * Double.ofInt 2) ∧
    seriesHost.sin (color_t 4 1 * Double.lit 314159 100000 * Double.ofInt 2)
      ≤ Double.lit 4503599627370495 4503599627370496 ∧
    [254, 0, 2, 255][0]?
      = some (uchar_of_double seriesHost (Double.ofInt 255 * seriesHost.sin (color_t 8
        (mandelbrot_iterations
          (pixel_x (Double.ofInt 2) ((Double.ofInt 3 - Double.ofInt 2) / Double.ofInt 1) 0)
          (pixel_y (Double.ofInt 0) ((Double.ofInt 0 - Double.ofInt (-1)) / Double.ofInt 1) 0)
          8)
        * Double.lit 314159 100000 * Double.ofInt 2))) ∧
    (color_shade seriesHost 4 1).r = 254 :=
  have h : generate_mandelbrot_color seriesHost (Double.ofInt 2) (Double.ofInt 3)
      (Double.ofInt (-1)) (Double.ofInt 0) 8 1 = some ⟨some [254, 0, 2, 255], ⟨1, 1⟩⟩ := by
    decide
  have hlo : Double.lit 999 1000
      ≤ seriesHost.sin (color_t 4 1 * Double.lit 314159 100000 * Double.ofInt 2) := by decide
  have hhi : seriesHost.sin (color_t 4 1 * Double.lit 314159 100000 * Double.ofInt 2)
      ≤ Double.lit 4503599627370495 4503599627370496 := by decide
  have t := C17_color_channels_truncate seriesHost (Double.ofInt 2) (Double.ofInt 3)
    (Double.ofInt (-1)) (Double.ofInt 0) 8 1 ⟨some [254, 0, 2, 255], ⟨1, 1⟩⟩ [254, 0, 2, 255]
    h rfl 0 0 (by decide) (by decide) (by decide)
  ⟨h, by decide, hlo, hhi, t.1.1, t.2.2 hlo hhi⟩

set_option maxRecDepth 100000 in
/-- C17 (counterexample): for `k = 1`, `maxiter = 4` (and for `k = 2`, `maxiter = 8`, the
count of the point `(2, 0)`) `t` is `0.25` and the claimed red byte is
`round(255 * sin(π/2)) = 255`.  On the host `seriesHost`, whose sine at `0.25 * 3.14159 * 2`
is the binary64 value `0.9999999999991198`, the red byte stored is 254. -/
theorem C17_quarter_turn_red_is_254 :
    color_t 4 1 = Double.lit 1 4 ∧ color_t 8 2 = Double.lit 1 4 ∧
    seriesHost.sin (color_t 4 1 * Double.lit 314159 100000 * Double.ofInt 2)
      = Double.lit 9999999999991198 10000000000000000 ∧
    (color_shade seriesHost 4 1).r = 254 ∧
    mandelbrot_iterations (Double.ofInt 2) (Double.ofInt 0) 8 = 2 ∧
    generate_mandelbrot_color seriesHost (Double.ofInt 2) (Double.ofInt 3) (Double.ofInt (-1))
      (Double.ofInt 0) 8 1 = some ⟨some [254, 0, 2, 255], ⟨1, 1⟩⟩ ∧
    (color_shade seriesHost 4 1).r ≠ 255 ∧
    round ((255 : ℝ) * Real.sin ((1 / 4 : ℝ) * (2 * Real.pi))) = 255 := by
  refine ⟨by decide, by decide, by decide, by decide, by decide, by decide, by decide, ?_⟩
  have e : (1 / 4 : ℝ) * (2 * Real.pi) = Real.pi / 2 := by ring
  rw [e, Real.sin_pi_div_two, mul_one]
  exact round_ofNat 255

/-! ## The layout of the block when its size fits an `int` -/

/-- The byte count `xres * yres * 4`, when it fits an `int`, as the count of the pixels. -/
theorem size_toNat (xres yres : Int) (hx : 0 ≤ xres) (hy : 0 ≤ yres) :
    (xres * yres * 4).toNat = 4 * (yres.toNat * xres.toNat) := by
  obtain ⟨w, rfl⟩ := Int.eq_ofNat_of_zero_le hx
  obtain ⟨h, rfl⟩ := Int.eq_ofNat_of_zero_le hy
  have e : ((w : Int) * (h : Int) * 4) = ((4 * (h * w) : Nat) : Int) := by
    push_cast
    ring
  rw [e]
  exact Int.toNat_ofNat _

/-- In a block of no bytes the first store of the loops is outside the block: with at least
one row and one column `raster` is undefined. -/
theorem raster_empty_block (shade : Int → RGBA) (xmin ymax dx dy : Double)
    (maxiter xres yres : Int) (hw : 1 ≤ xres) (hh : 1 ≤ yres) :
    raster shade xmin ymax dx dy maxiter xres yres [] = none := by
  obtain ⟨n, hn⟩ : ∃ n : Nat, yres.toNat = n + 1 := ⟨yres.toNat - 1, by omega⟩
  obtain ⟨m, hm⟩ : ∃ m : Nat, xres.toNat = m + 1 := ⟨xres.toNat - 1, by omega⟩
  have hs : ∀ (idx : Int) (c : RGBA), store_rgba [] idx c = none := by
    intro idx c
    have h0 : store [] idx c.r = none := by
      unfold store
      rw [if_neg]
      simp only [List.length_nil, Nat.cast_zero]
      omega
    unfold store_rgba
    rw [h0]
    rfl
  unfold raster
  rw [hn, hm, List.range_succ_eq_map n, List.foldlM_cons]
  dsimp only
  rw [List.range_succ_eq_map m, List.foldlM_cons, hs]
  rfl

/-- C13 (amended): for `xres ≥ 1` and a derived height `≥ 1` whose byte count
`xres * height * 4` fits an `int`, when the allocator grants the block,
`generate_mandelbrot` and `generate_mandelbrot_color` return a block of
`width * height * 4` bytes, so no store leaves it; pixel `(i, j)` holds its bytes R, G, B, A
at the offsets `4*(j*width + i) .. 4*(j*width + i) + 3`, all inside the block, and they are
the colouring of the count at the sample point `x = xmin + i*dx`, `y = ymax - j*dy`; the
quads of distinct pixels are disjoint; every byte of the block lies in the quad of a pixel of
the grid, so every byte is written; and row 0 is sampled at `y = ymax`. -/
theorem C13_row_major_layout (H : Host) (xmin xmax ymin ymax : Double)
    (maxiter xres yres : Int) (shade : Int → RGBA) (R : Option Rendered)
    (hR : (R = generate_mandelbrot H xmin xmax ymin ymax maxiter xres ∧
        shade = gray_shade maxiter) ∨
      (R = generate_mandelbrot_color H xmin xmax ymin ymax maxiter xres ∧
        shade = color_shade H maxiter))
    (hcalc : calculate_height xmin xmax ymin ymax xres = some yres)
    (hw : 1 ≤ xres) (hh : 1 ≤ yres) (hsize : xres * yres * 4 ≤ 2147483647)
    (hm : H.malloc_ok (xres * yres * 4).toNat = true) :
    ∃ buf : List Nat, R = some ⟨some buf, ⟨xres, yres⟩⟩ ∧
      buf.length = xres.toNat * yres.toNat * 4 ∧
      (∀ i j c : Nat, i < xres.toNat → j < yres.toNat → c < 4 →
        4 * (j * xres.toNat + i) + c < buf.length ∧
        buf[4 * (j * xres.toNat + i) + c]? = some ((shade (mandelbrot_iterations
          (pixel_x xmin ((xmax - xmin) / Double.ofInt xres) i)
          (pixel_y ymax ((ymax - ymin) / Double.ofInt yres) j) maxiter)).byte c)) ∧
      (∀ i j c i1 j1 c1 : Nat, i < xres.toNat → i1 < xres.toNat → c < 4 → c1 < 4 →
        4 * (j * xres.toNat + i) + c = 4 * (j1 * xres.toNat + i1) + c1 →
        i = i1 ∧ j = j1 ∧ c = c1) ∧
      (∀ b : Nat, b < buf.length →
        ∃ i j c : Nat, i < xres.toNat ∧ j < yres.toNat ∧ c < 4 ∧
          b = 4 * (j * xres.toNat + i) + c) ∧
      (ymax.isBinary64 = true →
        pixel_y ymax ((ymax - ymin) / Double.ofInt yres) 0 = ymax) := by
  have hst := size_toNat xres yres (by omega) (by omega)
  have hB : 4 * (yres.toNat * xres.toNat) ≤ 2147483648 := by
    have : ((xres * yres * 4).toNat : Int) ≤ 2147483647 := by omega
    rw [hst] at this
    omega
  rw [hst] at hm
  obtain ⟨buf, hr, _⟩ := render_defined shade H xmin xmax ymin ymax maxiter xres yres hcalc
    (by omega) (by omega) hB hm
  have hRr : R = some ⟨some buf, ⟨xres, yres⟩⟩ := by
    rcases hR with ⟨e, es⟩ | ⟨e, es⟩
    · rw [e, ← hr, es]
      rfl
    · rw [e, ← hr, es]
      rfl
  have hgen : (generate_mandelbrot H xmin xmax ymin ymax maxiter xres
        = some ⟨some buf, ⟨xres, yres⟩⟩ ∧ shade = gray_shade maxiter) ∨
      (generate_mandelbrot_color H xmin xmax ymin ymax maxiter xres
        = some ⟨some buf, ⟨xres, yres⟩⟩ ∧ shade = color_shade H maxiter) := by
    rcases hR with ⟨e, es⟩ | ⟨e, es⟩
    · exact Or.inl ⟨by rw [← e, hRr], es⟩
    · exact Or.inr ⟨by rw [← e, hRr], es⟩
  obtain ⟨_, l1, l2, l3, l4, l5⟩ := returned_block_layout H xmin xmax ymin ymax maxiter xres
    shade ⟨some buf, ⟨xres, yres⟩⟩ buf hgen rfl hw hh
  exact ⟨buf, hRr, l1, l2, l3, l4, l5⟩

set_option maxRecDepth 100000 in
/-- C13 (witness): the grayscale render of the viewport `[-2, 2] × [-2, 2]` with `xres = 2`
and budget 10: two rows of two pixels, sixteen bytes; the three pixels on the border escape
with count 2 and the pixel at the origin does not escape. -/
theorem C13_row_major_layout_witness :
    calculate_height (Double.ofInt (-2)) (Double.ofInt 2) (Double.ofInt (-2)) (Double.ofInt 2) 2
      = some 2 ∧
    (1 : Int) ≤ 2 ∧ (2 : Int) * 2 * 4 ≤ 2147483647 ∧
    plainHost.malloc_ok ((2 : Int) * 2 * 4).toNat = true ∧
    (Double.ofInt 2).isBinary64 = true ∧
    generate_mandelbrot plainHost (Double.ofInt (-2)) (Double.ofInt 2) (Double.ofInt (-2))
      (Double.ofInt 2) 10 2
      = some ⟨some [51, 51, 51, 255, 51, 51, 51, 255, 51, 51, 51, 255, 0, 0, 0, 255],
          ⟨2, 2⟩⟩ ∧
    ∃ buf : List Nat,
      generate_mandelbrot plainHost (Double.ofInt (-2)) (Double.ofInt 2) (Double.ofInt (-2))
        (Double.ofInt 2) 10 2 = some ⟨some buf, ⟨2, 2⟩⟩ ∧
      buf.length = (2 : Int).toNat * (2 : Int).toNat * 4 ∧
      (∀ i j c : Nat, i < (2 : Int).toNat → j < (2 : Int).toNat → c < 4 →
        4 * (j * (2 : Int).toNat + i) + c < buf.length ∧
        buf[4 * (j * (2 : Int).toNat + i) + c]? = some ((gray_shade 10 (mandelbrot_iterations
          (pixel_x (Double.ofInt (-2)) ((Double.ofInt 2 - Double.ofInt (-2)) / Double.ofInt 2) i)
          (pixel_y (Double.ofInt 2) ((Double.ofInt 2 - Double.ofInt (-2)) / Double.ofInt 2) j)
          10)).byte c)) ∧
      (∀ i j c i1 j1 c1 : Nat, i < (2 : Int).toNat → i1 < (2 : Int).toNat → c < 4 → c1 < 4 →
        4 * (j * (2 : Int).toNat + i) + c = 4 * (j1 * (2 : Int).toNat + i1) + c1 →
        i = i1 ∧ j = j1 ∧ c = c1) ∧
      (∀ b : Nat, b < buf.length →
        ∃ i j c : Nat, i < (2 : Int).toNat ∧ j < (2 : Int).toNat ∧ c < 4 ∧
          b = 4 * (j * (2 : Int).toNat + i) + c) ∧
      ((Double.ofInt 2).isBinary64 = true →
        pixel_y (Double.ofInt 2) ((Double.ofInt 2 - Double.ofInt (-2)) / Double.ofInt 2) 0
          = Double.ofInt 2) :=
  have h : calculate_height (Double.ofInt (-2)) (Double.ofInt 2) (Double.ofInt (-2))
      (Double.ofInt 2) 2 = some 2 := by decide
  ⟨h, by decide, by decide, rfl, by decide, by decide,
    C13_row_major_layout plainHost (Double.ofInt (-2)) (Double.ofInt 2) (Double.ofInt (-2))
      (Double.ofInt 2) 10 2 2 (gray_shade 10) _ (Or.inl ⟨rfl, rfl⟩) h (by decide) (by decide)
      (by decide) rfl⟩

set_option maxRecDepth 100000 in
/-- C13 (counterexample): the valid viewport `[0, 1] × [0, 1]` with `xres = 32768` has
width and height 32768, both `≥ 1`.  The byte count `32768 * 32768 * 4 = 2^32` does not fit
an `int`, and `malloc` receives 0: the block has no byte, not `width * height * 4`, the
offset 0 of pixel `(0, 0)` is outside it, and the renders are undefined. -/
theorem C13_block_of_zero_bytes :
    Double.ofInt 0 < Double.ofInt 1 ∧ (1 : Int) ≤ 32768 ∧
    calculate_height (Double.ofInt 0) (Double.ofInt 1) (Double.ofInt 0) (Double.ofInt 1) 32768
      = some 32768 ∧
    alloc_size 32768 32768 = 0 ∧
    malloc plainHost (alloc_size 32768 32768) = some [] ∧
    ([] : List Nat).length ≠ (32768 : Int).toNat * (32768 : Int).toNat * 4 ∧
    pixel_index 32768 0 0 = 0 ∧ ¬ (pixel_index 32768 0 0 < (([] : List Nat).length : Int)) ∧
    generate_mandelbrot plainHost (Double.ofInt 0) (Double.ofInt 1) (Double.ofInt 0)
      (Double.ofInt 1) 10 32768 = none ∧
    generate_mandelbrot_color plainHost (Double.ofInt 0) (Double.ofInt 1) (Double.ofInt 0)
      (Double.ofInt 1) 10 32768 = none := by
  have hc : calculate_height (Double.ofInt 0) (Double.ofInt 1) (Double.ofInt 0)
      (Double.ofInt 1) 32768 = some 32768 := by decide
  have hm : malloc plainHost (alloc_size 32768 32768) = some [] := by decide
  have key : ∀ shade : Int → RGBA,
      render shade plainHost (Double.ofInt 0) (Double.ofInt 1) (Double.ofInt 0)
        (Double.ofInt 1) 10 32768 = none := by
    intro shade
    unfold render
    simp only [hc, Option.bind_eq_bind, Option.some_bind, hm]
    rw [raster_empty_block shade _ _ _ _ 10 32768 32768 (by decide) (by decide)]
    rfl
  exact ⟨by decide, by decide, hc, by decide, hm, by decide, by decide, by decide, key _, key _⟩

/-! ## The kernel on the arguments the program passes -/

namespace Double

/-- A finite difference has two finite operands. -/
theorem sub_fin_operands (x y : Double) (t : Int) (h : x - y = fin t) :
    ∃ a b : Int, x = fin a ∧ y = fin b := by
  rw [sub_def] at h
  cases x <;> cases y
  case fin.fin a b => exact ⟨a, b, rfl, rfl⟩
  case inf.inf a b =>
    exfalso
    cases a <;> cases b <;> simp [add, neg] at h
  all_goals exact Double.noConfusion h

theorem fin_sub_notNaN (t : Int) (w : Double) (hw : w.notNaN) : (fin t - w).notNaN := by
  cases w with
  | nan => exact absurd rfl hw
  | inf b => exact fun h => Double.noConfusion h
  | fin n => exact roundFrac_notNaN _ _

end Double

/-- A finite quotient in `calculate_height` that is not zero has a finite `xmax - xmin`. -/
theorem height_quotient_divisor_fin (xmin xmax ymin ymax : Double) (xres n : Int)
    (h : height_quotient xmin xmax ymin ymax xres = Double.fin n) (hn : n ≠ 0) :
    ∃ e : Int, xmax - xmin = Double.fin e := by
  unfold height_quotient at h
  rw [Double.div_def] at h
  generalize Double.ofInt xres * (ymax - ymin) = a at h
  cases hE : xmax - xmin with
  | fin e => exact ⟨e, rfl⟩
  | nan =>
    exfalso
    rw [hE] at h
    cases a <;> simp [Double.div] at h
  | inf s =>
    exfalso
    rw [hE] at h
    cases a with
    | nan => simp [Double.div] at h
    | inf s1 => simp [Double.div] at h
    | fin m =>
      simp only [Double.div, Double.fin.injEq] at h
      exact hn h.symm

/-- The arguments of the kernel are never NaN: at every pixel of the grid of a call whose
height is derived, the sample point `(xmin + i*dx, ymax - j*dy)` has no NaN coordinate. -/
theorem kernel_args_notNaN (xmin xmax ymin ymax : Double) (xres yres px py : Int)
    (hh : calculate_height xmin xmax ymin ymax xres = some yres)
    (hx0 : 0 ≤ px) (hx1 : px < xres) (hy0 : 0 ≤ py) (hy1 : py < yres)
    (hmax : xres ≤ 2147483647) :
    (pixel_x xmin ((xmax - xmin) / Double.ofInt xres) px).notNaN ∧
    (pixel_y ymax ((ymax - ymin) / Double.ofInt yres) py).notNaN := by
  have hU := unitsPerOne_pos
  obtain ⟨⟨n, hn⟩, _, hymax⟩ := calculate_height_inv xmin xmax ymin ymax xres yres hh
  have hn0 : n ≠ 0 := by
    intro h0
    unfold calculate_height at hh
    rw [hn, h0] at hh
    simp [Double.toInt] at hh
    omega
  obtain ⟨t, ht⟩ := height_quotient_fin_inv xmin xmax ymin ymax xres n hn
  obtain ⟨e, he⟩ := height_quotient_divisor_fin xmin xmax ymin ymax xres n hn hn0
  obtain ⟨_, hrepT, hltT⟩ := Double.sub_fin_inv ymax ymin t ht
  obtain ⟨_, hrepE, hltE⟩ := Double.sub_fin_inv xmax xmin e he
  obtain ⟨a, _, hya, _⟩ := Double.sub_fin_operands ymax ymin t ht
  obtain ⟨_, b, _, hxb⟩ := Double.sub_fin_operands xmax xmin e he
  obtain ⟨q, hq⟩ := Double.div_int_fin t hrepT hltT yres (by omega) hymax
  obtain ⟨p, hp⟩ := Double.div_int_fin e hrepE hltE xres (by omega) hmax
  unfold pixel_x pixel_y
  rw [he, hp, ht, hq]
  constructor
  · rw [hxb, Double.ofInt_eq px (by omega)]
    exact Double.fin_add_notNaN _ _ (Double.fin_mul_fin_notNaN _ _)
  · rw [hya, Double.ofInt_eq py (by omega)]
    exact Double.fin_sub_notNaN _ _ (Double.fin_mul_fin_notNaN _ _)

/-- C18: the kernel, which carries `u²` and `v²` between passes, returns the naive
escape-time count over the recurrence `z₀ = 0`, `z_{m+1} = z_m² + (x + iy)`: for every `x`,
`y` other than NaN and every budget `n ≥ 1`, `min(n, 1 + m*)` for the least `m* ≥ 0` with
`|z_{m*}|² ≥ 4` and `n` when there is no such index; for `n ≤ 0` it returns 1.  These are
all the arguments the program passes: at every pixel of a call whose height is derived the
sample point has no NaN coordinate, so `get_pixel_iterations` returns the naive count and the
render loops colour it. -/
theorem C18_kernel_is_naive_count :
    (∀ (x y : Double) (n : Int), x.notNaN → y.notNaN →
      mandelbrot_iterations x y n = naive_escape_count x y n ∧
      (1 ≤ n → ∀ m : Nat, Double.lit 4 1 ≤ normSq (orbit x y m) →
        (∀ j : Nat, j < m → ¬ Double.lit 4 1 ≤ normSq (orbit x y j)) →
        mandelbrot_iterations x y n = min n (1 + (m : Int))) ∧
      (1 ≤ n → (∀ m : Nat, ¬ Double.lit 4 1 ≤ normSq (orbit x y m)) →
        mandelbrot_iterations x y n = n)) ∧
    (∀ (x y : Double) (n : Int), n ≤ 0 → mandelbrot_iterations x y n = 1) ∧
    (∀ (xmin xmax ymin ymax : Double) (maxiter xres yres px py : Int),
      calculate_height xmin xmax ymin ymax xres = some yres →
      0 ≤ px → px < xres → 0 ≤ py → py < yres → xres ≤ 2147483647 →
      (pixel_x xmin ((xmax - xmin) / Double.ofInt xres) px).notNaN ∧
      (pixel_y ymax ((ymax - ymin) / Double.ofInt yres) py).notNaN ∧
      get_pixel_iterations xmin xmax ymin ymax maxiter xres px py
        = some (naive_escape_count (pixel_x xmin ((xmax - xmin) / Double.ofInt xres) px)
            (pixel_y ymax ((ymax - ymin) / Double.ofInt yres) py) maxiter) ∧
      ∀ shade : Int → RGBA,
        pixel_shade shade xmin ymax ((xmax - xmin) / Double.ofInt xres)
            ((ymax - ymin) / Double.ofInt yres) maxiter py.toNat px.toNat
          = shade (naive_escape_count (pixel_x xmin ((xmax - xmin) / Double.ofInt xres) px)
              (pixel_y ymax ((ymax - ymin) / Double.ofInt yres) py) maxiter)) := by
  refine ⟨?_, ?_, ?_⟩
  · intro x y n hx hy
    have he := mandelbrot_iterations_eq_naive x y n hx hy
    refine ⟨he, fun hn m hE hmin => ?_, fun hn hnone => ?_⟩
    · rw [he]
      exact (naive_escape_count_spec x y n hn).1 m hE hmin
    · rw [he]
      exact (naive_escape_count_spec x y n hn).2 hnone
  · intro x y n hn
    obtain ⟨r1, r2, _, _⟩ := mandelbrot_iterations_orbit x y n
    omega
  · intro xmin xmax ymin ymax maxiter xres yres px py hh hx0 hx1 hy0 hy1 hmax
    obtain ⟨nx, ny⟩ := kernel_args_notNaN xmin xmax ymin ymax xres yres px py hh hx0 hx1 hy0
      hy1 hmax
    have he := mandelbrot_iterations_eq_naive _ _ maxiter nx ny
    refine ⟨nx, ny, ?_, ?_⟩
    · rw [← he]
      exact get_pixel_iterations_in_bounds xmin xmax ymin ymax maxiter xres px py yres hh hx0
        hx1 hy0 hy1
    · intro shade
      rw [← he]
      unfold pixel_shade
      rw [Int.toNat_of_nonneg hx0, Int.toNat_of_nonneg hy0]

set_option maxRecDepth 100000 in
/-- C18 (witness): the point `(1, 1)`, with `|z₁|² = 2` and `|z₂|² = 10`, and budget 10: the
least index with `|z_m|² ≥ 4` is 2, and the kernel and the naive count both give 3; it is the
sample point of pixel `(0, 0)` of the viewport `[1, 2] × [0, 1]` with `xres = 1`. -/
theorem C18_kernel_is_naive_count_witness :
    (Double.ofInt 1).notNaN ∧ (1 : Int) ≤ 10 ∧
    Double.lit 4 1 ≤ normSq (orbit (Double.ofInt 1) (Double.ofInt 1) 2) ∧
    (∀ j : Nat, j < 2 → ¬ Double.lit 4 1 ≤ normSq (orbit (Double.ofInt 1) (Double.ofInt 1) j)) ∧
    naive_escape_count (Double.ofInt 1) (Double.ofInt 1) 10 = 3 ∧
    mandelbrot_iterations (Double.ofInt 1) (Double.ofInt 1) 10
      = naive_escape_count (Double.ofInt 1) (Double.ofInt 1) 10 ∧
    mandelbrot_iterations (Double.ofInt 1) (Double.ofInt 1) 10 = min 10 (1 + ((2 : Nat) : Int)) ∧
    calculate_height (Double.ofInt 1) (Double.ofInt 2) (Double.ofInt 0) (Double.ofInt 1) 1
      = some 1 ∧
    get_pixel_iterations (Double.ofInt 1) (Double.ofInt 2) (Double.ofInt 0) (Double.ofInt 1)
      10 1 0 0
      = some (naive_escape_count
          (pixel_x (Double.ofInt 1) ((Double.ofInt 2 - Double.ofInt 1) / Double.ofInt 1) 0)
          (pixel_y (Double.ofInt 1) ((Double.ofInt 1 - Double.ofInt 0) / Double.ofInt 1) 0)
          10) :=
  have h : (Double.ofInt 1).notNaN := Double.roundFrac_notNaN _ _
  have hE : Double.lit 4 1 ≤ normSq (orbit (Double.ofInt 1) (Double.ofInt 1) 2) := by decide
  have hmin : ∀ j : Nat, j < 2 →
      ¬ Double.lit 4 1 ≤ normSq (orbit (Double.ofInt 1) (Double.ofInt 1) j) := by decide
  have hc : calculate_height (Double.ofInt 1) (Double.ofInt 2) (Double.ofInt 0)
      (Double.ofInt 1) 1 = some 1 := by decide
  have t := C18_kernel_is_naive_count.1 (Double.ofInt 1) (Double.ofInt 1) 10 h h
  ⟨h, by decide, hE, hmin, by decide, t.1, t.2.1 (by decide) 2 hE hmin, hc,
    (C18_kernel_is_naive_count.2.2 (Double.ofInt 1) (Double.ofInt 2) (Double.ofInt 0)
      (Double.ofInt 1) 10 1 1 0 0 hc (by decide) (by decide) (by decide) (by decide)
      (by decide)).2.2.1⟩

end Mandelbrot
